import Mathlib

/-!
GoQuant matching engine: the per-symbol order book and the registry of books.

A shallow embedding of `src/include/order_types.hpp`, `src/src/order_book.cpp` and
the event handling of `src/src/matching_engine.cpp`.

Modelling conventions.

* `Price` and `Quantity` are `double` in the source.  They are embedded as exact
  integers (ticks and lots), so every comparison, `std::min` and subtraction is
  exact; rounding, infinities and NaN are outside the model.
* `std::map<Price, OrderBookLevel, Compare>` is embedded as the list of its
  `(key, value)` entries in iteration order (`begin()` is the head of the list).
  The functions below do not require the list to be sorted; theorems that need
  the ordering of the map assume it explicitly.
* `std::unordered_map<OrderId, std::pair<Price, OrderSide>>` is embedded as an
  association list; only `find`, `at`, `operator[]` and `erase` are used by the
  source, none of which observes an iteration order.
* The trade and BBO sinks are embedded as the list of calls made to
  `notifyTrade` and `updateBBO`, in call order.  `Trade::timestamp` is the wall
  clock at the time of the fill and is not part of the model.
* The `while` loop of `matchAgainstSide` is embedded with a fuel counter; running
  out of fuel is the result `none`.
* `std::unordered_map<std::string, std::unique_ptr<OrderBook>>` is embedded as an
  association list of symbols and books; a mutation through the pointer found under
  a symbol replaces the book of that entry.  The callbacks the engine installs have
  empty bodies; the calls made to them are kept as the list of events.
* `queue_mutex_` serialises the calls of the producers and the passes of the worker
  through its loop (the worker handles an event while it holds the guard).  A run of
  the engine is embedded as a sequence of these critical sections, in any order.
-/

namespace crypto_matching_engine

abbrev OrderId := Nat
abbrev Price := Int
abbrev Quantity := Int

inductive OrderSide where
  | BUY
  | SELL
  deriving DecidableEq, Repr

inductive OrderType where
  | MARKET
  | LIMIT
  | IOC
  | FOK
  deriving DecidableEq, Repr

structure Order where
  id : OrderId
  symbol : String
  side : OrderSide
  type : OrderType
  quantity : Quantity
  price : Option Price
  timestamp : Nat
  is_active : Bool
  deriving DecidableEq, Repr

structure Trade where
  maker_order_id : OrderId
  taker_order_id : OrderId
  symbol : String
  price : Price
  quantity : Quantity
  aggressor_side : OrderSide
  deriving DecidableEq, Repr

structure OrderBookLevel where
  price : Price
  total_quantity : Quantity
  orders : List Order
  deriving DecidableEq, Repr

structure BestBidOffer where
  best_bid : Option Price
  best_offer : Option Price
  best_bid_quantity : Option Quantity
  best_offer_quantity : Option Quantity
  deriving DecidableEq, Repr

/-- Entries of a `std::map<Price, OrderBookLevel, Compare>` in iteration order. -/
abbrev Ladder := List (Price × OrderBookLevel)

/-- Entries of the `std::unordered_map` behind `order_lookup_`. -/
abbrev Lookup := List (OrderId × (Price × OrderSide))

/-- A call made to one of the two sinks of a book. -/
inductive Event where
  | trade (t : Trade)
  | bbo (symbol : String) (b : BestBidOffer)
  deriving DecidableEq, Repr

structure OrderBook where
  symbol_ : String
  bids_ : Ladder
  asks_ : Ladder
  order_lookup_ : Lookup
  deriving DecidableEq, Repr

/-- The value-initialised `OrderBookLevel` that `std::map::operator[]` inserts. -/
def OrderBookLevel.zero : OrderBookLevel :=
  { price := 0, total_quantity := 0, orders := [] }

/-- The comparison `std::greater<Price>` of `bids_` (`true`) or `std::less<Price>` of `asks_`. -/
def keyBefore (descending : Bool) (a b : Price) : Bool :=
  if descending then decide (a > b) else decide (a < b)

/-- Model of `std::map::find`: the level stored under key `p`, if any. -/
def Ladder.find (m : Ladder) (p : Price) : Option OrderBookLevel :=
  match m with
  | [] => none
  | (k, l) :: rest => if k = p then some l else Ladder.find rest p

/-- Model of `auto& level = m[p]; level = f level`: the entry under `p` is created
value-initialised at its place in the key order when it is missing, then updated. -/
def Ladder.update (descending : Bool) (p : Price) (f : OrderBookLevel → OrderBookLevel) :
    Ladder → Ladder
  | [] => [(p, f OrderBookLevel.zero)]
  | (k, l) :: rest =>
    if k = p then (k, f l) :: rest
    else if keyBefore descending p k then (p, f OrderBookLevel.zero) :: (k, l) :: rest
    else (k, l) :: Ladder.update descending p f rest

/-- Model of assigning through a found iterator: `level_it->second = l`. -/
def Ladder.assign (p : Price) (lv : OrderBookLevel) : Ladder → Ladder
  | [] => []
  | (k, l) :: rest => if k = p then (k, lv) :: rest else (k, l) :: Ladder.assign p lv rest

/-- Model of `std::map::erase(level_it)` for the iterator found under key `p`. -/
def Ladder.erase (p : Price) : Ladder → Ladder
  | [] => []
  | (k, l) :: rest => if k = p then rest else (k, l) :: Ladder.erase p rest

/-- Model of `order_lookup_.find(id)` and `order_lookup_.at(id)`. -/
def Lookup.find (m : Lookup) (id : OrderId) : Option (Price × OrderSide) :=
  match m with
  | [] => none
  | (k, v) :: rest => if k = id then some v else Lookup.find rest id

/-- Model of `order_lookup_.erase(id)`. -/
def Lookup.erase (id : OrderId) : Lookup → Lookup
  | [] => []
  | (k, v) :: rest => if k = id then rest else (k, v) :: Lookup.erase id rest

/-- Model of `order_lookup_[id] = v`. -/
def Lookup.set (id : OrderId) (v : Price × OrderSide) : Lookup → Lookup
  | [] => [(id, v)]
  | (k, w) :: rest => if k = id then (k, v) :: rest else (k, w) :: Lookup.set id v rest

/-- `OrderBook::OrderBook(symbol)`. -/
def OrderBook.new (symbol : String) : OrderBook :=
  { symbol_ := symbol, bids_ := [], asks_ := [], order_lookup_ := [] }

/-- `OrderBook::getBBO`. -/
def getBBO (b : OrderBook) : BestBidOffer :=
  let bbo : BestBidOffer :=
    { best_bid := none, best_offer := none, best_bid_quantity := none,
      best_offer_quantity := none }
  let bbo :=
    match b.bids_ with
    | (price, level) :: _ =>
      { bbo with best_bid := some price, best_bid_quantity := some level.total_quantity }
    | [] => bbo
  let bbo :=
    match b.asks_ with
    | (price, level) :: _ =>
      { bbo with best_offer := some price, best_offer_quantity := some level.total_quantity }
    | [] => bbo
  bbo

/-- One `for` loop of `getOrderBookDepth` over a ladder, from the given value of `count`:
`if (count++ >= levels) break;` followed by `depth.emplace_back`. -/
def depthLoop (levels : Nat) : Nat → Ladder → List (Price × Quantity)
  | _, [] => []
  | count, (price, level) :: rest =>
    if count ≥ levels then []
    else (price, level.total_quantity) :: depthLoop levels (count + 1) rest

/-- `OrderBook::getOrderBookDepth`: the loop over `bids_`, then the loop over `asks_`
with `count` reset to 0. -/
def getOrderBookDepth (b : OrderBook) (levels : Nat) : List (Price × Quantity) :=
  depthLoop levels 0 b.bids_ ++ depthLoop levels 0 b.asks_

/-- `OrderBook::updateBBO`: the call made to the BBO sink. -/
def updateBBO (b : OrderBook) : List Event :=
  [Event.bbo b.symbol_ (getBBO b)]

/-- State of the `for` loop over `level.orders` in `matchAgainstSide`. -/
structure LevelSweep where
  order : Order
  orders : List Order
  total_quantity : Quantity
  lookup : Lookup
  trades : List Trade
  deriving DecidableEq, Repr

/-- The `for` loop of `matchAgainstSide` (lines 60-89) over the orders of one level,
from the iterator position onwards.  `orders` of the result are the elements the
loop has left in the vector from that position onwards. -/
def matchLevel (symbol_ : String) (price : Price) :
    Order → List Order → Quantity → Lookup → LevelSweep
  | order, [], total_quantity, lookup =>
    { order := order, orders := [], total_quantity := total_quantity, lookup := lookup,
      trades := [] }
  | order, it :: rest, total_quantity, lookup =>
    if order.quantity ≤ 0 then
      { order := order, orders := it :: rest, total_quantity := total_quantity,
        lookup := lookup, trades := [] }
    else
      let match_quantity := min order.quantity it.quantity
      let trade : Trade :=
        { maker_order_id := it.id, taker_order_id := order.id, symbol := symbol_,
          price := price, quantity := match_quantity, aggressor_side := order.side }
      let order1 := { order with quantity := order.quantity - match_quantity }
      let it1 := { it with quantity := it.quantity - match_quantity }
      let total1 := total_quantity - match_quantity
      if it1.quantity = 0 then
        let r := matchLevel symbol_ price order1 rest total1 (Lookup.erase it.id lookup)
        { r with trades := trade :: r.trades }
      else
        let r := matchLevel symbol_ price order1 rest total1 lookup
        { r with orders := it1 :: r.orders, trades := trade :: r.trades }

/-- The `break` test of `matchAgainstSide` (lines 54-55).  For a buy the bound is
`order.price.value_or(numeric_limits<Price>::max())`; no price exceeds that maximum, so
the test is `false` when the price is absent. -/
def cannotMatch (is_buy : Bool) (price : Price) (order_price : Option Price) : Bool :=
  (is_buy && (match order_price with
              | some limit => decide (price > limit)
              | none => false))
    || (!is_buy && decide (price < order_price.getD 0))

/-- State of the `while` loop of `matchAgainstSide`. -/
structure Sweep where
  order : Order
  opposite_side : Ladder
  lookup : Lookup
  trades : List Trade
  deriving DecidableEq, Repr

/-- The `while` loop of `matchAgainstSide` (lines 50-95); one unit of fuel per
evaluation of the loop condition. -/
def matchLoop (symbol_ : String) (is_buy : Bool) :
    Nat → Order → Ladder → Lookup → Option Sweep
  | 0, _, _, _ => none
  | fuel + 1, order, opposite_side, lookup =>
    if order.quantity > 0 then
      match opposite_side with
      | [] => some { order := order, opposite_side := [], lookup := lookup, trades := [] }
      | (price, level) :: rest =>
        if cannotMatch is_buy price order.price then
          some { order := order, opposite_side := (price, level) :: rest, lookup := lookup,
                 trades := [] }
        else
          let r := matchLevel symbol_ price order level.orders level.total_quantity lookup
          let level1 : OrderBookLevel :=
            { level with total_quantity := r.total_quantity, orders := r.orders }
          let opposite1 := if r.orders.isEmpty then rest else (price, level1) :: rest
          match matchLoop symbol_ is_buy fuel r.order opposite1 r.lookup with
          | some s => some { s with trades := r.trades ++ s.trades }
          | none => none
    else
      some { order := order, opposite_side := opposite_side, lookup := lookup, trades := [] }

/-- Result of a private member function that mutates the book and the order. -/
structure Step where
  book : OrderBook
  order : Order
  events : List Event
  deriving DecidableEq, Repr

/-- `OrderBook::matchAgainstSide`; the call sites pass `asks_` with `is_buy = true` and
`bids_` with `is_buy = false`.  The loop is given one unit of fuel per level of the
opposite side and one more. -/
def matchAgainstSide (b : OrderBook) (order : Order) (is_buy : Bool) : Option Step :=
  let opposite_side := if is_buy then b.asks_ else b.bids_
  match matchLoop b.symbol_ is_buy (opposite_side.length + 1) order opposite_side
      b.order_lookup_ with
  | none => none
  | some s =>
    let b1 : OrderBook :=
      if is_buy then { b with asks_ := s.opposite_side, order_lookup_ := s.lookup }
      else { b with bids_ := s.opposite_side, order_lookup_ := s.lookup }
    some { book := b1, order := s.order,
           events := s.trades.map Event.trade ++ updateBBO b1 }

/-- `OrderBook::matchOrder`: the returned flag with the mutated book and order. -/
def matchOrder (b : OrderBook) (order : Order) : Option (Bool × Step) :=
  if order.quantity ≤ 0 then some (false, { book := b, order := order, events := [] })
  else
    match matchAgainstSide b order (decide (order.side = OrderSide.BUY)) with
    | none => none
    | some st => some (decide (st.order.quantity = 0), st)

/-- `OrderBook::addToBook`; called only with `order.price` present. -/
def addToBook (b : OrderBook) (order : Order) : OrderBook × List Event :=
  let p := order.price.getD 0
  let push : OrderBookLevel → OrderBookLevel := fun level =>
    { price := p, orders := level.orders ++ [order],
      total_quantity := level.total_quantity + order.quantity }
  let b1 : OrderBook :=
    if order.side = OrderSide.BUY then { b with bids_ := Ladder.update true p push b.bids_ }
    else { b with asks_ := Ladder.update false p push b.asks_ }
  let b2 : OrderBook :=
    { b1 with order_lookup_ := Lookup.set order.id (p, order.side) b1.order_lookup_ }
  (b2, updateBBO b2)

/-- Result of a public mutating member function: return value, book, sink calls. -/
structure Outcome where
  ret : Bool
  book : OrderBook
  events : List Event
  deriving DecidableEq, Repr

/-- `OrderBook::addOrder`. -/
def addOrder (b : OrderBook) (order : Order) : Option Outcome :=
  if order.type = OrderType.LIMIT ∧ order.price = none then
    some { ret := false, book := b, events := [] }
  else
    match matchOrder b order with
    | none => none
    | some (matched, st) =>
      if matched ∧ (st.order.type = OrderType.IOC ∨ st.order.type = OrderType.FOK)
          ∧ st.order.quantity > 0 then
        some { ret := false, book := st.book, events := st.events }
      else if st.order.quantity > 0 ∧ st.order.type = OrderType.LIMIT then
        let r := addToBook st.book st.order
        some { ret := true, book := r.1, events := st.events ++ r.2 }
      else
        some { ret := true, book := st.book, events := st.events }

/-- The `find_if` / `erase` block of `removeFromBook` on one ladder. -/
def removeFromLadder (order_id : OrderId) (price : Price) (m : Ladder) : Ladder :=
  match Ladder.find m price with
  | none => m
  | some level =>
    match level.orders.find? (fun o => decide (o.id = order_id)) with
    | none => m
    | some found =>
      let level1 : OrderBookLevel :=
        { level with total_quantity := level.total_quantity - found.quantity,
                     orders := level.orders.eraseP (fun o => decide (o.id = order_id)) }
      if level1.orders.isEmpty then Ladder.erase price m
      else Ladder.assign price level1 m

/-- `OrderBook::removeFromBook`.  `entry` is the value of `order_lookup_.at(order_id)`,
which the only caller, `cancelOrder`, has just found. -/
def removeFromBook (b : OrderBook) (order_id : OrderId) (entry : Price × OrderSide) :
    OrderBook × List Event :=
  let price := entry.1
  let side := entry.2
  let b1 : OrderBook :=
    if side = OrderSide.BUY then { b with bids_ := removeFromLadder order_id price b.bids_ }
    else { b with asks_ := removeFromLadder order_id price b.asks_ }
  let b2 : OrderBook := { b1 with order_lookup_ := Lookup.erase order_id b1.order_lookup_ }
  (b2, updateBBO b2)

/-- `OrderBook::cancelOrder`. -/
def cancelOrder (b : OrderBook) (order_id : OrderId) : Outcome :=
  match Lookup.find b.order_lookup_ order_id with
  | none => { ret := false, book := b, events := [] }
  | some entry =>
    let r := removeFromBook b order_id entry
    { ret := true, book := r.1, events := r.2 }

/-- The assignment `order_it->quantity = new_quantity` at the first order with the id. -/
def setQuantity (order_id : OrderId) (new_quantity : Quantity) : List Order → List Order
  | [] => []
  | o :: os =>
    if o.id = order_id then { o with quantity := new_quantity } :: os
    else o :: setQuantity order_id new_quantity os

/-- The `find_if` / assignment block of `modifyOrder` on one ladder; `none` when the
level or the order is not found. -/
def modifyInLadder (order_id : OrderId) (price : Price) (new_quantity : Quantity)
    (m : Ladder) : Option Ladder :=
  match Ladder.find m price with
  | none => none
  | some level =>
    match level.orders.find? (fun o => decide (o.id = order_id)) with
    | none => none
    | some found =>
      let level1 : OrderBookLevel :=
        { level with
            total_quantity := level.total_quantity - found.quantity + new_quantity,
            orders := setQuantity order_id new_quantity level.orders }
      some (Ladder.assign price level1 m)

/-- `OrderBook::modifyOrder`. -/
def modifyOrder (b : OrderBook) (order_id : OrderId) (new_quantity : Quantity) : Outcome :=
  match Lookup.find b.order_lookup_ order_id with
  | none => { ret := false, book := b, events := [] }
  | some (price, side) =>
    if side = OrderSide.BUY then
      match modifyInLadder order_id price new_quantity b.bids_ with
      | some m =>
        let b1 : OrderBook := { b with bids_ := m }
        { ret := true, book := b1, events := updateBBO b1 }
      | none => { ret := false, book := b, events := [] }
    else
      match modifyInLadder order_id price new_quantity b.asks_ with
      | some m =>
        let b1 : OrderBook := { b with asks_ := m }
        { ret := true, book := b1, events := updateBBO b1 }
      | none => { ret := false, book := b, events := [] }

/-! ### Definitions used to state and prove the properties -/

/-- The trades among the sink calls, in call order. -/
def tradesOf : List Event → List Trade
  | [] => []
  | Event.trade t :: es => t :: tradesOf es
  | Event.bbo _ _ :: es => tradesOf es

/-- Sum of the quantities of a sequence of trades. -/
def tradedQuantity (ts : List Trade) : Quantity :=
  (ts.map (fun t => t.quantity)).sum

/-- The ladder an aggressor of the given side is matched against. -/
def oppositeSide (b : OrderBook) (side : OrderSide) : Ladder :=
  if side = OrderSide.BUY then b.asks_ else b.bids_

/-- The ladder an order of the given side rests in. -/
def ownSide (b : OrderBook) (side : OrderSide) : Ladder :=
  if side = OrderSide.BUY then b.bids_ else b.asks_

/-- The `while` loop of `matchAgainstSide` written by recursion on the levels of the
opposite side: a level that the `for` loop leaves non-empty ends the sweep.
`matchLoop_eq_sweepLevels` shows that `matchLoop` computes this function. -/
def sweepLevels (symbol_ : String) (is_buy : Bool) : Order → Ladder → Lookup → Sweep
  | order, [], lookup =>
    { order := order, opposite_side := [], lookup := lookup, trades := [] }
  | order, (price, level) :: rest, lookup =>
    if order.quantity > 0 ∧ cannotMatch is_buy price order.price = false then
      let r := matchLevel symbol_ price order level.orders level.total_quantity lookup
      if r.orders.isEmpty then
        let s := sweepLevels symbol_ is_buy r.order rest r.lookup
        { s with trades := r.trades ++ s.trades }
      else
        { order := r.order,
          opposite_side :=
            (price, { level with total_quantity := r.total_quantity, orders := r.orders })
              :: rest,
          lookup := r.lookup, trades := r.trades }
    else
      { order := order, opposite_side := (price, level) :: rest, lookup := lookup,
        trades := [] }

/-- The book, order and sink calls that `matchAgainstSide` produces, in terms of
`sweepLevels`. -/
def sweepBook (b : OrderBook) (order : Order) (is_buy : Bool) : Step :=
  let s := sweepLevels b.symbol_ is_buy order (if is_buy then b.asks_ else b.bids_)
    b.order_lookup_
  let b1 : OrderBook :=
    if is_buy then { b with asks_ := s.opposite_side, order_lookup_ := s.lookup }
    else { b with bids_ := s.opposite_side, order_lookup_ := s.lookup }
  { book := b1, order := s.order, events := s.trades.map Event.trade ++ updateBBO b1 }

/-- The outcome of `addOrder`, in terms of `sweepBook`. -/
def addOrderOutcome (b : OrderBook) (order : Order) : Outcome :=
  if order.type = OrderType.LIMIT ∧ order.price = none then
    { ret := false, book := b, events := [] }
  else if order.quantity ≤ 0 then
    { ret := true, book := b, events := [] }
  else if (sweepBook b order (decide (order.side = OrderSide.BUY))).order.quantity > 0
      ∧ (sweepBook b order (decide (order.side = OrderSide.BUY))).order.type
          = OrderType.LIMIT then
    { ret := true,
      book := (addToBook (sweepBook b order (decide (order.side = OrderSide.BUY))).book
                (sweepBook b order (decide (order.side = OrderSide.BUY))).order).1,
      events := (sweepBook b order (decide (order.side = OrderSide.BUY))).events
        ++ (addToBook (sweepBook b order (decide (order.side = OrderSide.BUY))).book
              (sweepBook b order (decide (order.side = OrderSide.BUY))).order).2 }
  else
    { ret := true, book := (sweepBook b order (decide (order.side = OrderSide.BUY))).book,
      events := (sweepBook b order (decide (order.side = OrderSide.BUY))).events }

/-- One fill step in the words of the specification (section 4.2, "Fill step"), on the
aggressor's remaining quantity `a` and the opposite ladder: the head resting order of the
best level trades `min a r` at the price of its level; `a`, `r` and the level's
`total_quantity` are decremented by the fill; a resting order that reaches zero leaves
the level and a level whose order sequence empties leaves the ladder. -/
def fillStep (symbol : String) (aggressor : Order) (a : Quantity) (opp : Ladder) :
    Option (Trade × Quantity × Ladder) :=
  match opp with
  | [] => none
  | (p, level) :: rest =>
    match level.orders with
    | [] => none
    | resting :: queue =>
      let fill := min a resting.quantity
      let trade : Trade :=
        { maker_order_id := resting.id, taker_order_id := aggressor.id, symbol := symbol,
          price := p, quantity := fill, aggressor_side := aggressor.side }
      let r := resting.quantity - fill
      let orders1 := if r = 0 then queue else { resting with quantity := r } :: queue
      let level1 : OrderBookLevel :=
        { level with total_quantity := level.total_quantity - fill, orders := orders1 }
      some (trade, a - fill, if orders1.isEmpty then rest else (p, level1) :: rest)

/-- Replays a sequence of trades as consecutive fill steps of the specification: the
result is the aggressor's remaining quantity and the opposite ladder after the last
trade, or `none` when some trade is not the fill step of the state it is replayed in. -/
def replayFills (symbol : String) (aggressor : Order) :
    Quantity → Ladder → List Trade → Option (Quantity × Ladder)
  | a, opp, [] => some (a, opp)
  | a, opp, t :: ts =>
    match fillStep symbol aggressor a opp with
    | none => none
    | some (t1, a1, opp1) =>
      if t = t1 then replayFills symbol aggressor a1 opp1 ts else none

/-- The crossing predicate of the specification (section 4.2) for an aggressor of the
given side and optional price against a level at price `p`; an absent price is `+∞`
for a buy and `0` for a sell. -/
def crosses (side : OrderSide) (order_price : Option Price) (p : Price) : Prop :=
  match side, order_price with
  | OrderSide.BUY, some limit => p ≤ limit
  | OrderSide.BUY, none => True
  | OrderSide.SELL, some limit => p ≥ limit
  | OrderSide.SELL, none => p ≥ 0

/-- A resting or incoming order on symbol `"BTC-USDT"` with the given fields. -/
def mkOrder (id : OrderId) (side : OrderSide) (type : OrderType) (quantity : Quantity)
    (price : Option Price) : Order :=
  { id := id, symbol := "BTC-USDT", side := side, type := type, quantity := quantity,
    price := price, timestamp := 0, is_active := true }

/-- The book of scenario S1 before the buy arrives: one ask of 5 at 100 (id 1). -/
def bookS1 : OrderBook :=
  { symbol_ := "BTC-USDT", bids_ := [],
    asks_ := [(100, { price := 100, total_quantity := 5,
                      orders := [mkOrder 1 OrderSide.SELL OrderType.LIMIT 5 (some 100)] })],
    order_lookup_ := [(1, (100, OrderSide.SELL))] }

/-- The invariant that `std::map` keeps: the keys of the entries are strictly increasing
in the comparison of the map (`descending` for `bids_`). -/
def Ladder.Ordered (descending : Bool) (m : Ladder) : Prop :=
  m.Pairwise (fun x y => keyBefore descending x.1 y.1 = true)

/-- Both ladders of the book are ordered as their `std::map` keeps them: `bids_` by
descending and `asks_` by ascending price. -/
def MapOrdered (b : OrderBook) : Prop :=
  Ladder.Ordered true b.bids_ ∧ Ladder.Ordered false b.asks_

instance (descending : Bool) (m : Ladder) : Decidable (Ladder.Ordered descending m) := by
  unfold Ladder.Ordered; infer_instance

instance (b : OrderBook) : Decidable (MapOrdered b) := by
  unfold MapOrdered; infer_instance

/-- Price `p` is strictly better than `q` for an aggressor of the given side: lower
for a buy (asks), higher for a sell (bids). -/
def betterPrice (side : OrderSide) (p q : Price) : Prop :=
  match side with
  | OrderSide.BUY => p < q
  | OrderSide.SELL => q < p

instance (side : OrderSide) (p q : Price) : Decidable (betterPrice side p q) := by
  unfold betterPrice; cases side <;> infer_instance

/-- The book of scenarios S4 and S5: asks of 2 at 100 (id 1) and 3 at 101 (id 2). -/
def bookS4 : OrderBook :=
  { symbol_ := "BTC-USDT", bids_ := [],
    asks_ := [(100, { price := 100, total_quantity := 2,
                      orders := [mkOrder 1 OrderSide.SELL OrderType.LIMIT 2 (some 100)] }),
              (101, { price := 101, total_quantity := 3,
                      orders := [mkOrder 2 OrderSide.SELL OrderType.LIMIT 3 (some 101)] })],
    order_lookup_ := [(1, (100, OrderSide.SELL)), (2, (101, OrderSide.SELL))] }

/-- The bid level of scenario S3: bids of 4 (id 10) then 4 (id 11) at 50. -/
def levelS3 : OrderBookLevel :=
  { price := 50, total_quantity := 8,
    orders := [mkOrder 10 OrderSide.BUY OrderType.LIMIT 4 (some 50),
               mkOrder 11 OrderSide.BUY OrderType.LIMIT 4 (some 50)] }

/-- The book of scenario S3 before the sell arrives. -/
def bookS3 : OrderBook :=
  { symbol_ := "BTC-USDT", bids_ := [(50, levelS3)], asks_ := [],
    order_lookup_ := [(10, (50, OrderSide.BUY)), (11, (50, OrderSide.BUY))] }

/-- Sum of the quantities of all orders resting in a ladder. -/
def restingQuantity (m : Ladder) : Quantity :=
  (m.map (fun e => (e.2.orders.map (fun o => o.quantity)).sum)).sum

/-- The book of scenario S2 before the buy arrives (the book S1 ends in): one ask of 2
at 100 (id 1). -/
def bookS2 : OrderBook :=
  { symbol_ := "BTC-USDT", bids_ := [],
    asks_ := [(100, { price := 100, total_quantity := 2,
                      orders := [mkOrder 1 OrderSide.SELL OrderType.LIMIT 2 (some 100)] })],
    order_lookup_ := [(1, (100, OrderSide.SELL))] }

/-- A call of one of the three public mutating member functions of a book. -/
inductive Call where
  | addOrder (order : Order)
  | cancelOrder (order_id : OrderId)
  | modifyOrder (order_id : OrderId) (new_quantity : Quantity)
  deriving DecidableEq, Repr

/-- The book after one call; `none` when the call does not return. -/
def applyCall (b : OrderBook) : Call → Option OrderBook
  | Call.addOrder order => (addOrder b order).map (fun r => r.book)
  | Call.cancelOrder order_id => some (cancelOrder b order_id).book
  | Call.modifyOrder order_id new_quantity => some (modifyOrder b order_id new_quantity).book

/-- The book after a sequence of calls, applied from left to right. -/
def applyCalls : OrderBook → List Call → Option OrderBook
  | b, [] => some b
  | b, c :: cs =>
    match applyCall b c with
    | none => none
    | some b1 => applyCalls b1 cs

/-- No crossed book: every bid price is strictly below every ask price. -/
def Uncrossed (b : OrderBook) : Prop :=
  ∀ bid ∈ b.bids_, ∀ ask ∈ b.asks_, bid.1 < ask.1

/-- Bookkeeping of one level: it holds an order and its `total_quantity` is the sum of
the quantities of its orders. -/
def LevelKept (l : OrderBookLevel) : Prop :=
  l.orders ≠ [] ∧ l.total_quantity = (l.orders.map (fun o => o.quantity)).sum

/-- Every level of the ladder is kept (`LevelKept`). -/
def LadderKept (m : Ladder) : Prop :=
  ∀ e ∈ m, LevelKept e.2

/-- Every level of both ladders of the book is kept. -/
def LevelsKept (b : OrderBook) : Prop :=
  LadderKept b.bids_ ∧ LadderKept b.asks_

/-- The calls made to the BBO sink, in call order. -/
def bboOf : List Event → List (String × BestBidOffer)
  | [] => []
  | Event.trade _ :: es => bboOf es
  | Event.bbo symbol b :: es => (symbol, b) :: bboOf es

/-- The book with the ladder of the given side replaced. -/
def setOwnSide (b : OrderBook) (side : OrderSide) (m : Ladder) : OrderBook :=
  if side = OrderSide.BUY then { b with bids_ := m } else { b with asks_ := m }

/-- Every order resting in the ladder has a positive quantity. -/
def LadderPositive (m : Ladder) : Prop :=
  ∀ e ∈ m, ∀ o ∈ e.2.orders, 0 < o.quantity

/-- Every order resting in the book has a positive quantity. -/
def QuantitiesPositive (b : OrderBook) : Prop :=
  LadderPositive b.bids_ ∧ LadderPositive b.asks_

/-- An order with the given id rests in the level that the ladder keeps under price `p`. -/
def RestsAt (m : Ladder) (p : Price) (id : OrderId) : Prop :=
  ∃ level, Ladder.find m p = some level ∧ ∃ o ∈ level.orders, o.id = id

/-- Side-index consistency (invariants I1 and I2): `order_lookup_` maps an id to
`(price, side)` exactly when an order with that id rests in the ladder of that side in the
level keyed by that price. -/
def SideIndexConsistent (b : OrderBook) : Prop :=
  ∀ id p side, Lookup.find b.order_lookup_ id = some (p, side)
    ↔ RestsAt (ownSide b side) p id

/-- The invariant that `std::unordered_map` keeps: no two entries share a key. -/
def LookupDistinct (lk : Lookup) : Prop :=
  (lk.map Prod.fst).Nodup

/-- The `(id, price)` pairs of the orders resting in a ladder, level by level in
iteration order and in queue order within a level; `price` is the key of the level. -/
def entries : Ladder → List (OrderId × Price)
  | [] => []
  | (p, level) :: rest => level.orders.map (fun o => (o.id, p)) ++ entries rest

/-- Erases the given ids from the lookup, one after the other. -/
def eraseAll (ids : List OrderId) (lk : Lookup) : Lookup :=
  ids.foldl (fun acc id => Lookup.erase id acc) lk

/-- The other side. -/
def OrderSide.opposite : OrderSide → OrderSide
  | OrderSide.BUY => OrderSide.SELL
  | OrderSide.SELL => OrderSide.BUY

/-- The side index over the resting entries `own` of side `s` and `opp` of side `t`: the
lookup has distinct keys, the resting ids are distinct, and the lookup maps an id to
`(p, s)` (to `(p, t)`) exactly when `(id, p)` is an entry of `own` (of `opp`). -/
def Indexed (s t : OrderSide) (own opp : List (OrderId × Price)) (lk : Lookup) : Prop :=
  LookupDistinct lk ∧ ((own ++ opp).map Prod.fst).Nodup
    ∧ (∀ id p, Lookup.find lk id = some (p, s) ↔ (id, p) ∈ own)
    ∧ (∀ id p, Lookup.find lk id = some (p, t) ↔ (id, p) ∈ opp)

/-- The invariant behind side-index consistency: ordered ladders and an index over the
resting entries of both sides. -/
def IndexInv (b : OrderBook) : Prop :=
  MapOrdered b
    ∧ Indexed OrderSide.BUY OrderSide.SELL (entries b.bids_) (entries b.asks_) b.order_lookup_

/-- The ids of the orders submitted by a sequence of calls, in call order. -/
def submittedIds : List Call → List OrderId
  | [] => []
  | Call.addOrder order :: cs => order.id :: submittedIds cs
  | Call.cancelOrder _ :: cs => submittedIds cs
  | Call.modifyOrder _ _ :: cs => submittedIds cs

/-! ## The engine: a registry of books and an event queue -/

/-- `MatchingEngine::OrderEvent::Type`. -/
inductive OrderEventType where
  | SUBMIT
  | CANCEL
  | MODIFY
  deriving DecidableEq, Repr

/-- `MatchingEngine::OrderEvent`. -/
structure OrderEvent where
  type : OrderEventType
  symbol : String
  order : Order
  order_id : OrderId
  new_quantity : Quantity
  deriving DecidableEq, Repr

/-- Entries of the `std::unordered_map<std::string, std::unique_ptr<OrderBook>>` behind
`order_books_`: each symbol with the book its pointer owns. -/
abbrev Registry := List (String × OrderBook)

/-- Model of `order_books_.find(symbol)`, giving the book behind `it->second`. -/
def Registry.find (r : Registry) (symbol : String) : Option OrderBook :=
  match r with
  | [] => none
  | (k, v) :: rest => if k = symbol then some v else Registry.find rest symbol

/-- Model of a mutation through the pointer found under `symbol`: the book it owns
becomes `book`. -/
def Registry.assign (symbol : String) (book : OrderBook) : Registry → Registry
  | [] => []
  | (k, v) :: rest =>
    if k = symbol then (k, book) :: rest else (k, v) :: Registry.assign symbol book rest

/-- The data members of `MatchingEngine` (threads, mutexes and the condition variable are
not part of the state). -/
structure MatchingEngine where
  order_books_ : Registry
  running_ : Bool
  order_queue_ : List OrderEvent
  deriving DecidableEq, Repr

/-- `MatchingEngine::getBBO`. -/
def MatchingEngine.getBBO (e : MatchingEngine) (symbol : String) : BestBidOffer :=
  match Registry.find e.order_books_ symbol with
  | some book => crypto_matching_engine.getBBO book
  | none =>
    { best_bid := none, best_offer := none, best_bid_quantity := none,
      best_offer_quantity := none }

/-- `MatchingEngine::getOrderBookDepth`. -/
def MatchingEngine.getOrderBookDepth (e : MatchingEngine) (symbol : String) (levels : Nat) :
    List (Price × Quantity) :=
  match Registry.find e.order_books_ symbol with
  | some book => crypto_matching_engine.getOrderBookDepth book levels
  | none => []

/-- `MatchingEngine::getOrCreateOrderBook`: the engine after the call and the book behind
the returned pointer.  The two callbacks it installs have empty bodies. -/
def getOrCreateOrderBook (e : MatchingEngine) (symbol : String) : MatchingEngine × OrderBook :=
  match Registry.find e.order_books_ symbol with
  | some book => (e, book)
  | none =>
    ({ e with order_books_ := e.order_books_ ++ [(symbol, OrderBook.new symbol)] },
     OrderBook.new symbol)

/-- `MatchingEngine::handleOrderEvent`: the engine after the event and the calls made to
the callbacks of the book. -/
def handleOrderEvent (e : MatchingEngine) (event : OrderEvent) :
    Option (MatchingEngine × List Event) :=
  match event.type with
  | OrderEventType.SUBMIT =>
    let created := getOrCreateOrderBook e event.symbol
    match addOrder created.2 event.order with
    | none => none
    | some r =>
      some ({ created.1 with
              order_books_ := Registry.assign event.symbol r.book created.1.order_books_ },
            r.events)
  | OrderEventType.CANCEL =>
    match Registry.find e.order_books_ event.symbol with
    | some book =>
      let r := cancelOrder book event.order_id
      some ({ e with order_books_ := Registry.assign event.symbol r.book e.order_books_ },
            r.events)
    | none => some (e, [])
  | OrderEventType.MODIFY =>
    match Registry.find e.order_books_ event.symbol with
    | some book =>
      let r := modifyOrder book event.order_id event.new_quantity
      some ({ e with order_books_ := Registry.assign event.symbol r.book e.order_books_ },
            r.events)
    | none => some (e, [])

instance (side : OrderSide) (order_price : Option Price) (p : Price) :
    Decidable (crosses side order_price p) := by
  unfold crosses; cases side <;> cases order_price <;> infer_instance

/-- The levels of the ladder that cross an aggressor of the given side and optional
price (`crosses`). -/
def crossingLevels (side : OrderSide) (order_price : Option Price) (m : Ladder) : Ladder :=
  m.filter (fun e => decide (crosses side order_price e.1))

/-- Sum of the quantities of the orders resting in the levels that cross an aggressor of
the given side and optional price. -/
def crossingQuantity (side : OrderSide) (order_price : Option Price) (m : Ladder) :
    Quantity :=
  restingQuantity (crossingLevels side order_price m)

/-! ## The engine: producers and the worker -/

/-- `Order{}`: the value-initialised order of an event that is built without `.order`
(`is_active` has the default member initialiser `true`). -/
def Order.empty : Order :=
  { id := 0, symbol := "", side := OrderSide.BUY, type := OrderType.MARKET, quantity := 0,
    price := none, timestamp := 0, is_active := true }

/-- `MatchingEngine::startOrderProcessing`: sets `running_`; the thread it starts runs
`processOrders`. -/
def startOrderProcessing (e : MatchingEngine) : MatchingEngine :=
  { e with running_ := true }

/-- `MatchingEngine::stopOrderProcessing`: resets `running_` under the queue guard; the
`join` that follows waits for the worker and changes no data member. -/
def stopOrderProcessing (e : MatchingEngine) : MatchingEngine :=
  { e with running_ := false }

/-- `MatchingEngine::MatchingEngine()`: no book, an empty queue, `running_` initialised to
`false` and then set by `startOrderProcessing`. -/
def MatchingEngine.new : MatchingEngine :=
  startOrderProcessing { order_books_ := [], running_ := false, order_queue_ := [] }

/-- `MatchingEngine::submitOrder`: the returned flag and the engine after the call. -/
def MatchingEngine.submitOrder (e : MatchingEngine) (symbol : String) (order : Order) :
    Bool × MatchingEngine :=
  (true,
   { e with
     order_queue_ := e.order_queue_ ++
       [{ type := OrderEventType.SUBMIT, symbol := symbol, order := order, order_id := 0,
          new_quantity := 0 }] })

/-- `MatchingEngine::cancelOrder`: the returned flag and the engine after the call. -/
def MatchingEngine.cancelOrder (e : MatchingEngine) (symbol : String) (order_id : OrderId) :
    Bool × MatchingEngine :=
  (true,
   { e with
     order_queue_ := e.order_queue_ ++
       [{ type := OrderEventType.CANCEL, symbol := symbol, order := Order.empty,
          order_id := order_id, new_quantity := 0 }] })

/-- `MatchingEngine::modifyOrder`: the returned flag and the engine after the call. -/
def MatchingEngine.modifyOrder (e : MatchingEngine) (symbol : String) (order_id : OrderId)
    (new_quantity : Quantity) : Bool × MatchingEngine :=
  (true,
   { e with
     order_queue_ := e.order_queue_ ++
       [{ type := OrderEventType.MODIFY, symbol := symbol, order := Order.empty,
          order_id := order_id, new_quantity := new_quantity }] })

/-- What one pass of the worker through the body of its loop does. -/
inductive WorkerStep where
  | waiting
  | stopped
  | handled (event : OrderEvent) (engine : MatchingEngine) (events : List Event)
  deriving DecidableEq, Repr

/-- One pass through the body of the `while (true)` loop of
`MatchingEngine::processOrders`, which runs under the queue guard.  With an empty queue
the worker stays in `queue_cv_.wait` while `running_` is set and leaves the loop when it
is reset; otherwise it pops the front event and handles it.  `none` when
`handleOrderEvent` does not return. -/
def processOrdersStep (e : MatchingEngine) : Option WorkerStep :=
  match e.order_queue_ with
  | [] => if e.running_ then some WorkerStep.waiting else some WorkerStep.stopped
  | event :: rest =>
    match handleOrderEvent { e with order_queue_ := rest } event with
    | none => none
    | some r => some (WorkerStep.handled event r.1 r.2)

/-- `MatchingEngine::processOrders` run with no producer in between, one unit of fuel per
pass: the engine when the worker leaves the loop or comes to wait on an empty queue, and
the sink calls made until then. -/
def processOrders : Nat → MatchingEngine → Option (MatchingEngine × List Event)
  | 0, _ => none
  | fuel + 1, e =>
    match processOrdersStep e with
    | none => none
    | some WorkerStep.waiting => some (e, [])
    | some WorkerStep.stopped => some (e, [])
    | some (WorkerStep.handled _ e1 events) =>
      match processOrders fuel e1 with
      | none => none
      | some r => some (r.1, events ++ r.2)

/-- Handling a sequence of events one after the other, as `handleOrderEvent` does: the
engine after the last one and the sink calls made, in order. -/
def handleEvents : MatchingEngine → List OrderEvent → Option (MatchingEngine × List Event)
  | e, [] => some (e, [])
  | e, event :: rest =>
    match handleOrderEvent e event with
    | none => none
    | some r =>
      match handleEvents r.1 rest with
      | none => none
      | some r1 => some (r1.1, r.2 ++ r1.2)

/-- A call of one of the three public mutating member functions of the engine. -/
inductive EngineCall where
  | submitOrder (symbol : String) (order : Order)
  | cancelOrder (symbol : String) (order_id : OrderId)
  | modifyOrder (symbol : String) (order_id : OrderId) (new_quantity : Quantity)
  deriving DecidableEq, Repr

/-- The returned flag and the engine after a call. -/
def applyEngineCall (e : MatchingEngine) : EngineCall → Bool × MatchingEngine
  | EngineCall.submitOrder symbol order => MatchingEngine.submitOrder e symbol order
  | EngineCall.cancelOrder symbol order_id => MatchingEngine.cancelOrder e symbol order_id
  | EngineCall.modifyOrder symbol order_id new_quantity =>
    MatchingEngine.modifyOrder e symbol order_id new_quantity

/-- The event that a call describes. -/
def EngineCall.event : EngineCall → OrderEvent
  | EngineCall.submitOrder symbol order =>
    { type := OrderEventType.SUBMIT, symbol := symbol, order := order, order_id := 0,
      new_quantity := 0 }
  | EngineCall.cancelOrder symbol order_id =>
    { type := OrderEventType.CANCEL, symbol := symbol, order := Order.empty,
      order_id := order_id, new_quantity := 0 }
  | EngineCall.modifyOrder symbol order_id new_quantity =>
    { type := OrderEventType.MODIFY, symbol := symbol, order := Order.empty,
      order_id := order_id, new_quantity := new_quantity }

/-- A critical section under the queue guard: a call by a producer, one pass of the
worker, or the reset of `running_` by `stopOrderProcessing`. -/
inductive Action where
  | call (c : EngineCall)
  | work
  | stop
  deriving DecidableEq, Repr

/-- The state of a run of the engine: the engine, the flags returned to the producers,
the events the worker has handled and the sink calls made, each in order. -/
structure EngineRun where
  engine : MatchingEngine
  returned : List Bool
  handled : List OrderEvent
  events : List Event
  deriving DecidableEq, Repr

/-- The run of a fresh engine before any action. -/
def EngineRun.new : EngineRun :=
  { engine := MatchingEngine.new, returned := [], handled := [], events := [] }

/-- The run after one action; `none` when the action does not return. -/
def stepAction (r : EngineRun) : Action → Option EngineRun
  | Action.call c =>
    some { r with engine := (applyEngineCall r.engine c).2,
                  returned := r.returned ++ [(applyEngineCall r.engine c).1] }
  | Action.stop => some { r with engine := stopOrderProcessing r.engine }
  | Action.work =>
    match processOrdersStep r.engine with
    | none => none
    | some WorkerStep.waiting => some r
    | some WorkerStep.stopped => some r
    | some (WorkerStep.handled event e1 events) =>
      some { r with engine := e1, handled := r.handled ++ [event],
                    events := r.events ++ events }

/-- The run after a schedule of actions, taken from left to right. -/
def runActions : EngineRun → List Action → Option EngineRun
  | r, [] => some r
  | r, a :: rest =>
    match stepAction r a with
    | none => none
    | some r1 => runActions r1 rest

/-- The events that the calls of a schedule describe, in the order of the calls. -/
def enqueued : List Action → List OrderEvent
  | [] => []
  | Action.call c :: rest => c.event :: enqueued rest
  | Action.work :: rest => enqueued rest
  | Action.stop :: rest => enqueued rest

/-- The registry and the sink calls that `handleOrderEvent` produces, in terms of
`addOrderOutcome`. -/
def handleOrderEventOutcome (books : Registry) (event : OrderEvent) :
    Registry × List Event :=
  match event.type with
  | OrderEventType.SUBMIT =>
    match Registry.find books event.symbol with
    | some book =>
      (Registry.assign event.symbol (addOrderOutcome book event.order).book books,
       (addOrderOutcome book event.order).events)
    | none =>
      (books ++ [(event.symbol,
          (addOrderOutcome (OrderBook.new event.symbol) event.order).book)],
       (addOrderOutcome (OrderBook.new event.symbol) event.order).events)
  | OrderEventType.CANCEL =>
    match Registry.find books event.symbol with
    | some book =>
      (Registry.assign event.symbol (cancelOrder book event.order_id).book books,
       (cancelOrder book event.order_id).events)
    | none => (books, [])
  | OrderEventType.MODIFY =>
    match Registry.find books event.symbol with
    | some book =>
      (Registry.assign event.symbol
          (modifyOrder book event.order_id event.new_quantity).book books,
       (modifyOrder book event.order_id event.new_quantity).events)
    | none => (books, [])

/-- The registry and the sink calls after a sequence of events, in terms of
`handleOrderEventOutcome`. -/
def handleEventsOutcome : Registry → List OrderEvent → Registry × List Event
  | books, [] => (books, [])
  | books, event :: rest =>
    ((handleEventsOutcome (handleOrderEventOutcome books event).1 rest).1,
     (handleOrderEventOutcome books event).2
       ++ (handleEventsOutcome (handleOrderEventOutcome books event).1 rest).2)

/-- A schedule run on a fresh engine, followed by the worker handling what is left in the
queue: the registry at the end and all sink calls made, in order. -/
def runToCompletion (acts : List Action) : Option (Registry × List Event) :=
  match runActions EngineRun.new acts with
  | none => none
  | some r =>
    match processOrders (r.engine.order_queue_.length + 1) r.engine with
    | none => none
    | some x => some (x.1.order_books_, r.events ++ x.2)

/-! ## The `for` loop over one level -/

theorem matchLevel_nonpos (symbol_ : String) (price : Price) (order : Order)
    (os : List Order) (tq : Quantity) (lk : Lookup) (h : order.quantity ≤ 0) :
    matchLevel symbol_ price order os tq lk =
      { order := order, orders := os, total_quantity := tq, lookup := lk, trades := [] } := by
  cases os <;> simp [matchLevel, h]

theorem matchLevel_cons_pos (symbol_ : String) (price : Price) (order it : Order)
    (rest : List Order) (tq : Quantity) (lk : Lookup) (h : 0 < order.quantity) :
    matchLevel symbol_ price order (it :: rest) tq lk =
      if it.quantity ≤ order.quantity then
        let r := matchLevel symbol_ price
          { order with quantity := order.quantity - it.quantity } rest
          (tq - it.quantity) (Lookup.erase it.id lk)
        { r with trades :=
            { maker_order_id := it.id, taker_order_id := order.id, symbol := symbol_,
              price := price, quantity := it.quantity, aggressor_side := order.side }
              :: r.trades }
      else
        { order := { order with quantity := 0 },
          orders := { it with quantity := it.quantity - order.quantity } :: rest,
          total_quantity := tq - order.quantity, lookup := lk,
          trades := [{ maker_order_id := it.id, taker_order_id := order.id,
                       symbol := symbol_, price := price, quantity := order.quantity,
                       aggressor_side := order.side }] } := by
  have hn : ¬ order.quantity ≤ 0 := not_le.mpr h
  by_cases hle : it.quantity ≤ order.quantity
  · have hmin : min order.quantity it.quantity = it.quantity := min_eq_right hle
    simp [matchLevel, hn, hmin, hle]
  · have hlt : order.quantity < it.quantity := not_le.mp hle
    have hmin : min order.quantity it.quantity = order.quantity := min_eq_left hlt.le
    have hne : ¬ it.quantity - order.quantity = 0 := by linarith
    simp only [matchLevel, hn, hmin, hle, if_false, hne, sub_self]
    rw [matchLevel_nonpos _ _ _ _ _ _ (le_refl (0 : Int))]

theorem matchLevel_kept (symbol_ : String) (price : Price) (os : List Order) :
    ∀ (order : Order) (tq : Quantity) (lk : Lookup), 0 < order.quantity →
      (matchLevel symbol_ price order os tq lk).orders ≠ [] →
      (matchLevel symbol_ price order os tq lk).order.quantity = 0 := by
  induction os with
  | nil => intro order tq lk _ h; simp [matchLevel] at h
  | cons it rest ih =>
    intro order tq lk hpos h
    rw [matchLevel_cons_pos _ _ _ _ _ _ _ hpos] at h ⊢
    by_cases hle : it.quantity ≤ order.quantity
    · simp only [hle, if_true] at h ⊢
      rcases lt_or_eq_of_le hle with hlt | heq
      · exact ih _ _ _ (by simpa using hlt) h
      · rw [matchLevel_nonpos _ _ _ _ _ _ (by simp [heq])]
        simp [heq]
    · simp [hle]

/-! ## The `while` loop -/

theorem sweepLevels_nonpos (symbol_ : String) (is_buy : Bool) (order : Order)
    (opp : Ladder) (lk : Lookup) (h : order.quantity ≤ 0) :
    sweepLevels symbol_ is_buy order opp lk =
      { order := order, opposite_side := opp, lookup := lk, trades := [] } := by
  have hn : ¬ order.quantity > 0 := not_lt.mpr h
  cases opp with
  | nil => simp [sweepLevels]
  | cons e rest => obtain ⟨p, l⟩ := e; simp [sweepLevels, hn]

theorem matchLoop_nonpos (symbol_ : String) (is_buy : Bool) (fuel : Nat) (order : Order)
    (opp : Ladder) (lk : Lookup) (h : order.quantity ≤ 0) :
    matchLoop symbol_ is_buy (fuel + 1) order opp lk =
      some { order := order, opposite_side := opp, lookup := lk, trades := [] } := by
  have hn : ¬ order.quantity > 0 := not_lt.mpr h
  simp [matchLoop, hn]

/-- With one unit of fuel per level and one more, the `while` loop of `matchAgainstSide`
terminates, and its result is `sweepLevels`. -/
theorem matchLoop_eq_sweepLevels (symbol_ : String) (is_buy : Bool) :
    ∀ (fuel : Nat) (order : Order) (opp : Ladder) (lk : Lookup), opp.length + 1 ≤ fuel →
      matchLoop symbol_ is_buy fuel order opp lk
        = some (sweepLevels symbol_ is_buy order opp lk) := by
  intro fuel
  induction fuel with
  | zero => intro order opp lk h; omega
  | succ fuel ih =>
    intro order opp lk hfuel
    by_cases hq : order.quantity > 0
    · cases opp with
      | nil => simp [matchLoop, sweepLevels, hq]
      | cons e rest =>
        obtain ⟨p, l⟩ := e
        by_cases hc : cannotMatch is_buy p order.price = true
        · simp [matchLoop, sweepLevels, hq, hc]
        · have hc' : cannotMatch is_buy p order.price = false := by simpa using hc
          by_cases he : (matchLevel symbol_ p order l.orders l.total_quantity lk).orders.isEmpty
              = true
          · have hlen : rest.length + 1 ≤ fuel := by
              simp only [List.length_cons] at hfuel; omega
            simp [matchLoop, sweepLevels, hq, hc', he, ih _ rest _ hlen]
          · have hne : (matchLevel symbol_ p order l.orders l.total_quantity lk).orders ≠ [] := by
              simpa [List.isEmpty_iff] using he
            have hz := matchLevel_kept symbol_ p l.orders order l.total_quantity lk hq hne
            obtain ⟨k, rfl⟩ : ∃ k, fuel = k + 1 := by
              simp only [List.length_cons] at hfuel
              exact ⟨fuel - 1, by omega⟩
            simp [matchLoop, sweepLevels, hq, hc', he, hz]
    · have hq' : order.quantity ≤ 0 := not_lt.mp hq
      rw [matchLoop_nonpos _ _ _ _ _ _ hq', sweepLevels_nonpos _ _ _ _ _ hq']

theorem matchAgainstSide_eq (b : OrderBook) (order : Order) (is_buy : Bool) :
    matchAgainstSide b order is_buy = some (sweepBook b order is_buy) := by
  simp [matchAgainstSide, sweepBook, matchLoop_eq_sweepLevels]


/-- The function `addOrder` always returns, and its outcome is `addOrderOutcome`. -/
theorem addOrder_eq (b : OrderBook) (order : Order) :
    addOrder b order = some (addOrderOutcome b order) := by
  unfold addOrder addOrderOutcome
  by_cases hv : order.type = OrderType.LIMIT ∧ order.price = none
  · simp [hv]
  · rw [if_neg hv, if_neg hv]
    by_cases hq : order.quantity ≤ 0
    · have hq' : ¬ order.quantity > 0 := not_lt.mpr hq
      simp [matchOrder, hq, hq']
    · simp only [matchOrder, hq, if_false, matchAgainstSide_eq]
      by_cases hz : (sweepBook b order (decide (order.side = OrderSide.BUY))).order.quantity = 0
      · simp [hz]
      · simp only [hz, decide_False, Bool.false_eq_true, false_and, if_false]
        split_ifs <;> rfl

theorem matchLevel_order (symbol_ : String) (price : Price) (os : List Order) :
    ∀ (order : Order) (tq : Quantity) (lk : Lookup),
      (matchLevel symbol_ price order os tq lk).order
        = { order with quantity := (matchLevel symbol_ price order os tq lk).order.quantity } := by
  induction os with
  | nil => intro order tq lk; simp [matchLevel]
  | cons it rest ih =>
    intro order tq lk
    by_cases hpos : 0 < order.quantity
    · rw [matchLevel_cons_pos _ _ _ _ _ _ _ hpos]
      by_cases hle : it.quantity ≤ order.quantity
      · simp only [hle, if_true]
        have h := ih { order with quantity := order.quantity - it.quantity }
          (tq - it.quantity) (Lookup.erase it.id lk)
        rw [h]
      · simp [hle]
    · rw [matchLevel_nonpos _ _ _ _ _ _ (not_lt.mp hpos)]

theorem matchLevel_conserve (symbol_ : String) (price : Price) (os : List Order) :
    ∀ (order : Order) (tq : Quantity) (lk : Lookup),
      (matchLevel symbol_ price order os tq lk).order.quantity
        + tradedQuantity (matchLevel symbol_ price order os tq lk).trades = order.quantity := by
  induction os with
  | nil => intro order tq lk; simp [matchLevel, tradedQuantity]
  | cons it rest ih =>
    intro order tq lk
    by_cases hpos : 0 < order.quantity
    · rw [matchLevel_cons_pos _ _ _ _ _ _ _ hpos]
      by_cases hle : it.quantity ≤ order.quantity
      · simp only [hle, if_true]
        have h := ih { order with quantity := order.quantity - it.quantity }
          (tq - it.quantity) (Lookup.erase it.id lk)
        simp only [tradedQuantity, List.map_cons, List.sum_cons] at h ⊢
        linarith
      · simp [hle, tradedQuantity]
    · rw [matchLevel_nonpos _ _ _ _ _ _ (not_lt.mp hpos)]
      simp [tradedQuantity]

theorem sweepLevels_stop (symbol_ : String) (is_buy : Bool) (order : Order) (p : Price)
    (l : OrderBookLevel) (rest : Ladder) (lk : Lookup)
    (h : ¬ (order.quantity > 0 ∧ cannotMatch is_buy p order.price = false)) :
    sweepLevels symbol_ is_buy order ((p, l) :: rest) lk
      = { order := order, opposite_side := (p, l) :: rest, lookup := lk, trades := [] } := by
  simp only [sweepLevels, h, if_false]

theorem sweepLevels_removed (symbol_ : String) (is_buy : Bool) (order : Order) (p : Price)
    (l : OrderBookLevel) (rest : Ladder) (lk : Lookup)
    (h : order.quantity > 0 ∧ cannotMatch is_buy p order.price = false)
    (he : (matchLevel symbol_ p order l.orders l.total_quantity lk).orders = []) :
    sweepLevels symbol_ is_buy order ((p, l) :: rest) lk
      = { sweepLevels symbol_ is_buy
            (matchLevel symbol_ p order l.orders l.total_quantity lk).order rest
            (matchLevel symbol_ p order l.orders l.total_quantity lk).lookup with
          trades := (matchLevel symbol_ p order l.orders l.total_quantity lk).trades
            ++ (sweepLevels symbol_ is_buy
                  (matchLevel symbol_ p order l.orders l.total_quantity lk).order rest
                  (matchLevel symbol_ p order l.orders l.total_quantity lk).lookup).trades } := by
  simp only [sweepLevels, h, he, and_self, if_true, List.isEmpty_nil]

theorem sweepLevels_kept (symbol_ : String) (is_buy : Bool) (order : Order) (p : Price)
    (l : OrderBookLevel) (rest : Ladder) (lk : Lookup)
    (h : order.quantity > 0 ∧ cannotMatch is_buy p order.price = false)
    (he : (matchLevel symbol_ p order l.orders l.total_quantity lk).orders ≠ []) :
    sweepLevels symbol_ is_buy order ((p, l) :: rest) lk
      = { order := (matchLevel symbol_ p order l.orders l.total_quantity lk).order,
          opposite_side :=
            (p, { l with
                    total_quantity :=
                      (matchLevel symbol_ p order l.orders l.total_quantity lk).total_quantity,
                    orders := (matchLevel symbol_ p order l.orders l.total_quantity lk).orders })
              :: rest,
          lookup := (matchLevel symbol_ p order l.orders l.total_quantity lk).lookup,
          trades := (matchLevel symbol_ p order l.orders l.total_quantity lk).trades } := by
  have he' : (matchLevel symbol_ p order l.orders l.total_quantity lk).orders.isEmpty = false := by
    cases hh : (matchLevel symbol_ p order l.orders l.total_quantity lk).orders with
    | nil => exact absurd hh he
    | cons a as => rfl
  simp only [sweepLevels, h, he', and_self, if_true, Bool.false_eq_true, if_false]

/-- Case analysis on one iteration of the sweep. -/
theorem sweepLevels_cases (symbol_ : String) (is_buy : Bool) (order : Order) (p : Price)
    (l : OrderBookLevel) (rest : Ladder) (lk : Lookup)
    (motive : Sweep → Prop)
    (hstop : ¬ (order.quantity > 0 ∧ cannotMatch is_buy p order.price = false) →
      motive { order := order, opposite_side := (p, l) :: rest, lookup := lk, trades := [] })
    (hrem : order.quantity > 0 → cannotMatch is_buy p order.price = false →
      (matchLevel symbol_ p order l.orders l.total_quantity lk).orders = [] →
      motive ({ (sweepLevels symbol_ is_buy
            (matchLevel symbol_ p order l.orders l.total_quantity lk).order rest
            (matchLevel symbol_ p order l.orders l.total_quantity lk).lookup) with
          trades := (matchLevel symbol_ p order l.orders l.total_quantity lk).trades
            ++ (sweepLevels symbol_ is_buy
                  (matchLevel symbol_ p order l.orders l.total_quantity lk).order rest
                  (matchLevel symbol_ p order l.orders l.total_quantity lk).lookup).trades }))
    (hkept : order.quantity > 0 → cannotMatch is_buy p order.price = false →
      (matchLevel symbol_ p order l.orders l.total_quantity lk).orders ≠ [] →
      (matchLevel symbol_ p order l.orders l.total_quantity lk).order.quantity = 0 →
      motive
        { order := (matchLevel symbol_ p order l.orders l.total_quantity lk).order,
          opposite_side :=
            (p, { l with
                    total_quantity :=
                      (matchLevel symbol_ p order l.orders l.total_quantity lk).total_quantity,
                    orders := (matchLevel symbol_ p order l.orders l.total_quantity lk).orders })
              :: rest,
          lookup := (matchLevel symbol_ p order l.orders l.total_quantity lk).lookup,
          trades := (matchLevel symbol_ p order l.orders l.total_quantity lk).trades }) :
    motive (sweepLevels symbol_ is_buy order ((p, l) :: rest) lk) := by
  by_cases h : order.quantity > 0 ∧ cannotMatch is_buy p order.price = false
  · by_cases he : (matchLevel symbol_ p order l.orders l.total_quantity lk).orders = []
    · rw [sweepLevels_removed _ _ _ _ _ _ _ h he]; exact hrem h.1 h.2 he
    · rw [sweepLevels_kept _ _ _ _ _ _ _ h he]
      exact hkept h.1 h.2 he (matchLevel_kept _ _ _ _ _ _ h.1 he)
  · rw [sweepLevels_stop _ _ _ _ _ _ _ h]; exact hstop h

theorem sweepLevels_order (symbol_ : String) (is_buy : Bool) (opp : Ladder) :
    ∀ (order : Order) (lk : Lookup),
      (sweepLevels symbol_ is_buy order opp lk).order
        = { order with quantity := (sweepLevels symbol_ is_buy order opp lk).order.quantity } := by
  induction opp with
  | nil => intro order lk; simp [sweepLevels]
  | cons e rest ih =>
    obtain ⟨p, l⟩ := e
    intro order lk
    refine sweepLevels_cases symbol_ is_buy order p l rest lk
      (fun s => s.order = { order with quantity := s.order.quantity }) ?_ ?_ ?_
    · intro _; rfl
    · intro _ _ _
      show (sweepLevels _ _ _ _ _).order = _
      rw [ih, matchLevel_order]
    · intro _ _ _ _
      show (matchLevel _ _ _ _ _ _).order = _
      rw [matchLevel_order]

theorem tradedQuantity_append (xs ys : List Trade) :
    tradedQuantity (xs ++ ys) = tradedQuantity xs + tradedQuantity ys := by
  simp [tradedQuantity]

theorem sweepLevels_conserve (symbol_ : String) (is_buy : Bool) (opp : Ladder) :
    ∀ (order : Order) (lk : Lookup),
      (sweepLevels symbol_ is_buy order opp lk).order.quantity
        + tradedQuantity (sweepLevels symbol_ is_buy order opp lk).trades = order.quantity := by
  induction opp with
  | nil => intro order lk; simp [sweepLevels, tradedQuantity]
  | cons e rest ih =>
    obtain ⟨p, l⟩ := e
    intro order lk
    refine sweepLevels_cases symbol_ is_buy order p l rest lk
      (fun s => s.order.quantity + tradedQuantity s.trades = order.quantity) ?_ ?_ ?_
    · intro _; simp [tradedQuantity]
    · intro _ _ _
      show (sweepLevels _ _ _ _ _).order.quantity + tradedQuantity (_ ++ _) = _
      have h1 := ih (matchLevel symbol_ p order l.orders l.total_quantity lk).order
        (matchLevel symbol_ p order l.orders l.total_quantity lk).lookup
      have h2 := matchLevel_conserve symbol_ p l.orders order l.total_quantity lk
      rw [tradedQuantity_append]
      linarith
    · intro _ _ _ _
      exact matchLevel_conserve symbol_ p l.orders order l.total_quantity lk

/-! ## Trades of `addOrder` -/

theorem tradesOf_append (xs ys : List Event) :
    tradesOf (xs ++ ys) = tradesOf xs ++ tradesOf ys := by
  induction xs with
  | nil => rfl
  | cons e es ih => cases e <;> simp [tradesOf, ih]

theorem tradesOf_map_trade (ts : List Trade) : tradesOf (ts.map Event.trade) = ts := by
  induction ts with
  | nil => rfl
  | cons t ts ih => simp [tradesOf, ih]

theorem tradesOf_updateBBO (b : OrderBook) : tradesOf (updateBBO b) = [] := rfl

theorem addToBook_events (b : OrderBook) (order : Order) :
    (addToBook b order).2 = updateBBO (addToBook b order).1 := rfl

theorem sweepBook_trades (b : OrderBook) (order : Order) :
    tradesOf (sweepBook b order (decide (order.side = OrderSide.BUY))).events
      = (sweepLevels b.symbol_ (decide (order.side = OrderSide.BUY)) order
              (oppositeSide b order.side) b.order_lookup_).trades := by
  have hopp : (if decide (order.side = OrderSide.BUY) = true then b.asks_ else b.bids_)
      = oppositeSide b order.side := by
    simp [oppositeSide]
  simp only [sweepBook, tradesOf_append, tradesOf_map_trade, tradesOf_updateBBO,
    List.append_nil, hopp]

/-- The sweep that `addOrder` runs for an order that passes validation with a positive
quantity. -/
theorem tradesOf_addOrderOutcome (b : OrderBook) (order : Order) :
    tradesOf (addOrderOutcome b order).events =
      if (order.type = OrderType.LIMIT ∧ order.price = none) ∨ order.quantity ≤ 0 then []
      else (sweepLevels b.symbol_ (decide (order.side = OrderSide.BUY)) order
              (oppositeSide b order.side) b.order_lookup_).trades := by
  unfold addOrderOutcome
  by_cases hv : order.type = OrderType.LIMIT ∧ order.price = none
  · simp [hv, tradesOf]
  · by_cases hq : order.quantity ≤ 0
    · simp [hv, hq, tradesOf]
    · have hor : ¬ ((order.type = OrderType.LIMIT ∧ order.price = none) ∨ order.quantity ≤ 0) := by
        tauto
      rw [if_neg hv, if_neg hq, if_neg hor]
      split_ifs
      · simp only [tradesOf_append, addToBook_events, tradesOf_updateBBO, List.append_nil,
          sweepBook_trades]
      · exact sweepBook_trades b order

theorem oppositeSide_addToBook (b : OrderBook) (order : Order) (side : OrderSide)
    (h : order.side = side) :
    oppositeSide (addToBook b order).1 side = oppositeSide b side := by
  subst h
  cases h : order.side <;> simp [addToBook, oppositeSide, h]

theorem oppositeSide_addOrderOutcome (b : OrderBook) (order : Order) :
    oppositeSide (addOrderOutcome b order).book order.side =
      if (order.type = OrderType.LIMIT ∧ order.price = none) ∨ order.quantity ≤ 0 then
        oppositeSide b order.side
      else (sweepLevels b.symbol_ (decide (order.side = OrderSide.BUY)) order
              (oppositeSide b order.side) b.order_lookup_).opposite_side := by
  unfold addOrderOutcome
  by_cases hv : order.type = OrderType.LIMIT ∧ order.price = none
  · simp [hv]
  · by_cases hq : order.quantity ≤ 0
    · simp [hv, hq]
    · have hor : ¬ ((order.type = OrderType.LIMIT ∧ order.price = none) ∨ order.quantity ≤ 0) := by
        tauto
      rw [if_neg hv, if_neg hq, if_neg hor]
      have hside : (sweepBook b order (decide (order.side = OrderSide.BUY))).order.side
          = order.side := by
        simp only [sweepBook]; rw [sweepLevels_order]
      have hsw : oppositeSide (sweepBook b order (decide (order.side = OrderSide.BUY))).book
          order.side = (sweepLevels b.symbol_ (decide (order.side = OrderSide.BUY)) order
              (oppositeSide b order.side) b.order_lookup_).opposite_side := by
        cases h : order.side <;> simp [sweepBook, oppositeSide, h]
      split_ifs
      · show oppositeSide (addToBook _ _).1 order.side = _
        rw [oppositeSide_addToBook _ _ _ hside, hsw]
      · exact hsw

theorem matchLevel_trade_fields (symbol_ : String) (price : Price) (os : List Order) :
    ∀ (order : Order) (tq : Quantity) (lk : Lookup),
      ∀ t ∈ (matchLevel symbol_ price order os tq lk).trades,
        t.price = price ∧ t.taker_order_id = order.id ∧ t.symbol = symbol_
          ∧ t.aggressor_side = order.side ∧ ∃ x ∈ os, t.maker_order_id = x.id := by
  induction os with
  | nil => intro order tq lk t ht; simp [matchLevel] at ht
  | cons it rest ih =>
    intro order tq lk t ht
    by_cases hpos : 0 < order.quantity
    · rw [matchLevel_cons_pos _ _ _ _ _ _ _ hpos] at ht
      by_cases hle : it.quantity ≤ order.quantity
      · simp only [hle, if_true, List.mem_cons] at ht
        rcases ht with rfl | ht
        · simp
        · obtain ⟨h1, h2, h3, h4, x, hx, h5⟩ := ih _ _ _ t ht
          exact ⟨h1, h2, h3, h4, x, List.mem_cons_of_mem _ hx, h5⟩
      · simp only [hle, if_false, List.mem_singleton] at ht
        subst ht
        simp
    · rw [matchLevel_nonpos _ _ _ _ _ _ (not_lt.mp hpos)] at ht
      simp at ht

theorem sweepLevels_trade_fields (symbol_ : String) (is_buy : Bool) (opp : Ladder) :
    ∀ (order : Order) (lk : Lookup),
      ∀ t ∈ (sweepLevels symbol_ is_buy order opp lk).trades,
        cannotMatch is_buy t.price order.price = false ∧ t.taker_order_id = order.id
          ∧ t.symbol = symbol_ ∧ t.aggressor_side = order.side
          ∧ ∃ e ∈ opp, t.price = e.1 ∧ ∃ x ∈ e.2.orders, t.maker_order_id = x.id := by
  induction opp with
  | nil => intro order lk t ht; simp [sweepLevels] at ht
  | cons e rest ih =>
    obtain ⟨p, l⟩ := e
    intro order lk
    refine sweepLevels_cases symbol_ is_buy order p l rest lk
      (fun s => ∀ t ∈ s.trades,
        cannotMatch is_buy t.price order.price = false ∧ t.taker_order_id = order.id
          ∧ t.symbol = symbol_ ∧ t.aggressor_side = order.side
          ∧ ∃ e ∈ (p, l) :: rest, t.price = e.1 ∧ ∃ x ∈ e.2.orders, t.maker_order_id = x.id)
      ?_ ?_ ?_
    · intro _ t ht; simp at ht
    · intro _ hc _ t ht
      simp only [List.mem_append] at ht
      rcases ht with ht | ht
      · obtain ⟨h1, h2, h3, h4, h5⟩ := matchLevel_trade_fields _ _ _ _ _ _ t ht
        exact ⟨by rw [h1]; exact hc, h2, h3, h4, (p, l), List.mem_cons_self _ _, h1, h5⟩
      · obtain ⟨h1, h2, h3, h4, e, he, h5⟩ := ih _ _ t ht
        rw [matchLevel_order] at h1 h2 h4
        exact ⟨h1, h2, h3, h4, e, List.mem_cons_of_mem _ he, h5⟩
    · intro _ hc _ _ t ht
      obtain ⟨h1, h2, h3, h4, h5⟩ := matchLevel_trade_fields _ _ _ _ _ _ t ht
      exact ⟨by rw [h1]; exact hc, h2, h3, h4, (p, l), List.mem_cons_self _ _, h1, h5⟩

theorem cannotMatch_eq_false_iff (side : OrderSide) (order_price : Option Price) (p : Price) :
    cannotMatch (decide (side = OrderSide.BUY)) p order_price = false
      ↔ crosses side order_price p := by
  cases side <;> cases order_price <;> simp [cannotMatch, crosses]

/-- Claim C2: every trade that `addOrder` emits is at a price that crosses the order: at
most the order's price for a buy and at least it for a sell; without a price a buy
crosses every price and a sell every price that is at least 0. -/
theorem addOrder_trades_cross (b : OrderBook) (order : Order) :
    ∃ r, addOrder b order = some r
      ∧ ∀ t ∈ tradesOf r.events, crosses order.side order.price t.price := by
  refine ⟨addOrderOutcome b order, addOrder_eq b order, ?_⟩
  intro t ht
  rw [tradesOf_addOrderOutcome] at ht
  split_ifs at ht with h
  · simp at ht
  · exact (cannotMatch_eq_false_iff _ _ _).mp
      (sweepLevels_trade_fields _ _ _ _ _ t ht).1

/-! ## Replay of the trades as fill steps -/

theorem replay_matchLevel (symbol_ : String) (aggressor : Order) (p : Price)
    (lv : OrderBookLevel) (rest : Ladder) (more : List Trade) (os : List Order) :
    ∀ (order : Order) (tq : Quantity) (lk : Lookup), os ≠ [] →
      order.id = aggressor.id → order.side = aggressor.side →
      replayFills symbol_ aggressor order.quantity
          ((p, { lv with total_quantity := tq, orders := os }) :: rest)
          ((matchLevel symbol_ p order os tq lk).trades ++ more)
        = replayFills symbol_ aggressor (matchLevel symbol_ p order os tq lk).order.quantity
            (if (matchLevel symbol_ p order os tq lk).orders.isEmpty then rest
             else (p, { lv with
                          total_quantity := (matchLevel symbol_ p order os tq lk).total_quantity,
                          orders := (matchLevel symbol_ p order os tq lk).orders }) :: rest)
            more := by
  induction os with
  | nil => intro order tq lk h; exact absurd rfl h
  | cons it queue ih =>
    intro order tq lk _ hid hside
    by_cases hpos : 0 < order.quantity
    · rw [matchLevel_cons_pos _ _ _ _ _ _ _ hpos]
      by_cases hle : it.quantity ≤ order.quantity
      · have hmin : min order.quantity it.quantity = it.quantity := min_eq_right hle
        simp only [hle, if_true, List.cons_append]
        cases queue with
        | nil =>
          simp [replayFills, fillStep, hmin, hid, hside, matchLevel]
        | cons q2 queue2 =>
          have h := ih { order with quantity := order.quantity - it.quantity }
            (tq - it.quantity) (Lookup.erase it.id lk) (by simp) hid hside
          simp only [replayFills, fillStep, hmin, hid, hside, sub_self, if_true,
            List.isEmpty_cons, Bool.false_eq_true, if_false]
          simp only [hid, hside] at h
          exact h
      · have hlt : order.quantity < it.quantity := not_le.mp hle
        have hmin : min order.quantity it.quantity = order.quantity := min_eq_left hlt.le
        have hne : ¬ it.quantity - order.quantity = 0 := by linarith
        simp [replayFills, fillStep, hmin, hid, hside, hne, hle]
    · rw [matchLevel_nonpos _ _ _ _ _ _ (not_lt.mp hpos)]
      simp


theorem replay_sweepLevels (symbol_ : String) (is_buy : Bool) (aggressor : Order)
    (more : List Trade) (opp : Ladder) :
    (∀ e ∈ opp, e.2.orders ≠ []) → ∀ (order : Order) (lk : Lookup),
      order.id = aggressor.id → order.side = aggressor.side →
      replayFills symbol_ aggressor order.quantity opp
          ((sweepLevels symbol_ is_buy order opp lk).trades ++ more)
        = replayFills symbol_ aggressor (sweepLevels symbol_ is_buy order opp lk).order.quantity
            (sweepLevels symbol_ is_buy order opp lk).opposite_side more := by
  induction opp with
  | nil => intro _ order lk _ _; simp [sweepLevels]
  | cons e rest ih =>
    obtain ⟨p, l⟩ := e
    intro hne order lk hid hside
    have hl : l.orders ≠ [] := hne (p, l) (List.mem_cons_self _ _)
    have hrest : ∀ e ∈ rest, e.2.orders ≠ [] := fun e he => hne e (List.mem_cons_of_mem _ he)
    have hlevel := replay_matchLevel symbol_ aggressor p l rest
    refine sweepLevels_cases symbol_ is_buy order p l rest lk
      (fun s => replayFills symbol_ aggressor order.quantity ((p, l) :: rest)
          (s.trades ++ more) = replayFills symbol_ aggressor s.order.quantity s.opposite_side more)
      ?_ ?_ ?_
    · intro _; rfl
    · intro _ _ he
      have h1 := hlevel
        ((sweepLevels symbol_ is_buy
            (matchLevel symbol_ p order l.orders l.total_quantity lk).order rest
            (matchLevel symbol_ p order l.orders l.total_quantity lk).lookup).trades ++ more)
        l.orders order l.total_quantity lk hl hid hside
      simp only [he, List.isEmpty_nil, if_true] at h1
      simp only [List.append_assoc]
      rw [h1]
      apply ih hrest
      · rw [matchLevel_order]; exact hid
      · rw [matchLevel_order]; exact hside
    · intro _ _ he _
      have h1 := hlevel more l.orders order l.total_quantity lk hl hid hside
      have he2 : (matchLevel symbol_ p order l.orders l.total_quantity lk).orders.isEmpty
          = false := by
        cases hh : (matchLevel symbol_ p order l.orders l.total_quantity lk).orders with
        | nil => exact absurd hh he
        | cons a as => rfl
      simp only [he2, Bool.false_eq_true, if_false] at h1
      exact h1

/-- Claim C1: when every level of the opposite side holds an order, the trades that
`addOrder` emits are, in order, the fill steps of the specification started from the
submitted quantity and the opposite ladder: each trade has the submitted order as taker
with its side, the book's symbol, the head resting order of the best level as maker, the
price of that level, and the quantity `min (aggressor remaining) (maker remaining)` of
that moment, by which the aggressor's remaining, the maker's remaining and the level's
total are decreased; the replay ends in the opposite ladder of the resulting book. -/
theorem addOrder_trades_replay (b : OrderBook) (order : Order)
    (h : ∀ e ∈ oppositeSide b order.side, e.2.orders ≠ []) :
    ∃ r, addOrder b order = some r
      ∧ replayFills b.symbol_ order order.quantity (oppositeSide b order.side)
          (tradesOf r.events)
        = some (order.quantity - tradedQuantity (tradesOf r.events),
                oppositeSide r.book order.side) := by
  refine ⟨addOrderOutcome b order, addOrder_eq b order, ?_⟩
  rw [tradesOf_addOrderOutcome, oppositeSide_addOrderOutcome]
  split_ifs with hc
  · simp [replayFills, tradedQuantity]
  · have h1 := replay_sweepLevels b.symbol_ (decide (order.side = OrderSide.BUY)) order []
      (oppositeSide b order.side) h order b.order_lookup_ rfl rfl
    have h2 := sweepLevels_conserve b.symbol_ (decide (order.side = OrderSide.BUY))
      (oppositeSide b order.side) order b.order_lookup_
    rw [List.append_nil] at h1
    rw [h1]
    simp only [replayFills]
    congr 2
    linarith

theorem addOrder_trades_replay_witness :
    (∀ e ∈ oppositeSide bookS1 OrderSide.BUY, e.2.orders ≠ [])
      ∧ ∃ r, addOrder bookS1 (mkOrder 2 OrderSide.BUY OrderType.LIMIT 3 (some 101)) = some r
        ∧ replayFills bookS1.symbol_ (mkOrder 2 OrderSide.BUY OrderType.LIMIT 3 (some 101)) 3
            (oppositeSide bookS1 OrderSide.BUY) (tradesOf r.events)
          = some (3 - tradedQuantity (tradesOf r.events), oppositeSide r.book OrderSide.BUY) :=
  ⟨by decide,
   addOrder_trades_replay bookS1 (mkOrder 2 OrderSide.BUY OrderType.LIMIT 3 (some 101))
     (by decide)⟩

/-! ## Price priority -/

theorem keyBefore_irrefl (d : Bool) (p : Price) : keyBefore d p p = false := by
  cases d <;> simp [keyBefore]

theorem keyBefore_asymm (d : Bool) (p q : Price) (h : keyBefore d p q = true) :
    keyBefore d q p = false := by
  cases d <;> simp [keyBefore] at h ⊢ <;> exact le_of_lt h

theorem keyBefore_ne (d : Bool) (p q : Price) (h : keyBefore d p q = true) : p ≠ q := by
  rintro rfl
  rw [keyBefore_irrefl] at h
  exact Bool.false_ne_true h

theorem Ladder.find_eq_none (m : Ladder) (p : Price) :
    Ladder.find m p = none ↔ p ∉ m.map Prod.fst := by
  induction m with
  | nil => simp [Ladder.find]
  | cons e rest ih =>
    obtain ⟨k, l⟩ := e
    by_cases hk : k = p
    · simp [Ladder.find, hk]
    · have hk' : ¬ p = k := fun h => hk h.symm
      simp [Ladder.find, hk, hk', ih]

theorem sweepLevels_keys (symbol_ : String) (is_buy : Bool) (opp : Ladder) :
    ∀ (order : Order) (lk : Lookup),
      ((sweepLevels symbol_ is_buy order opp lk).opposite_side.map Prod.fst).Sublist
        (opp.map Prod.fst) := by
  induction opp with
  | nil => intro order lk; simp [sweepLevels]
  | cons e rest ih =>
    obtain ⟨p, l⟩ := e
    intro order lk
    refine sweepLevels_cases symbol_ is_buy order p l rest lk
      (fun s => (s.opposite_side.map Prod.fst).Sublist (((p, l) :: rest).map Prod.fst)) ?_ ?_ ?_
    · intro _; exact List.Sublist.refl _
    · intro _ _ _
      exact (ih _ _).trans (by simp)
    · intro _ _ _ _
      simp

theorem sweepLevels_ordered (symbol_ : String) (is_buy : Bool) (d : Bool) (opp : Ladder)
    (order : Order) (lk : Lookup) (h : Ladder.Ordered d opp) :
    Ladder.Ordered d (sweepLevels symbol_ is_buy order opp lk).opposite_side := by
  have hs := sweepLevels_keys symbol_ is_buy opp order lk
  unfold Ladder.Ordered at h ⊢
  have h1 : (opp.map Prod.fst).Pairwise (fun x y => keyBefore d x y = true) := by
    rw [List.pairwise_map]; exact h
  have h2 := h1.sublist hs
  rw [List.pairwise_map] at h2
  exact h2

/-- A level that the `for` loop empties has traded every order in full. -/
theorem matchLevel_consumed (symbol_ : String) (price : Price) (os : List Order) :
    ∀ (order : Order) (tq : Quantity) (lk : Lookup),
      (matchLevel symbol_ price order os tq lk).orders = [] →
      ∀ x ∈ os, ∃ t ∈ (matchLevel symbol_ price order os tq lk).trades,
        t.maker_order_id = x.id ∧ t.price = price ∧ t.quantity = x.quantity := by
  induction os with
  | nil => intro order tq lk _ x hx; simp at hx
  | cons it rest ih =>
    intro order tq lk he x hx
    by_cases hpos : 0 < order.quantity
    · rw [matchLevel_cons_pos _ _ _ _ _ _ _ hpos] at he ⊢
      by_cases hle : it.quantity ≤ order.quantity
      · simp only [hle, if_true] at he ⊢
        rcases List.mem_cons.mp hx with rfl | hx
        · exact ⟨_, List.mem_cons_self _ _, rfl, rfl, rfl⟩
        · obtain ⟨t, ht, h1⟩ := ih _ _ _ he x hx
          exact ⟨t, List.mem_cons_of_mem _ ht, h1⟩
      · simp [hle] at he
    · rw [matchLevel_nonpos _ _ _ _ _ _ (not_lt.mp hpos)] at he
      simp at he

theorem ordered_head_best (d : Bool) (p : Price) (l : OrderBookLevel) (rest : Ladder)
    (h : Ladder.Ordered d ((p, l) :: rest)) :
    ∀ e ∈ (p, l) :: rest, keyBefore d e.1 p = false := by
  intro e he
  rcases List.mem_cons.mp he with rfl | he
  · exact keyBefore_irrefl d p
  · exact keyBefore_asymm d p e.1 ((List.pairwise_cons.mp h).1 e he)

theorem ordered_head_not_mem (d : Bool) (p : Price) (l : OrderBookLevel) (rest : Ladder)
    (h : Ladder.Ordered d ((p, l) :: rest)) : p ∉ rest.map Prod.fst := by
  intro hp
  obtain ⟨e, he, hpe⟩ := List.mem_map.mp hp
  have := keyBefore_ne d p e.1 ((List.pairwise_cons.mp h).1 e he)
  exact this hpe.symm

theorem sweepLevels_priority (symbol_ : String) (is_buy : Bool) (d : Bool) (opp : Ladder) :
    Ladder.Ordered d opp → ∀ (order : Order) (lk : Lookup) (pre : List Trade) (t : Trade)
      (post : List Trade),
      (sweepLevels symbol_ is_buy order opp lk).trades = pre ++ t :: post →
      ∀ e ∈ opp, keyBefore d e.1 t.price = true →
        (∀ x ∈ e.2.orders, ∃ t1 ∈ pre,
            t1.maker_order_id = x.id ∧ t1.price = e.1 ∧ t1.quantity = x.quantity)
          ∧ Ladder.find (sweepLevels symbol_ is_buy order opp lk).opposite_side e.1 = none := by
  induction opp with
  | nil => intro _ order lk pre t post _ e he; simp at he
  | cons e0 rest ih =>
    obtain ⟨p, l⟩ := e0
    intro hord order lk
    have hbest := ordered_head_best d p l rest hord
    have hnot := ordered_head_not_mem d p l rest hord
    have hrest : Ladder.Ordered d rest := (List.pairwise_cons.mp hord).2
    refine sweepLevels_cases symbol_ is_buy order p l rest lk
      (fun s => ∀ (pre : List Trade) (t : Trade) (post : List Trade),
        s.trades = pre ++ t :: post →
        ∀ e ∈ (p, l) :: rest, keyBefore d e.1 t.price = true →
          (∀ x ∈ e.2.orders, ∃ t1 ∈ pre,
              t1.maker_order_id = x.id ∧ t1.price = e.1 ∧ t1.quantity = x.quantity)
            ∧ Ladder.find s.opposite_side e.1 = none) ?_ ?_ ?_
    · intro _ pre t post h; simp at h
    · intro _ _ hempty pre t post hsplit e he hbefore
      have hhead : ∀ t1 ∈ (matchLevel symbol_ p order l.orders l.total_quantity lk).trades,
          t1.price = p := fun t1 ht1 => (matchLevel_trade_fields _ _ _ _ _ _ t1 ht1).1
      simp only at hsplit
      rcases List.append_eq_append_iff.mp hsplit with ⟨a1, hpre, hs1⟩ | ⟨c1, hr, hc⟩
      · -- the trade belongs to a later level
        rcases List.mem_cons.mp he with rfl | he
        · refine ⟨?_, ?_⟩
          · intro x hx
            obtain ⟨t1, ht1, h1⟩ := matchLevel_consumed _ _ _ _ _ _ hempty x hx
            exact ⟨t1, by rw [hpre]; exact List.mem_append_left _ ht1, h1⟩
          · rw [Ladder.find_eq_none]
            intro hmem
            exact hnot ((sweepLevels_keys _ _ _ _ _).subset hmem)
        · obtain ⟨h1, h2⟩ := ih hrest _ _ a1 t post hs1 e he hbefore
          refine ⟨?_, h2⟩
          intro x hx
          obtain ⟨t1, ht1, h3⟩ := h1 x hx
          exact ⟨t1, by rw [hpre]; exact List.mem_append_right _ ht1, h3⟩
      · cases c1 with
        | nil =>
          simp only [List.nil_append, List.append_nil] at hc hr
          rcases List.mem_cons.mp he with rfl | he
          · refine ⟨?_, ?_⟩
            · intro x hx
              obtain ⟨t1, ht1, h1⟩ := matchLevel_consumed _ _ _ _ _ _ hempty x hx
              exact ⟨t1, by rw [← hr]; exact ht1, h1⟩
            · rw [Ladder.find_eq_none]
              intro hmem
              exact hnot ((sweepLevels_keys _ _ _ _ _).subset hmem)
          · obtain ⟨h1, h2⟩ := ih hrest _ _ [] t post hc.symm e he hbefore
            refine ⟨?_, h2⟩
            intro x hx
            obtain ⟨t1, ht1, _⟩ := h1 x hx
            simp at ht1
        | cons c c2 =>
          simp only [List.cons_append, List.cons.injEq] at hc
          have htp : t.price = p := by
            apply hhead; rw [hr, ← hc.1]; simp
          rw [htp, hbest e he] at hbefore
          exact absurd hbefore Bool.false_ne_true
    · intro _ _ _ _ pre t post hsplit e he hbefore
      have htp : t.price = p :=
        (matchLevel_trade_fields symbol_ p l.orders order l.total_quantity lk t
          (by simp only at hsplit; rw [hsplit]; simp)).1
      rw [htp, hbest e he] at hbefore
      exact absurd hbefore Bool.false_ne_true

theorem sweepLevels_monotone (symbol_ : String) (is_buy : Bool) (d : Bool) (opp : Ladder) :
    Ladder.Ordered d opp → ∀ (order : Order) (lk : Lookup),
      (sweepLevels symbol_ is_buy order opp lk).trades.Pairwise
        (fun t1 t2 => keyBefore d t2.price t1.price = false) := by
  induction opp with
  | nil => intro _ order lk; simp [sweepLevels]
  | cons e0 rest ih =>
    obtain ⟨p, l⟩ := e0
    intro hord order lk
    have hrest : Ladder.Ordered d rest := (List.pairwise_cons.mp hord).2
    have hlevel : ∀ (o : Order) (tq : Quantity) (k : Lookup),
        (matchLevel symbol_ p o l.orders tq k).trades.Pairwise
          (fun t1 t2 => keyBefore d t2.price t1.price = false) := by
      intro o tq k
      rw [List.pairwise_iff_forall_sublist]
      intro t1 t2 hsub
      have h1 := (matchLevel_trade_fields _ _ _ _ _ _ t1 (hsub.subset (by simp))).1
      have h2 := (matchLevel_trade_fields _ _ _ _ _ _ t2 (hsub.subset (by simp))).1
      rw [h1, h2]; exact keyBefore_irrefl d p
    refine sweepLevels_cases symbol_ is_buy order p l rest lk
      (fun s => s.trades.Pairwise (fun t1 t2 => keyBefore d t2.price t1.price = false)) ?_ ?_ ?_
    · intro _; simp
    · intro _ _ _
      simp only
      rw [List.pairwise_append]
      refine ⟨hlevel _ _ _, ih hrest _ _, ?_⟩
      intro t1 ht1 t2 ht2
      have h1 := (matchLevel_trade_fields _ _ _ _ _ _ t1 ht1).1
      obtain ⟨_, _, _, _, e, he, h2, _⟩ := sweepLevels_trade_fields _ _ _ _ _ t2 ht2
      rw [h1, h2]
      exact keyBefore_asymm d p e.1 ((List.pairwise_cons.mp hord).1 e he)
    · intro _ _ _ _
      exact hlevel _ _ _


theorem keyBefore_iff_betterPrice (side : OrderSide) (p q : Price) :
    keyBefore (decide (side = OrderSide.SELL)) p q = true ↔ betterPrice side p q := by
  cases side <;> simp [keyBefore, betterPrice]

theorem oppositeSide_ordered (b : OrderBook) (side : OrderSide) (h : MapOrdered b) :
    Ladder.Ordered (decide (side = OrderSide.SELL)) (oppositeSide b side) := by
  cases side
  · simpa [oppositeSide] using h.2
  · simpa [oppositeSide] using h.1

/-- Claim C3: on a book whose ladders are ordered as their maps keep them, the trades of
one `addOrder` call come in price priority.  The trade prices are non-decreasing for a
buy and non-increasing for a sell, and when a trade is emitted every opposite level with
a strictly better price has already traded each of its orders in full and is absent from
the resulting ladder. -/
theorem addOrder_price_priority (b : OrderBook) (order : Order) (h : MapOrdered b) :
    ∃ r, addOrder b order = some r
      ∧ (order.side = OrderSide.BUY →
          (tradesOf r.events).Pairwise (fun t1 t2 => t1.price ≤ t2.price))
      ∧ (order.side = OrderSide.SELL →
          (tradesOf r.events).Pairwise (fun t1 t2 => t1.price ≥ t2.price))
      ∧ ∀ (pre : List Trade) (t : Trade) (post : List Trade),
          tradesOf r.events = pre ++ t :: post →
          ∀ e ∈ oppositeSide b order.side, betterPrice order.side e.1 t.price →
            (∀ x ∈ e.2.orders, ∃ t1 ∈ pre,
                t1.maker_order_id = x.id ∧ t1.price = e.1 ∧ t1.quantity = x.quantity)
              ∧ Ladder.find (oppositeSide r.book order.side) e.1 = none := by
  refine ⟨addOrderOutcome b order, addOrder_eq b order, ?_⟩
  rw [tradesOf_addOrderOutcome, oppositeSide_addOrderOutcome]
  have hord := oppositeSide_ordered b order.side h
  split_ifs with hc
  · refine ⟨fun _ => List.Pairwise.nil, fun _ => List.Pairwise.nil, ?_⟩
    intro pre t post hsplit
    simp at hsplit
  · have hmono := sweepLevels_monotone b.symbol_ (decide (order.side = OrderSide.BUY))
      (decide (order.side = OrderSide.SELL)) (oppositeSide b order.side) hord order
      b.order_lookup_
    refine ⟨?_, ?_, ?_⟩
    · intro hside
      refine hmono.imp ?_
      intro t1 t2 h12
      simpa [hside, keyBefore] using h12
    · intro hside
      refine hmono.imp ?_
      intro t1 t2 h12
      simpa [hside, keyBefore] using h12
    · intro pre t post hsplit e he hbetter
      exact sweepLevels_priority b.symbol_ (decide (order.side = OrderSide.BUY))
        (decide (order.side = OrderSide.SELL)) (oppositeSide b order.side) hord order
        b.order_lookup_ pre t post hsplit e he
        ((keyBefore_iff_betterPrice _ _ _).mpr hbetter)

theorem addOrder_price_priority_witness :
    MapOrdered bookS4
      ∧ ∃ r, addOrder bookS4 (mkOrder 3 OrderSide.BUY OrderType.LIMIT 4 (some 101)) = some r
      ∧ (OrderSide.BUY = OrderSide.BUY →
          (tradesOf r.events).Pairwise (fun t1 t2 => t1.price ≤ t2.price))
      ∧ (OrderSide.BUY = OrderSide.SELL →
          (tradesOf r.events).Pairwise (fun t1 t2 => t1.price ≥ t2.price))
      ∧ ∀ (pre : List Trade) (t : Trade) (post : List Trade),
          tradesOf r.events = pre ++ t :: post →
          ∀ e ∈ oppositeSide bookS4 OrderSide.BUY, betterPrice OrderSide.BUY e.1 t.price →
            (∀ x ∈ e.2.orders, ∃ t1 ∈ pre,
                t1.maker_order_id = x.id ∧ t1.price = e.1 ∧ t1.quantity = x.quantity)
              ∧ Ladder.find (oppositeSide r.book OrderSide.BUY) e.1 = none :=
  ⟨by decide,
   addOrder_price_priority bookS4 (mkOrder 3 OrderSide.BUY OrderType.LIMIT 4 (some 101))
     (by decide)⟩

/-! ## Time priority within a level -/

theorem append_eq_split {α : Type} (xs ys pre post : List α) (t : α)
    (h : xs ++ ys = pre ++ t :: post) :
    (∃ c, xs = pre ++ t :: c ∧ post = c ++ ys) ∨ (∃ a, pre = xs ++ a ∧ ys = a ++ t :: post) := by
  rcases List.append_eq_append_iff.mp h with ⟨a, h1, h2⟩ | ⟨c, h1, h2⟩
  · exact Or.inr ⟨a, h1, h2⟩
  · cases c with
    | nil =>
      refine Or.inr ⟨[], ?_, ?_⟩
      · simpa using h1.symm
      · simpa using h2.symm
    | cons c0 c =>
      simp only [List.cons_append, List.cons.injEq] at h2
      refine Or.inl ⟨c, ?_, h2.2⟩
      rw [h1, h2.1]

theorem matchLevel_orders_ids (symbol_ : String) (price : Price) (os : List Order) :
    ∀ (order : Order) (tq : Quantity) (lk : Lookup),
      ((matchLevel symbol_ price order os tq lk).orders.map (fun o => o.id)).Sublist
        (os.map (fun o => o.id)) := by
  induction os with
  | nil => intro order tq lk; simp [matchLevel]
  | cons it rest ih =>
    intro order tq lk
    by_cases hpos : 0 < order.quantity
    · rw [matchLevel_cons_pos _ _ _ _ _ _ _ hpos]
      by_cases hle : it.quantity ≤ order.quantity
      · simp only [hle, if_true, List.map_cons]
        exact (ih _ _ _).trans (List.sublist_cons_self _ _)
      · simp [hle]
    · rw [matchLevel_nonpos _ _ _ _ _ _ (not_lt.mp hpos)]

theorem matchLevel_fifo (symbol_ : String) (price : Price) (A B : Order) (os : List Order) :
    (os.map (fun o => o.id)).Nodup → [A, B].Sublist os →
    ∀ (order : Order) (tq : Quantity) (lk : Lookup) (pre : List Trade) (t : Trade)
      (post : List Trade),
      (matchLevel symbol_ price order os tq lk).trades = pre ++ t :: post →
      (t.maker_order_id = B.id →
        (∃ t1 ∈ pre, t1.maker_order_id = A.id ∧ t1.quantity = A.quantity)
          ∧ A.id ∉ (matchLevel symbol_ price order os tq lk).orders.map (fun o => o.id))
      ∧ (t.maker_order_id = A.id → ∀ t1 ∈ pre, t1.maker_order_id ≠ B.id) := by
  induction os with
  | nil => intro _ hsub; simp at hsub
  | cons it rest ih =>
    intro hnodup hsub order tq lk pre t post hsplit
    simp only [List.map_cons, List.nodup_cons] at hnodup
    have hBrest : B ∈ rest := by
      cases hsub with
      | cons _ h => exact h.subset (by simp)
      | cons₂ _ h => exact h.subset (by simp)
    have hBid : it.id ≠ B.id := by
      intro hid
      exact hnodup.1 (List.mem_map.mpr ⟨B, hBrest, hid.symm⟩)
    by_cases hpos : 0 < order.quantity
    · rw [matchLevel_cons_pos _ _ _ _ _ _ _ hpos] at hsplit ⊢
      by_cases hle : it.quantity ≤ order.quantity
      · simp only [hle, if_true] at hsplit ⊢
        cases pre with
        | nil =>
          simp only [List.nil_append, List.cons.injEq] at hsplit
          refine ⟨?_, ?_⟩
          · intro hB
            rw [← hsplit.1] at hB
            exact absurd hB hBid
          · intro _ t1 ht1; simp at ht1
        | cons c pre1 =>
          simp only [List.cons_append, List.cons.injEq] at hsplit
          obtain ⟨hc, hrec⟩ := hsplit
          cases hsub with
          | cons _ hsub1 =>
            obtain ⟨h1, h2⟩ := ih hnodup.2 hsub1 _ _ _ pre1 t post hrec
            refine ⟨?_, ?_⟩
            · intro hB
              obtain ⟨⟨t1, ht1, h3⟩, h4⟩ := h1 hB
              exact ⟨⟨t1, List.mem_cons_of_mem _ ht1, h3⟩, h4⟩
            · intro hA t1 ht1
              rcases List.mem_cons.mp ht1 with rfl | ht1
              · rw [← hc]; exact hBid
              · exact h2 hA t1 ht1
          | cons₂ _ hsub1 =>
            -- here `A` is the head of the vector
            have hmaker : ∀ t1 ∈ (matchLevel symbol_ price
                { order with quantity := order.quantity - A.quantity } rest
                (tq - A.quantity) (Lookup.erase A.id lk)).trades,
                t1.maker_order_id ≠ A.id := by
              intro t1 ht1 hid
              obtain ⟨_, _, _, _, x, hx, hxid⟩ := matchLevel_trade_fields _ _ _ _ _ _ t1 ht1
              exact hnodup.1 (List.mem_map.mpr ⟨x, hx, by rw [← hxid, hid]⟩)
            refine ⟨?_, ?_⟩
            · intro _
              refine ⟨⟨c, List.mem_cons_self _ _, by rw [← hc], by rw [← hc]⟩, ?_⟩
              intro hmem
              exact hnodup.1 ((matchLevel_orders_ids _ _ _ _ _ _).subset hmem)
            · intro hA
              exact absurd hA (hmaker t (by rw [hrec]; simp))
      · simp only [hle, if_false] at hsplit ⊢
        cases pre with
        | nil =>
          simp only [List.nil_append, List.cons.injEq] at hsplit
          refine ⟨?_, ?_⟩
          · intro hB
            rw [← hsplit.1] at hB
            exact absurd hB hBid
          · intro _ t1 ht1; simp at ht1
        | cons c pre1 =>
          simp at hsplit
    · rw [matchLevel_nonpos _ _ _ _ _ _ (not_lt.mp hpos)] at hsplit
      simp at hsplit


theorem sweepLevels_fifo (symbol_ : String) (is_buy : Bool) (A B : Order) (opp : Ladder) :
    (opp.map Prod.fst).Nodup → ∀ (order : Order) (lk : Lookup),
      ∀ e ∈ opp, (e.2.orders.map (fun o => o.id)).Nodup → [A, B].Sublist e.2.orders →
      ∀ (pre : List Trade) (t : Trade) (post : List Trade),
        (sweepLevels symbol_ is_buy order opp lk).trades = pre ++ t :: post →
        t.price = e.1 →
        (t.maker_order_id = B.id →
          (∃ t1 ∈ pre, t1.price = e.1 ∧ t1.maker_order_id = A.id ∧ t1.quantity = A.quantity)
            ∧ ∀ lv, Ladder.find (sweepLevels symbol_ is_buy order opp lk).opposite_side e.1
                = some lv → A.id ∉ lv.orders.map (fun o => o.id))
        ∧ (t.maker_order_id = A.id →
            ∀ t1 ∈ pre, ¬ (t1.price = e.1 ∧ t1.maker_order_id = B.id)) := by
  induction opp with
  | nil => intro _ order lk e he; simp at he
  | cons e0 rest ih =>
    obtain ⟨p, l⟩ := e0
    intro hkeys order lk e he hids hsub
    simp only [List.map_cons, List.nodup_cons] at hkeys
    have hhead : ∀ t1 ∈ (matchLevel symbol_ p order l.orders l.total_quantity lk).trades,
        t1.price = p := fun t1 ht1 => (matchLevel_trade_fields _ _ _ _ _ _ t1 ht1).1
    have hlater : ∀ (o : Order) (k : Lookup), ∀ t1 ∈ (sweepLevels symbol_ is_buy o rest k).trades,
        t1.price ≠ p := by
      intro o k t1 ht1 hp
      obtain ⟨_, _, _, _, e1, he1, h1, _⟩ := sweepLevels_trade_fields _ _ _ _ _ t1 ht1
      exact hkeys.1 (List.mem_map.mpr ⟨e1, he1, by rw [← h1, hp]⟩)
    refine sweepLevels_cases symbol_ is_buy order p l rest lk
      (fun s => ∀ (pre : List Trade) (t : Trade) (post : List Trade),
        s.trades = pre ++ t :: post → t.price = e.1 →
        (t.maker_order_id = B.id →
          (∃ t1 ∈ pre, t1.price = e.1 ∧ t1.maker_order_id = A.id ∧ t1.quantity = A.quantity)
            ∧ ∀ lv, Ladder.find s.opposite_side e.1 = some lv →
                A.id ∉ lv.orders.map (fun o => o.id))
        ∧ (t.maker_order_id = A.id →
            ∀ t1 ∈ pre, ¬ (t1.price = e.1 ∧ t1.maker_order_id = B.id))) ?_ ?_ ?_
    · intro _ pre t post h; simp at h
    · intro _ _ hempty pre t post hsplit hprice
      simp only at hsplit
      rcases List.mem_cons.mp he with rfl | he
      · -- the level of `A` and `B` is the head level
        rcases append_eq_split _ _ _ _ _ hsplit with ⟨c, h1, _⟩ | ⟨a, _, h2⟩
        · obtain ⟨g1, g2⟩ := matchLevel_fifo symbol_ p A B l.orders hids hsub order
            l.total_quantity lk pre t c h1
          refine ⟨?_, ?_⟩
          · intro hB
            obtain ⟨⟨t1, ht1, h3, h4⟩, _⟩ := g1 hB
            refine ⟨⟨t1, ht1, hhead t1 (by rw [h1]; simp [ht1]), h3, h4⟩, ?_⟩
            intro lv hlv
            have hnone : Ladder.find (sweepLevels symbol_ is_buy
                (matchLevel symbol_ p order l.orders l.total_quantity lk).order rest
                (matchLevel symbol_ p order l.orders l.total_quantity lk).lookup).opposite_side p
                = none := by
              rw [Ladder.find_eq_none]
              intro hmem
              exact hkeys.1 ((sweepLevels_keys _ _ _ _ _).subset hmem)
            simp only at hlv
            rw [hnone] at hlv
            exact absurd hlv (by simp)
          · intro hA t1 ht1 h5
            exact g2 hA t1 ht1 h5.2
        · exact absurd hprice (hlater _ _ t (by rw [h2]; simp))
      · -- the level of `A` and `B` is a later level
        have hne : e.1 ≠ p := by
          intro h; exact hkeys.1 (List.mem_map.mpr ⟨e, he, h⟩)
        rcases append_eq_split _ _ _ _ _ hsplit with ⟨c, h1, _⟩ | ⟨a, h1, h2⟩
        · exact absurd (hhead t (by rw [h1]; simp)) (by rw [hprice]; exact hne)
        · obtain ⟨g1, g2⟩ := ih hkeys.2 _ _ e he hids hsub a t post h2 hprice
          refine ⟨?_, ?_⟩
          · intro hB
            obtain ⟨⟨t1, ht1, h3⟩, h4⟩ := g1 hB
            exact ⟨⟨t1, by rw [h1]; exact List.mem_append_right _ ht1, h3⟩, h4⟩
          · intro hA t1 ht1 h5
            rw [h1] at ht1
            rcases List.mem_append.mp ht1 with ht1 | ht1
            · exact hne (by rw [← h5.1]; exact hhead t1 ht1)
            · exact g2 hA t1 ht1 h5
    · intro _ _ _ _ pre t post hsplit hprice
      simp only at hsplit
      rcases List.mem_cons.mp he with rfl | he
      · obtain ⟨g1, g2⟩ := matchLevel_fifo symbol_ p A B l.orders hids hsub order
          l.total_quantity lk pre t post hsplit
        refine ⟨?_, ?_⟩
        · intro hB
          obtain ⟨⟨t1, ht1, h3, h4⟩, h5⟩ := g1 hB
          refine ⟨⟨t1, ht1, hhead t1 (by rw [hsplit]; simp [ht1]), h3, h4⟩, ?_⟩
          intro lv hlv
          simp only [Ladder.find, if_true, Option.some.injEq] at hlv
          rw [← hlv]
          exact h5
        · intro hA t1 ht1 h5
          exact g2 hA t1 ht1 h5.2
      · have hne : e.1 ≠ p := by
          intro h; exact hkeys.1 (List.mem_map.mpr ⟨e, he, h⟩)
        exact absurd (hhead t (by rw [hsplit]; simp)) (by rw [hprice]; exact hne)

theorem ordered_keys_nodup (d : Bool) (m : Ladder) (h : Ladder.Ordered d m) :
    (m.map Prod.fst).Nodup := by
  unfold Ladder.Ordered at h
  unfold List.Nodup
  rw [List.pairwise_map]
  exact h.imp (fun hab => keyBefore_ne d _ _ hab)

/-- Claim C4: on a book whose ladders are ordered as their maps keep them, take an
opposite level at price `p` whose orders have distinct ids and hold `A` before `B`.  In the
trades of one `addOrder` call, a trade against `B` at `p` comes only after a trade against
`A` at `p` that fills `A` in full, and `A` is then absent from that level in the resulting
book; and no trade against `B` at `p` precedes a trade against `A` at `p`. -/
theorem addOrder_fifo (b : OrderBook) (order : Order) (p : Price) (level : OrderBookLevel)
    (A B : Order) (xs ys zs : List Order) (hmap : MapOrdered b)
    (hlevel : (p, level) ∈ oppositeSide b order.side)
    (hids : (level.orders.map (fun o => o.id)).Nodup)
    (hAB : level.orders = xs ++ A :: ys ++ B :: zs) :
    ∃ r, addOrder b order = some r
      ∧ (∀ (pre : List Trade) (t : Trade) (post : List Trade),
          tradesOf r.events = pre ++ t :: post → t.price = p → t.maker_order_id = B.id →
            (∃ t1 ∈ pre, t1.price = p ∧ t1.maker_order_id = A.id ∧ t1.quantity = A.quantity)
              ∧ ∀ lv, Ladder.find (oppositeSide r.book order.side) p = some lv →
                  A.id ∉ lv.orders.map (fun o => o.id))
      ∧ (∀ (pre : List Trade) (t : Trade) (post : List Trade),
          tradesOf r.events = pre ++ t :: post → t.price = p → t.maker_order_id = A.id →
            ∀ t1 ∈ pre, ¬ (t1.price = p ∧ t1.maker_order_id = B.id)) := by
  refine ⟨addOrderOutcome b order, addOrder_eq b order, ?_⟩
  rw [tradesOf_addOrderOutcome, oppositeSide_addOrderOutcome]
  have hsub : [A, B].Sublist level.orders := by
    rw [hAB, List.append_assoc]
    apply List.sublist_append_of_sublist_right
    apply List.Sublist.cons₂
    apply List.sublist_append_of_sublist_right
    apply List.Sublist.cons₂
    simp
  have hkeys := ordered_keys_nodup _ _ (oppositeSide_ordered b order.side hmap)
  split_ifs with hc
  · refine ⟨?_, ?_⟩ <;> intro pre t post hsplit <;> simp at hsplit
  · have key := sweepLevels_fifo b.symbol_ (decide (order.side = OrderSide.BUY)) A B
      (oppositeSide b order.side) hkeys order b.order_lookup_ (p, level) hlevel hids hsub
    refine ⟨?_, ?_⟩
    · intro pre t post hsplit hp hB
      exact (key pre t post hsplit hp).1 hB
    · intro pre t post hsplit hp hA
      exact (key pre t post hsplit hp).2 hA

theorem addOrder_fifo_witness :
    MapOrdered bookS3
      ∧ ((50 : Price), levelS3) ∈ oppositeSide bookS3 OrderSide.SELL
      ∧ (addOrder bookS3 (mkOrder 12 OrderSide.SELL OrderType.LIMIT 5 (some 50))).map
            (fun r => (tradesOf r.events, r.book.bids_))
          = some
              ([{ maker_order_id := 10, taker_order_id := 12, symbol := "BTC-USDT",
                  price := 50, quantity := 4, aggressor_side := OrderSide.SELL },
                { maker_order_id := 11, taker_order_id := 12, symbol := "BTC-USDT",
                  price := 50, quantity := 1, aggressor_side := OrderSide.SELL }],
               [(50, { price := 50, total_quantity := 3,
                       orders := [mkOrder 11 OrderSide.BUY OrderType.LIMIT 3 (some 50)] })])
      ∧ ∃ r, addOrder bookS3 (mkOrder 12 OrderSide.SELL OrderType.LIMIT 5 (some 50)) = some r
        ∧ (∀ (pre : List Trade) (t : Trade) (post : List Trade),
            tradesOf r.events = pre ++ t :: post → t.price = 50 → t.maker_order_id = 11 →
              (∃ t1 ∈ pre, t1.price = 50 ∧ t1.maker_order_id = 10 ∧ t1.quantity = 4)
                ∧ ∀ lv, Ladder.find (oppositeSide r.book OrderSide.SELL) 50 = some lv →
                    10 ∉ lv.orders.map (fun o => o.id))
        ∧ (∀ (pre : List Trade) (t : Trade) (post : List Trade),
            tradesOf r.events = pre ++ t :: post → t.price = 50 → t.maker_order_id = 10 →
              ∀ t1 ∈ pre, ¬ (t1.price = 50 ∧ t1.maker_order_id = 11)) :=
  ⟨by decide, by decide, by decide,
   addOrder_fifo bookS3 (mkOrder 12 OrderSide.SELL OrderType.LIMIT 5 (some 50)) 50 levelS3
     (mkOrder 10 OrderSide.BUY OrderType.LIMIT 4 (some 50))
     (mkOrder 11 OrderSide.BUY OrderType.LIMIT 4 (some 50)) [] [] []
     (by decide) (by decide) (by decide) rfl⟩

/-! ## Order-type policies and the return value -/

/-- Claim C5, the behaviour of the code on its witness: on asks `{100: 2, 101: 3}` a FOK
buy of 6 at 101, which the 5 available cannot fill, is matched all the same: `addOrder`
returns `true`, emits trades of 2 and 3, and empties the asks. -/
theorem addOrder_fok_fills_short :
    addOrder bookS4 (mkOrder 21 OrderSide.BUY OrderType.FOK 6 (some 101))
      = some
          { ret := true,
            book := { symbol_ := "BTC-USDT", bids_ := [], asks_ := [], order_lookup_ := [] },
            events :=
              [Event.trade
                 { maker_order_id := 1, taker_order_id := 21, symbol := "BTC-USDT",
                   price := 100, quantity := 2, aggressor_side := OrderSide.BUY },
               Event.trade
                 { maker_order_id := 2, taker_order_id := 21, symbol := "BTC-USDT",
                   price := 101, quantity := 3, aggressor_side := OrderSide.BUY },
               Event.bbo "BTC-USDT"
                 { best_bid := none, best_offer := none, best_bid_quantity := none,
                   best_offer_quantity := none }] } := by
  decide

/-- Claim C8: `addOrder` returns `false` exactly when the order is a LIMIT order without
a price, and then the book is unchanged and neither sink is called. -/
theorem addOrder_false_iff (b : OrderBook) (order : Order) :
    ∃ r, addOrder b order = some r
      ∧ (r.ret = false ↔ order.type = OrderType.LIMIT ∧ order.price = none)
      ∧ (r.ret = false → r.book = b ∧ r.events = []) := by
  refine ⟨addOrderOutcome b order, addOrder_eq b order, ?_⟩
  unfold addOrderOutcome
  by_cases hv : order.type = OrderType.LIMIT ∧ order.price = none
  · simp [hv]
  · rw [if_neg hv]
    split_ifs <;> simp [hv]


theorem Lookup.find_erase_none (k id : OrderId) (m : Lookup)
    (h : Lookup.find m id = none) : Lookup.find (Lookup.erase k m) id = none := by
  induction m with
  | nil => simp [Lookup.erase, Lookup.find]
  | cons e rest ih =>
    obtain ⟨k1, v⟩ := e
    by_cases h1 : k1 = id
    · simp [Lookup.find, h1] at h
    · simp only [Lookup.find, h1, if_false] at h
      by_cases h2 : k1 = k
      · simp [Lookup.erase, h2, h]
      · simp [Lookup.erase, h2, Lookup.find, h1, ih h]

theorem matchLevel_lookup (symbol_ : String) (price : Price) (id : OrderId) (os : List Order) :
    ∀ (order : Order) (tq : Quantity) (lk : Lookup), Lookup.find lk id = none →
      Lookup.find (matchLevel symbol_ price order os tq lk).lookup id = none := by
  induction os with
  | nil => intro order tq lk h; simpa [matchLevel] using h
  | cons it rest ih =>
    intro order tq lk h
    by_cases hpos : 0 < order.quantity
    · rw [matchLevel_cons_pos _ _ _ _ _ _ _ hpos]
      by_cases hle : it.quantity ≤ order.quantity
      · simp only [hle, if_true]
        exact ih _ _ _ (Lookup.find_erase_none _ _ _ h)
      · simpa [hle] using h
    · rw [matchLevel_nonpos _ _ _ _ _ _ (not_lt.mp hpos)]
      exact h

theorem sweepLevels_lookup (symbol_ : String) (is_buy : Bool) (id : OrderId) (opp : Ladder) :
    ∀ (order : Order) (lk : Lookup), Lookup.find lk id = none →
      Lookup.find (sweepLevels symbol_ is_buy order opp lk).lookup id = none := by
  induction opp with
  | nil => intro order lk h; simpa [sweepLevels] using h
  | cons e rest ih =>
    obtain ⟨p, l⟩ := e
    intro order lk h
    refine sweepLevels_cases symbol_ is_buy order p l rest lk
      (fun s => Lookup.find s.lookup id = none) ?_ ?_ ?_
    · intro _; exact h
    · intro _ _ _
      exact ih _ _ (matchLevel_lookup _ _ _ _ _ _ _ h)
    · intro _ _ _ _
      exact matchLevel_lookup _ _ _ _ _ _ _ h

theorem ownSide_sweepBook (b : OrderBook) (order : Order) :
    ownSide (sweepBook b order (decide (order.side = OrderSide.BUY))).book order.side
      = ownSide b order.side := by
  cases h : order.side <;> simp [sweepBook, ownSide, h]

theorem lookup_sweepBook (b : OrderBook) (order : Order) :
    (sweepBook b order (decide (order.side = OrderSide.BUY))).book.order_lookup_
      = (sweepLevels b.symbol_ (decide (order.side = OrderSide.BUY)) order
          (oppositeSide b order.side) b.order_lookup_).lookup := by
  cases h : order.side <;> simp [sweepBook, oppositeSide, h]

theorem sweepBook_order (b : OrderBook) (order : Order) :
    (sweepBook b order (decide (order.side = OrderSide.BUY))).order
      = { order with
          quantity := (sweepBook b order (decide (order.side = OrderSide.BUY))).order.quantity } := by
  simp only [sweepBook]
  exact sweepLevels_order _ _ _ _ _

theorem sweepLevels_no_cross (symbol_ : String) (is_buy : Bool) (order : Order) (opp : Ladder)
    (lk : Lookup) (h : ∀ e ∈ opp, cannotMatch is_buy e.1 order.price = true) :
    sweepLevels symbol_ is_buy order opp lk
      = { order := order, opposite_side := opp, lookup := lk, trades := [] } := by
  cases opp with
  | nil => simp [sweepLevels]
  | cons e rest =>
    obtain ⟨p, l⟩ := e
    apply sweepLevels_stop
    rw [h (p, l) (List.mem_cons_self _ _)]
    simp

theorem sweepBook_no_cross (b : OrderBook) (order : Order)
    (h : ∀ e ∈ oppositeSide b order.side, ¬ crosses order.side order.price e.1) :
    sweepBook b order (decide (order.side = OrderSide.BUY))
      = { book := b, order := order, events := updateBBO b } := by
  have h1 : ∀ e ∈ oppositeSide b order.side,
      cannotMatch (decide (order.side = OrderSide.BUY)) e.1 order.price = true := by
    intro e he
    have := h e he
    rw [← cannotMatch_eq_false_iff] at this
    simpa using this
  have h2 := sweepLevels_no_cross b.symbol_ (decide (order.side = OrderSide.BUY)) order
    (oppositeSide b order.side) b.order_lookup_ h1
  obtain ⟨sym, bids, asks, lk⟩ := b
  cases hs : order.side <;> simp [sweepBook, oppositeSide, hs] at h2 ⊢ <;> simp [h2]

/-- Claim C7: a MARKET or IOC order never rests.  After `addOrder` the ladder of the
order's own side is unchanged and no id is added to `order_lookup_`; and when no level of
the opposite side crosses the order (in particular when that side is empty) no trade is
emitted and the whole book is unchanged. -/
theorem addOrder_market_ioc_never_rests (b : OrderBook) (order : Order)
    (htype : order.type = OrderType.MARKET ∨ order.type = OrderType.IOC) :
    ∃ r, addOrder b order = some r
      ∧ ownSide r.book order.side = ownSide b order.side
      ∧ (∀ id, Lookup.find b.order_lookup_ id = none →
          Lookup.find r.book.order_lookup_ id = none)
      ∧ ((∀ e ∈ oppositeSide b order.side, ¬ crosses order.side order.price e.1) →
          tradesOf r.events = [] ∧ r.book = b) := by
  refine ⟨addOrderOutcome b order, addOrder_eq b order, ?_⟩
  have hnl : order.type ≠ OrderType.LIMIT := by
    rcases htype with h | h <;> rw [h] <;> decide
  have hst : (sweepBook b order (decide (order.side = OrderSide.BUY))).order.type
      ≠ OrderType.LIMIT := by
    rw [sweepBook_order]; exact hnl
  have hout : addOrderOutcome b order
      = if order.quantity ≤ 0 then { ret := true, book := b, events := [] }
        else { ret := true,
               book := (sweepBook b order (decide (order.side = OrderSide.BUY))).book,
               events := (sweepBook b order (decide (order.side = OrderSide.BUY))).events } := by
    unfold addOrderOutcome
    simp [hnl, hst]
  rw [hout]
  by_cases hq : order.quantity ≤ 0
  · simp [hq, tradesOf]
  · simp only [hq, if_false]
    refine ⟨ownSide_sweepBook b order, ?_, ?_⟩
    · intro id hid
      rw [lookup_sweepBook]
      exact sweepLevels_lookup _ _ _ _ _ _ hid
    · intro hno
      rw [sweepBook_no_cross b order hno]
      exact ⟨rfl, rfl⟩

theorem addOrder_market_ioc_never_rests_witness :
    (OrderType.IOC = OrderType.MARKET ∨ OrderType.IOC = OrderType.IOC)
      ∧ ∃ r, addOrder bookS4 (mkOrder 20 OrderSide.BUY OrderType.IOC 10 (some 99)) = some r
        ∧ ownSide r.book OrderSide.BUY = ownSide bookS4 OrderSide.BUY
        ∧ (∀ id, Lookup.find bookS4.order_lookup_ id = none →
            Lookup.find r.book.order_lookup_ id = none)
        ∧ ((∀ e ∈ oppositeSide bookS4 OrderSide.BUY,
              ¬ crosses OrderSide.BUY (some 99) e.1) →
            tradesOf r.events = [] ∧ r.book = bookS4) :=
  ⟨by decide,
   addOrder_market_ioc_never_rests bookS4 (mkOrder 20 OrderSide.BUY OrderType.IOC 10 (some 99))
     (by decide)⟩

/-! ## Resting the residual of a LIMIT order -/

theorem keyBefore_trans (d : Bool) (p q r : Price) (h1 : keyBefore d p q = true)
    (h2 : keyBefore d q r = true) : keyBefore d p r = true := by
  cases d <;> simp [keyBefore] at h1 h2 ⊢ <;> linarith

theorem Ladder.find_update_other (d : Bool) (P p : Price) (f : OrderBookLevel → OrderBookLevel)
    (m : Ladder) (h : p ≠ P) :
    Ladder.find (Ladder.update d P f m) p = Ladder.find m p := by
  induction m with
  | nil => simp [Ladder.update, Ladder.find, h.symm]
  | cons e rest ih =>
    obtain ⟨k, l⟩ := e
    by_cases hk : k = P
    · subst hk
      simp [Ladder.update, Ladder.find, h.symm]
    · by_cases hb : keyBefore d P k = true
      · simp [Ladder.update, Ladder.find, hk, hb, h.symm]
      · simp only [Ladder.update, hk, hb, if_false, Ladder.find, ih, Bool.false_eq_true]

theorem Ladder.find_update_self (d : Bool) (P : Price) (f : OrderBookLevel → OrderBookLevel)
    (m : Ladder) (h : Ladder.Ordered d m) :
    Ladder.find (Ladder.update d P f m) P
      = some (f (match Ladder.find m P with
                 | some old => old
                 | none => OrderBookLevel.zero)) := by
  induction m with
  | nil => simp [Ladder.update, Ladder.find]
  | cons e rest ih =>
    obtain ⟨k, l⟩ := e
    have hrest : Ladder.Ordered d rest := (List.pairwise_cons.mp h).2
    by_cases hk : k = P
    · simp [Ladder.update, Ladder.find, hk]
    · by_cases hb : keyBefore d P k = true
      · have hnone : Ladder.find rest P = none := by
          rw [Ladder.find_eq_none]
          intro hmem
          obtain ⟨e1, he1, hp⟩ := List.mem_map.mp hmem
          have h1 := (List.pairwise_cons.mp h).1 e1 he1
          have h2 := keyBefore_trans d P k e1.1 hb h1
          exact keyBefore_ne d P e1.1 h2 hp.symm
        simp [Ladder.update, Ladder.find, hk, hb, hnone]
      · simp only [Ladder.update, hk, hb, if_false, Ladder.find, ih hrest, Bool.false_eq_true]

theorem Lookup.find_set_self (id : OrderId) (v : Price × OrderSide) (m : Lookup) :
    Lookup.find (Lookup.set id v m) id = some v := by
  induction m with
  | nil => simp [Lookup.set, Lookup.find]
  | cons e rest ih =>
    obtain ⟨k, w⟩ := e
    by_cases hk : k = id
    · simp [Lookup.set, Lookup.find, hk]
    · simp [Lookup.set, Lookup.find, hk, ih]

theorem ownSide_addToBook (b : OrderBook) (order : Order) :
    ownSide (addToBook b order).1 order.side
      = Ladder.update (decide (order.side = OrderSide.BUY)) (order.price.getD 0)
          (fun level =>
            { price := order.price.getD 0, orders := level.orders ++ [order],
              total_quantity := level.total_quantity + order.quantity })
          (ownSide b order.side) := by
  cases h : order.side <;> simp [addToBook, ownSide, h]

theorem lookup_addToBook (b : OrderBook) (order : Order) :
    (addToBook b order).1.order_lookup_
      = Lookup.set order.id (order.price.getD 0, order.side) b.order_lookup_ := by
  cases h : order.side <;> simp [addToBook, h]

theorem ownSide_ordered (b : OrderBook) (side : OrderSide) (h : MapOrdered b) :
    Ladder.Ordered (decide (side = OrderSide.BUY)) (ownSide b side) := by
  cases side
  · simpa [ownSide] using h.1
  · simpa [ownSide] using h.2

/-- The book of `addOrder` for an order that passes validation with a positive quantity. -/
theorem addOrderOutcome_book (b : OrderBook) (order : Order)
    (hv : ¬ (order.type = OrderType.LIMIT ∧ order.price = none)) (hq : 0 < order.quantity) :
    (addOrderOutcome b order).book
      = if (sweepBook b order (decide (order.side = OrderSide.BUY))).order.quantity > 0
            ∧ order.type = OrderType.LIMIT then
          (addToBook (sweepBook b order (decide (order.side = OrderSide.BUY))).book
            (sweepBook b order (decide (order.side = OrderSide.BUY))).order).1
        else (sweepBook b order (decide (order.side = OrderSide.BUY))).book := by
  have htype : (sweepBook b order (decide (order.side = OrderSide.BUY))).order.type
      = order.type := by
    rw [sweepBook_order]
  unfold addOrderOutcome
  rw [if_neg hv, if_neg (not_le.mpr hq), htype]
  split_ifs <;> rfl

theorem sweepBook_residual (b : OrderBook) (order : Order) :
    (sweepBook b order (decide (order.side = OrderSide.BUY))).order.quantity
      = order.quantity
        - tradedQuantity (sweepLevels b.symbol_ (decide (order.side = OrderSide.BUY)) order
            (oppositeSide b order.side) b.order_lookup_).trades := by
  have h := sweepLevels_conserve b.symbol_ (decide (order.side = OrderSide.BUY))
    (oppositeSide b order.side) order b.order_lookup_
  have hopp : (if decide (order.side = OrderSide.BUY) = true then b.asks_ else b.bids_)
      = oppositeSide b order.side := by
    simp [oppositeSide]
  simp only [sweepBook, hopp]
  linarith

/-- Claim C6: on a book whose ladders are ordered as their maps keep them, a LIMIT order
with price `P` whose quantity left after the sweep is positive is appended, with that
quantity, as the last order of the own-side level at `P`, which is created when missing;
the level's total grows by that quantity, every other own-side level is unchanged, and
`order_lookup_` maps the id to `(P, side)`.  When nothing is left, the own side is
unchanged and no id is added to `order_lookup_`. -/
theorem addOrder_limit_rests_at_tail (b : OrderBook) (order : Order) (P : Price)
    (hmap : MapOrdered b) (htype : order.type = OrderType.LIMIT)
    (hprice : order.price = some P) :
    ∃ r, addOrder b order = some r
      ∧ (0 < order.quantity - tradedQuantity (tradesOf r.events) →
          (∃ lv, Ladder.find (ownSide r.book order.side) P = some lv
            ∧ lv.price = P
            ∧ match Ladder.find (ownSide b order.side) P with
              | some old =>
                lv.orders = old.orders
                    ++ [{ order with
                          quantity := order.quantity - tradedQuantity (tradesOf r.events) }]
                  ∧ lv.total_quantity = old.total_quantity
                      + (order.quantity - tradedQuantity (tradesOf r.events))
              | none =>
                lv.orders
                    = [{ order with
                         quantity := order.quantity - tradedQuantity (tradesOf r.events) }]
                  ∧ lv.total_quantity = order.quantity - tradedQuantity (tradesOf r.events))
          ∧ (∀ p, p ≠ P →
              Ladder.find (ownSide r.book order.side) p = Ladder.find (ownSide b order.side) p)
          ∧ Lookup.find r.book.order_lookup_ order.id = some (P, order.side))
      ∧ (order.quantity - tradedQuantity (tradesOf r.events) ≤ 0 →
          ownSide r.book order.side = ownSide b order.side
            ∧ ∀ id, Lookup.find b.order_lookup_ id = none →
                Lookup.find r.book.order_lookup_ id = none) := by
  refine ⟨addOrderOutcome b order, addOrder_eq b order, ?_⟩
  have hv : ¬ (order.type = OrderType.LIMIT ∧ order.price = none) := by
    rw [hprice]; simp
  rw [tradesOf_addOrderOutcome]
  by_cases hq : order.quantity ≤ 0
  · have hbook : (addOrderOutcome b order).book = b := by
      unfold addOrderOutcome; rw [if_neg hv, if_pos hq]
    simp only [hq, or_true, if_true, tradedQuantity, List.map_nil, List.sum_nil, sub_zero]
    refine ⟨fun h => absurd h (not_lt.mpr hq), fun _ => ?_⟩
    rw [hbook]
    exact ⟨rfl, fun _ h => h⟩
  · have hor : ¬ ((order.type = OrderType.LIMIT ∧ order.price = none) ∨ order.quantity ≤ 0) := by
      tauto
    rw [if_neg hor, addOrderOutcome_book b order hv (not_le.mp hq), ← sweepBook_residual]
    have horder := sweepBook_order b order
    have hside : (sweepBook b order (decide (order.side = OrderSide.BUY))).order.side
        = order.side := by rw [horder]
    have hp : (sweepBook b order (decide (order.side = OrderSide.BUY))).order.price
        = some P := by rw [horder]; exact hprice
    have hid : (sweepBook b order (decide (order.side = OrderSide.BUY))).order.id
        = order.id := by rw [horder]
    refine ⟨?_, ?_⟩
    · intro hpos
      rw [if_pos ⟨hpos, htype⟩]
      have hown := ownSide_addToBook (sweepBook b order (decide (order.side = OrderSide.BUY))).book
        (sweepBook b order (decide (order.side = OrderSide.BUY))).order
      rw [hside, hp, ownSide_sweepBook] at hown
      simp only [Option.getD_some] at hown
      rw [hown]
      refine ⟨?_, ?_, ?_⟩
      · rw [Ladder.find_update_self _ _ _ _ (ownSide_ordered b order.side hmap)]
        refine ⟨_, rfl, rfl, ?_⟩
        rw [← horder]
        cases Ladder.find (ownSide b order.side) P with
        | none => simp [OrderBookLevel.zero]
        | some old => simp
      · intro p hpne
        exact Ladder.find_update_other _ _ _ _ _ hpne
      · rw [lookup_addToBook, hid, hp, hside]
        exact Lookup.find_set_self _ _ _
    · intro hle
      rw [if_neg (fun h => absurd h.1 (not_lt.mpr hle))]
      refine ⟨ownSide_sweepBook b order, ?_⟩
      intro id hnone
      rw [lookup_sweepBook]
      exact sweepLevels_lookup _ _ _ _ _ _ hnone


theorem addOrder_limit_rests_at_tail_witness :
    MapOrdered bookS2
      ∧ addOrder bookS2 (mkOrder 3 OrderSide.BUY OrderType.LIMIT 10 (some 100))
          = some
              { ret := true,
                book :=
                  { symbol_ := "BTC-USDT",
                    bids_ := [(100, { price := 100, total_quantity := 8,
                                      orders := [mkOrder 3 OrderSide.BUY OrderType.LIMIT 8
                                                   (some 100)] })],
                    asks_ := [], order_lookup_ := [(3, (100, OrderSide.BUY))] },
                events :=
                  [Event.trade
                     { maker_order_id := 1, taker_order_id := 3, symbol := "BTC-USDT",
                       price := 100, quantity := 2, aggressor_side := OrderSide.BUY },
                   Event.bbo "BTC-USDT"
                     { best_bid := none, best_offer := none, best_bid_quantity := none,
                       best_offer_quantity := none },
                   Event.bbo "BTC-USDT"
                     { best_bid := some 100, best_offer := none, best_bid_quantity := some 8,
                       best_offer_quantity := none }] }
      ∧ ∃ r, addOrder bookS2 (mkOrder 3 OrderSide.BUY OrderType.LIMIT 10 (some 100)) = some r
        ∧ (0 < 10 - tradedQuantity (tradesOf r.events) →
            (∃ lv, Ladder.find (ownSide r.book OrderSide.BUY) 100 = some lv
              ∧ lv.price = 100
              ∧ match Ladder.find (ownSide bookS2 OrderSide.BUY) 100 with
                | some old =>
                  lv.orders = old.orders
                      ++ [mkOrder 3 OrderSide.BUY OrderType.LIMIT
                            (10 - tradedQuantity (tradesOf r.events)) (some 100)]
                    ∧ lv.total_quantity = old.total_quantity
                        + (10 - tradedQuantity (tradesOf r.events))
                | none =>
                  lv.orders
                      = [mkOrder 3 OrderSide.BUY OrderType.LIMIT
                           (10 - tradedQuantity (tradesOf r.events)) (some 100)]
                    ∧ lv.total_quantity = 10 - tradedQuantity (tradesOf r.events))
            ∧ (∀ p, p ≠ 100 →
                Ladder.find (ownSide r.book OrderSide.BUY) p
                  = Ladder.find (ownSide bookS2 OrderSide.BUY) p)
            ∧ Lookup.find r.book.order_lookup_ 3 = some (100, OrderSide.BUY))
        ∧ (10 - tradedQuantity (tradesOf r.events) ≤ 0 →
            ownSide r.book OrderSide.BUY = ownSide bookS2 OrderSide.BUY
              ∧ ∀ id, Lookup.find bookS2.order_lookup_ id = none →
                  Lookup.find r.book.order_lookup_ id = none) :=
  ⟨by decide, by decide,
   addOrder_limit_rests_at_tail bookS2 (mkOrder 3 OrderSide.BUY OrderType.LIMIT 10 (some 100))
     100 (by decide) rfl rfl⟩

/-! ## Conservation of quantity -/

theorem matchLevel_nonneg (symbol_ : String) (price : Price) (os : List Order) :
    ∀ (order : Order) (tq : Quantity) (lk : Lookup), 0 ≤ order.quantity →
      0 ≤ (matchLevel symbol_ price order os tq lk).order.quantity := by
  induction os with
  | nil => intro order tq lk h; simpa [matchLevel] using h
  | cons it rest ih =>
    intro order tq lk h
    by_cases hpos : 0 < order.quantity
    · rw [matchLevel_cons_pos _ _ _ _ _ _ _ hpos]
      by_cases hle : it.quantity ≤ order.quantity
      · simp only [hle, if_true]
        exact ih _ _ _ (by simpa using hle)
      · simp [hle]
    · rw [matchLevel_nonpos _ _ _ _ _ _ (not_lt.mp hpos)]
      exact h

theorem sweepLevels_nonneg (symbol_ : String) (is_buy : Bool) (opp : Ladder) :
    ∀ (order : Order) (lk : Lookup), 0 ≤ order.quantity →
      0 ≤ (sweepLevels symbol_ is_buy order opp lk).order.quantity := by
  induction opp with
  | nil => intro order lk h; simpa [sweepLevels] using h
  | cons e rest ih =>
    obtain ⟨p, l⟩ := e
    intro order lk h
    refine sweepLevels_cases symbol_ is_buy order p l rest lk
      (fun s => 0 ≤ s.order.quantity) ?_ ?_ ?_
    · intro _; exact h
    · intro _ _ _
      exact ih _ _ (matchLevel_nonneg _ _ _ _ _ _ h)
    · intro _ _ _ _
      exact matchLevel_nonneg _ _ _ _ _ _ h

theorem restingQuantity_update (d : Bool) (P : Price) (order : Order) (m : Ladder) :
    restingQuantity (Ladder.update d P
        (fun level =>
          { price := P, orders := level.orders ++ [order],
            total_quantity := level.total_quantity + order.quantity }) m)
      = restingQuantity m + order.quantity := by
  induction m with
  | nil => simp [Ladder.update, restingQuantity, OrderBookLevel.zero]
  | cons e rest ih =>
    obtain ⟨k, l⟩ := e
    by_cases hk : k = P
    · simp [Ladder.update, restingQuantity, hk]; ring
    · by_cases hb : keyBefore d P k = true
      · simp [Ladder.update, restingQuantity, hk, hb, OrderBookLevel.zero]; ring
      · simp only [Ladder.update, hk, hb, if_false, Bool.false_eq_true]
        simp only [restingQuantity, List.map_cons, List.sum_cons] at ih ⊢
        rw [ih]; ring

/-- Claim C9: for an order of quantity `q ≥ 0`, with `T` the total quantity of the trades
that `addOrder` emits: an accepted LIMIT order satisfies `T + rested = q`, where `rested ≥ 0`
is the growth of the resting quantity of its own side; a MARKET or IOC order has a
discarded residual `q - T ≥ 0` and rests nothing (own side unchanged, no id added to
`order_lookup_`). -/
theorem addOrder_conserves_quantity (b : OrderBook) (order : Order)
    (hq : 0 ≤ order.quantity) :
    ∃ r, addOrder b order = some r
      ∧ (r.ret = true → order.type = OrderType.LIMIT →
          0 ≤ restingQuantity (ownSide r.book order.side)
                - restingQuantity (ownSide b order.side)
            ∧ tradedQuantity (tradesOf r.events)
                + (restingQuantity (ownSide r.book order.side)
                    - restingQuantity (ownSide b order.side)) = order.quantity)
      ∧ (order.type = OrderType.MARKET ∨ order.type = OrderType.IOC →
          0 ≤ order.quantity - tradedQuantity (tradesOf r.events)
            ∧ ownSide r.book order.side = ownSide b order.side
            ∧ ∀ id, Lookup.find b.order_lookup_ id = none →
                Lookup.find r.book.order_lookup_ id = none) := by
  refine ⟨addOrderOutcome b order, addOrder_eq b order, ?_⟩
  rw [tradesOf_addOrderOutcome]
  by_cases hv : order.type = OrderType.LIMIT ∧ order.price = none
  · have hret : (addOrderOutcome b order).ret = false := by
      unfold addOrderOutcome; rw [if_pos hv]
    refine ⟨fun h => ?_, fun h => ?_⟩
    · rw [hret] at h; exact absurd h (by decide)
    · rcases h with h | h <;> rw [hv.1] at h <;> exact absurd h (by decide)
  · by_cases hz : order.quantity ≤ 0
    · have hbook : (addOrderOutcome b order).book = b := by
        unfold addOrderOutcome; rw [if_neg hv, if_pos hz]
      have hT : tradedQuantity ([] : List Trade) = 0 := rfl
      rw [if_pos (Or.inr hz), hbook, hT]
      refine ⟨fun _ _ => ⟨by linarith, by linarith⟩, fun _ => ⟨by linarith, rfl, fun _ h => h⟩⟩
    · have hor : ¬ ((order.type = OrderType.LIMIT ∧ order.price = none)
          ∨ order.quantity ≤ 0) := by tauto
      rw [if_neg hor, addOrderOutcome_book b order hv (not_le.mp hz)]
      have hres := sweepBook_residual b order
      have hnn : 0 ≤ (sweepBook b order (decide (order.side = OrderSide.BUY))).order.quantity := by
        simp only [sweepBook]
        exact sweepLevels_nonneg _ _ _ _ _ hq
      have horder := sweepBook_order b order
      have hside : (sweepBook b order (decide (order.side = OrderSide.BUY))).order.side
          = order.side := by rw [horder]
      refine ⟨fun _ htype => ?_, fun htype => ?_⟩
      · by_cases hpos : (sweepBook b order (decide (order.side = OrderSide.BUY))).order.quantity > 0
        · rw [if_pos ⟨hpos, htype⟩]
          have hown := ownSide_addToBook
            (sweepBook b order (decide (order.side = OrderSide.BUY))).book
            (sweepBook b order (decide (order.side = OrderSide.BUY))).order
          rw [hside, ownSide_sweepBook] at hown
          rw [hown, restingQuantity_update]
          constructor <;> linarith
        · rw [if_neg (fun h => hpos h.1), ownSide_sweepBook]
          have h0 : (sweepBook b order (decide (order.side = OrderSide.BUY))).order.quantity
              = 0 := le_antisymm (not_lt.mp hpos) hnn
          constructor <;> linarith
      · have hnl : order.type ≠ OrderType.LIMIT := by
          rcases htype with h | h <;> rw [h] <;> decide
        rw [if_neg (fun h => hnl h.2)]
        refine ⟨by linarith, ownSide_sweepBook b order, ?_⟩
        intro id hnone
        rw [lookup_sweepBook]
        exact sweepLevels_lookup _ _ _ _ _ _ hnone

theorem addOrder_conserves_quantity_witness :
    (0 : Quantity) ≤ 10
      ∧ ∃ r, addOrder bookS4 (mkOrder 20 OrderSide.BUY OrderType.IOC 10 (some 100)) = some r
        ∧ (r.ret = true → OrderType.IOC = OrderType.LIMIT →
            0 ≤ restingQuantity (ownSide r.book OrderSide.BUY)
                  - restingQuantity (ownSide bookS4 OrderSide.BUY)
              ∧ tradedQuantity (tradesOf r.events)
                  + (restingQuantity (ownSide r.book OrderSide.BUY)
                      - restingQuantity (ownSide bookS4 OrderSide.BUY)) = 10)
        ∧ (OrderType.IOC = OrderType.MARKET ∨ OrderType.IOC = OrderType.IOC →
            0 ≤ 10 - tradedQuantity (tradesOf r.events)
              ∧ ownSide r.book OrderSide.BUY = ownSide bookS4 OrderSide.BUY
              ∧ ∀ id, Lookup.find bookS4.order_lookup_ id = none →
                  Lookup.find r.book.order_lookup_ id = none) :=
  ⟨by decide,
   addOrder_conserves_quantity bookS4 (mkOrder 20 OrderSide.BUY OrderType.IOC 10 (some 100))
     (by decide)⟩

/-! ## Invariants of the book under sequences of calls -/

/-- An invariant of the empty book that each of the three calls preserves holds after
every sequence of calls, and every such sequence runs to completion. -/
theorem applyCalls_invariant (I : OrderBook → Prop)
    (hadd : ∀ b order, I b → I (addOrderOutcome b order).book)
    (hcancel : ∀ b id, I b → I (cancelOrder b id).book)
    (hmodify : ∀ b id q, I b → I (modifyOrder b id q).book) :
    ∀ (calls : List Call) (b : OrderBook), I b →
      ∃ b1, applyCalls b calls = some b1 ∧ I b1 := by
  intro calls
  induction calls with
  | nil => intro b hb; exact ⟨b, rfl, hb⟩
  | cons c cs ih =>
    intro b hb
    cases c with
    | addOrder order =>
      obtain ⟨b1, h1, h2⟩ := ih _ (hadd b order hb)
      exact ⟨b1, by simp [applyCalls, applyCall, addOrder_eq, h1], h2⟩
    | cancelOrder id =>
      obtain ⟨b1, h1, h2⟩ := ih _ (hcancel b id hb)
      exact ⟨b1, by simp [applyCalls, applyCall, h1], h2⟩
    | modifyOrder id q =>
      obtain ⟨b1, h1, h2⟩ := ih _ (hmodify b id q hb)
      exact ⟨b1, by simp [applyCalls, applyCall, h1], h2⟩

theorem Ladder.keys_assign (p : Price) (lv : OrderBookLevel) (m : Ladder) :
    (Ladder.assign p lv m).map Prod.fst = m.map Prod.fst := by
  induction m with
  | nil => rfl
  | cons e rest ih =>
    obtain ⟨k, l⟩ := e
    by_cases hk : k = p
    · simp [Ladder.assign, hk]
    · simp [Ladder.assign, hk, ih]

theorem Ladder.keys_erase (p : Price) (m : Ladder) :
    ((Ladder.erase p m).map Prod.fst).Sublist (m.map Prod.fst) := by
  induction m with
  | nil => simp [Ladder.erase]
  | cons e rest ih =>
    obtain ⟨k, l⟩ := e
    by_cases hk : k = p
    · simp [Ladder.erase, hk]
    · simp [Ladder.erase, hk, ih]

theorem removeFromLadder_keys (id : OrderId) (p : Price) (m : Ladder) :
    ((removeFromLadder id p m).map Prod.fst).Sublist (m.map Prod.fst) := by
  unfold removeFromLadder
  split
  · exact List.Sublist.refl _
  · split
    · exact List.Sublist.refl _
    · simp only
      split_ifs
      · exact Ladder.keys_erase _ _
      · rw [Ladder.keys_assign]

theorem modifyInLadder_keys (id : OrderId) (p : Price) (q : Quantity) (m m1 : Ladder)
    (h : modifyInLadder id p q m = some m1) : m1.map Prod.fst = m.map Prod.fst := by
  unfold modifyInLadder at h
  split at h
  · simp at h
  · split at h
    · simp at h
    · simp only [Option.some.injEq] at h
      rw [← h, Ladder.keys_assign]

theorem ordered_of_keys_sublist (d : Bool) (m m1 : Ladder)
    (hs : (m1.map Prod.fst).Sublist (m.map Prod.fst)) (h : Ladder.Ordered d m) :
    Ladder.Ordered d m1 := by
  unfold Ladder.Ordered at h ⊢
  have h1 : (m.map Prod.fst).Pairwise (fun x y => keyBefore d x y = true) := by
    rw [List.pairwise_map]; exact h
  have h2 := h1.sublist hs
  rw [List.pairwise_map] at h2
  exact h2

/-- Ordered and uncrossed ladders stay so when each ladder keeps a sublist of its keys. -/
theorem inv_of_keys_sublist (b b1 : OrderBook)
    (hb : (b1.bids_.map Prod.fst).Sublist (b.bids_.map Prod.fst))
    (ha : (b1.asks_.map Prod.fst).Sublist (b.asks_.map Prod.fst))
    (h : MapOrdered b ∧ Uncrossed b) : MapOrdered b1 ∧ Uncrossed b1 := by
  refine ⟨⟨ordered_of_keys_sublist _ _ _ hb h.1.1, ordered_of_keys_sublist _ _ _ ha h.1.2⟩, ?_⟩
  intro bid hbid ask hask
  have h1 : bid.1 ∈ b.bids_.map Prod.fst := hb.subset (List.mem_map_of_mem _ hbid)
  have h2 : ask.1 ∈ b.asks_.map Prod.fst := ha.subset (List.mem_map_of_mem _ hask)
  obtain ⟨e1, he1, hk1⟩ := List.mem_map.mp h1
  obtain ⟨e2, he2, hk2⟩ := List.mem_map.mp h2
  rw [← hk1, ← hk2]
  exact h.2 e1 he1 e2 he2

theorem cancelOrder_inv (b : OrderBook) (id : OrderId) (h : MapOrdered b ∧ Uncrossed b) :
    MapOrdered (cancelOrder b id).book ∧ Uncrossed (cancelOrder b id).book := by
  unfold cancelOrder
  split
  · exact h
  · rename_i entry _
    apply inv_of_keys_sublist b _ _ _ h
    · simp only [removeFromBook]
      split_ifs
      · exact removeFromLadder_keys _ _ _
      · exact List.Sublist.refl _
    · simp only [removeFromBook]
      split_ifs
      · exact List.Sublist.refl _
      · exact removeFromLadder_keys _ _ _

theorem modifyOrder_inv (b : OrderBook) (id : OrderId) (q : Quantity)
    (h : MapOrdered b ∧ Uncrossed b) :
    MapOrdered (modifyOrder b id q).book ∧ Uncrossed (modifyOrder b id q).book := by
  unfold modifyOrder
  split
  · exact h
  · split_ifs
    · split
      · rename_i m hm
        apply inv_of_keys_sublist b _ _ _ h
        · simp only [modifyInLadder_keys _ _ _ _ _ hm]; exact List.Sublist.refl _
        · exact List.Sublist.refl _
      · exact h
    · split
      · rename_i m hm
        apply inv_of_keys_sublist b _ _ _ h
        · exact List.Sublist.refl _
        · simp only [modifyInLadder_keys _ _ _ _ _ hm]; exact List.Sublist.refl _
      · exact h


theorem keyBefore_total (d : Bool) (p q : Price) (hne : p ≠ q)
    (h : ¬ keyBefore d q p = true) : keyBefore d p q = true := by
  cases d <;> simp [keyBefore] at h ⊢ <;> exact lt_of_le_of_ne h (by tauto)

theorem Ladder.mem_update (d : Bool) (P : Price) (f : OrderBookLevel → OrderBookLevel)
    (m : Ladder) : ∀ e ∈ Ladder.update d P f m, e.1 = P ∨ e.1 ∈ m.map Prod.fst := by
  induction m with
  | nil => intro e he; simp [Ladder.update] at he; left; rw [he]
  | cons e0 rest ih =>
    obtain ⟨k, l⟩ := e0
    intro e he
    by_cases hk : k = P
    · simp only [Ladder.update, hk, if_true, List.mem_cons] at he
      rcases he with rfl | he
      · left; rfl
      · right; exact List.mem_cons_of_mem _ (List.mem_map_of_mem _ he)
    · by_cases hb : keyBefore d P k = true
      · simp only [Ladder.update, hk, hb, if_true, if_false, List.mem_cons] at he
        rcases he with rfl | rfl | he
        · left; rfl
        · right; simp
        · right; exact List.mem_cons_of_mem _ (List.mem_map_of_mem _ he)
      · simp only [Ladder.update, hk, hb, if_false, List.mem_cons, Bool.false_eq_true] at he
        rcases he with rfl | he
        · right; simp
        · rcases ih e he with h | h
          · left; exact h
          · right; exact List.mem_cons_of_mem _ h

theorem Ladder.update_ordered (d : Bool) (P : Price) (f : OrderBookLevel → OrderBookLevel)
    (m : Ladder) (h : Ladder.Ordered d m) : Ladder.Ordered d (Ladder.update d P f m) := by
  induction m with
  | nil => simp [Ladder.update, Ladder.Ordered]
  | cons e0 rest ih =>
    obtain ⟨k, l⟩ := e0
    have hhead := (List.pairwise_cons.mp h).1
    have hrest : Ladder.Ordered d rest := (List.pairwise_cons.mp h).2
    by_cases hk : k = P
    · simp only [Ladder.update, hk, if_true]
      subst hk
      exact List.pairwise_cons.mpr ⟨hhead, hrest⟩
    · by_cases hb : keyBefore d P k = true
      · simp only [Ladder.update, hk, hb, if_true, if_false]
        refine List.pairwise_cons.mpr ⟨?_, h⟩
        intro e he
        rcases List.mem_cons.mp he with rfl | he
        · exact hb
        · exact keyBefore_trans d P k e.1 hb (hhead e he)
      · simp only [Ladder.update, hk, hb, if_false, Bool.false_eq_true]
        refine List.pairwise_cons.mpr ⟨?_, ih hrest⟩
        intro e he
        rcases Ladder.mem_update d P f rest e he with h1 | h1
        · show keyBefore d k e.1 = true
          rw [h1]; exact keyBefore_total d k P hk hb
        · obtain ⟨e1, he1, hk1⟩ := List.mem_map.mp h1
          show keyBefore d k e.1 = true
          rw [← hk1]; exact hhead e1 he1

theorem cannotMatch_later (is_buy : Bool) (p q : Price) (order_price : Option Price)
    (h : cannotMatch is_buy p order_price = true) (hpq : keyBefore (!is_buy) p q = true) :
    cannotMatch is_buy q order_price = true := by
  cases is_buy <;> cases order_price <;> simp [cannotMatch, keyBefore] at h hpq ⊢ <;> linarith

/-- When the sweep ends with quantity left on the aggressor, no level that remains on the
opposite side crosses the order. -/
theorem sweepLevels_exit (symbol_ : String) (is_buy : Bool) (opp : Ladder) :
    Ladder.Ordered (!is_buy) opp → ∀ (order : Order) (lk : Lookup),
      0 < (sweepLevels symbol_ is_buy order opp lk).order.quantity →
      ∀ e ∈ (sweepLevels symbol_ is_buy order opp lk).opposite_side,
        cannotMatch is_buy e.1 order.price = true := by
  induction opp with
  | nil => intro _ order lk _ e he; simp [sweepLevels] at he
  | cons e0 rest ih =>
    obtain ⟨p, l⟩ := e0
    intro hord order lk
    have hhead := (List.pairwise_cons.mp hord).1
    have hrest : Ladder.Ordered (!is_buy) rest := (List.pairwise_cons.mp hord).2
    refine sweepLevels_cases symbol_ is_buy order p l rest lk
      (fun s => 0 < s.order.quantity → ∀ e ∈ s.opposite_side,
        cannotMatch is_buy e.1 order.price = true) ?_ ?_ ?_
    · intro hstop hpos e he
      have hc : cannotMatch is_buy p order.price = true := by
        by_contra hcon
        exact hstop ⟨hpos, by simpa using hcon⟩
      rcases List.mem_cons.mp he with rfl | he
      · exact hc
      · exact cannotMatch_later is_buy p e.1 order.price hc (hhead e he)
    · intro _ _ _ hpos e he
      have := ih hrest _ _ hpos e he
      rw [matchLevel_order] at this
      exact this
    · intro _ _ _ hz hpos
      simp only at hpos
      rw [hz] at hpos
      exact absurd hpos (lt_irrefl _)

theorem sweepBook_inv (b : OrderBook) (order : Order) (h : MapOrdered b ∧ Uncrossed b) :
    MapOrdered (sweepBook b order (decide (order.side = OrderSide.BUY))).book
      ∧ Uncrossed (sweepBook b order (decide (order.side = OrderSide.BUY))).book := by
  apply inv_of_keys_sublist b _ _ _ h
  · cases hs : order.side
    · simp [sweepBook]
    · simp only [sweepBook, decide_False, Bool.false_eq_true, if_false]
      exact sweepLevels_keys _ _ _ _ _
  · cases hs : order.side
    · simp only [sweepBook, decide_True, if_true]
      exact sweepLevels_keys _ _ _ _ _
    · simp [sweepBook]

theorem addToBook_inv (b : OrderBook) (order : Order) (P : Price)
    (hp : order.price = some P) (h : MapOrdered b ∧ Uncrossed b)
    (hno : ∀ e ∈ oppositeSide b order.side,
      cannotMatch (decide (order.side = OrderSide.BUY)) e.1 (some P) = true) :
    MapOrdered (addToBook b order).1 ∧ Uncrossed (addToBook b order).1 := by
  obtain ⟨⟨hbids, hasks⟩, hun⟩ := h
  cases hs : order.side
  · -- a buy rests among the bids
    rw [hs] at hno
    simp only [oppositeSide, if_true, decide_True, cannotMatch, Bool.true_and, Bool.not_true,
      Bool.false_and, Bool.or_false, decide_eq_true_eq] at hno
    simp only [addToBook, hs, if_true, hp, Option.getD_some, MapOrdered, Uncrossed]
    refine ⟨⟨Ladder.update_ordered _ _ _ _ hbids, hasks⟩, ?_⟩
    intro bid hbid ask hask
    rcases Ladder.mem_update _ _ _ _ bid hbid with h1 | h1
    · rw [h1]; exact hno ask hask
    · obtain ⟨e1, he1, hk1⟩ := List.mem_map.mp h1
      rw [← hk1]; exact hun e1 he1 ask hask
  · -- a sell rests among the asks
    rw [hs] at hno
    have hno1 : ∀ e ∈ b.bids_, e.1 < P := by
      intro e he
      have := hno e (by simpa [oppositeSide] using he)
      simpa [cannotMatch] using this
    simp only [addToBook, hs, hp, Option.getD_some, MapOrdered, Uncrossed]
    refine ⟨⟨hbids, Ladder.update_ordered _ _ _ _ hasks⟩, ?_⟩
    intro bid hbid ask hask
    rcases Ladder.mem_update _ _ _ _ ask (by simpa using hask) with h1 | h1
    · rw [h1]; exact hno1 bid (by simpa using hbid)
    · obtain ⟨e1, he1, hk1⟩ := List.mem_map.mp h1
      rw [← hk1]; exact hun bid (by simpa using hbid) e1 he1

theorem addOrder_inv (b : OrderBook) (order : Order) (h : MapOrdered b ∧ Uncrossed b) :
    MapOrdered (addOrderOutcome b order).book ∧ Uncrossed (addOrderOutcome b order).book := by
  by_cases hv : order.type = OrderType.LIMIT ∧ order.price = none
  · unfold addOrderOutcome; rw [if_pos hv]; exact h
  · by_cases hq : order.quantity ≤ 0
    · unfold addOrderOutcome; rw [if_neg hv, if_pos hq]; exact h
    · rw [addOrderOutcome_book b order hv (not_le.mp hq)]
      have hsw := sweepBook_inv b order h
      split_ifs with hrest
      · have horder := sweepBook_order b order
        obtain ⟨P, hP⟩ : ∃ P, order.price = some P := by
          cases hp : order.price with
          | none => exact absurd ⟨hrest.2, hp⟩ hv
          | some P => exact ⟨P, rfl⟩
        have hp : (sweepBook b order (decide (order.side = OrderSide.BUY))).order.price
            = some P := by rw [horder]; exact hP
        have hside : (sweepBook b order (decide (order.side = OrderSide.BUY))).order.side
            = order.side := by rw [horder]
        apply addToBook_inv _ _ P hp hsw
        rw [hside]
        intro e he
        have hord : Ladder.Ordered (!decide (order.side = OrderSide.BUY))
            (oppositeSide b order.side) := by
          have := oppositeSide_ordered b order.side h.1
          cases hs : order.side <;> simpa [hs] using this
        have hexit := sweepLevels_exit b.symbol_ (decide (order.side = OrderSide.BUY))
          (oppositeSide b order.side) hord order b.order_lookup_
        have hopp : oppositeSide
            (sweepBook b order (decide (order.side = OrderSide.BUY))).book order.side
            = (sweepLevels b.symbol_ (decide (order.side = OrderSide.BUY)) order
                (oppositeSide b order.side) b.order_lookup_).opposite_side := by
          cases hs : order.side <;> simp [sweepBook, oppositeSide, hs]
        have hqty : (sweepBook b order (decide (order.side = OrderSide.BUY))).order.quantity
            = (sweepLevels b.symbol_ (decide (order.side = OrderSide.BUY)) order
                (oppositeSide b order.side) b.order_lookup_).order.quantity := by
          cases hs : order.side <;> simp [sweepBook, oppositeSide, hs]
        rw [hopp] at he
        rw [← hP]
        exact hexit (by rw [← hqty]; exact hrest.1) e he
      · exact hsw

theorem getBBO_best_bid (b : OrderBook) :
    (getBBO b).best_bid = b.bids_.head?.map Prod.fst := by
  obtain ⟨sym, bids, asks, lk⟩ := b
  cases bids <;> cases asks <;> rfl

theorem getBBO_best_offer (b : OrderBook) :
    (getBBO b).best_offer = b.asks_.head?.map Prod.fst := by
  obtain ⟨sym, bids, asks, lk⟩ := b
  cases bids <;> cases asks <;> rfl

/-- Claim C10: starting from an empty book, every finite sequence of `addOrder`,
`cancelOrder` and `modifyOrder` calls runs to completion and leaves a book in which every
bid price is strictly below every ask price; in particular the best bid of `getBBO` is
strictly below its best offer whenever both are present. -/
theorem no_crossed_book (symbol : String) (calls : List Call) :
    ∃ b, applyCalls (OrderBook.new symbol) calls = some b
      ∧ (∀ bid ∈ b.bids_, ∀ ask ∈ b.asks_, bid.1 < ask.1)
      ∧ (∀ x y, (getBBO b).best_bid = some x → (getBBO b).best_offer = some y → x < y) := by
  have hinit : MapOrdered (OrderBook.new symbol) ∧ Uncrossed (OrderBook.new symbol) := by
    refine ⟨⟨List.Pairwise.nil, List.Pairwise.nil⟩, ?_⟩
    intro bid hbid
    simp [OrderBook.new] at hbid
  obtain ⟨b, hb, _, hun⟩ := applyCalls_invariant
    (fun b => MapOrdered b ∧ Uncrossed b) addOrder_inv cancelOrder_inv modifyOrder_inv
    calls (OrderBook.new symbol) hinit
  refine ⟨b, hb, hun, ?_⟩
  intro x y hx hy
  rw [getBBO_best_bid] at hx
  rw [getBBO_best_offer] at hy
  cases hbids : b.bids_ with
  | nil => simp [hbids] at hx
  | cons e1 r1 =>
    cases hasks : b.asks_ with
    | nil => simp [hasks] at hy
    | cons e2 r2 =>
      simp only [hbids, hasks, List.head?_cons, Option.map_some', Option.some.injEq] at hx hy
      rw [← hx, ← hy]
      exact hun e1 (by rw [hbids]; simp) e2 (by rw [hasks]; simp)

/-! ## Level bookkeeping -/

theorem matchLevel_total (symbol_ : String) (price : Price) (os : List Order) :
    ∀ (order : Order) (tq : Quantity) (lk : Lookup),
      (matchLevel symbol_ price order os tq lk).total_quantity
          - ((matchLevel symbol_ price order os tq lk).orders.map (fun o => o.quantity)).sum
        = tq - (os.map (fun o => o.quantity)).sum := by
  induction os with
  | nil => intro order tq lk; simp [matchLevel]
  | cons it rest ih =>
    intro order tq lk
    by_cases hpos : 0 < order.quantity
    · rw [matchLevel_cons_pos _ _ _ _ _ _ _ hpos]
      by_cases hle : it.quantity ≤ order.quantity
      · simp only [hle, if_true, List.map_cons, List.sum_cons]
        rw [ih]; ring
      · simp only [hle, if_false, List.map_cons, List.sum_cons]; ring
    · rw [matchLevel_nonpos _ _ _ _ _ _ (not_lt.mp hpos)]

theorem sweepLevels_kept_levels (symbol_ : String) (is_buy : Bool) (opp : Ladder) :
    LadderKept opp → ∀ (order : Order) (lk : Lookup),
      LadderKept (sweepLevels symbol_ is_buy order opp lk).opposite_side := by
  induction opp with
  | nil => intro _ order lk e he; simp [sweepLevels] at he
  | cons e0 rest ih =>
    obtain ⟨p, l⟩ := e0
    intro hk order lk
    have hl : LevelKept l := hk (p, l) (List.mem_cons_self _ _)
    have hrest : LadderKept rest := fun e he => hk e (List.mem_cons_of_mem _ he)
    refine sweepLevels_cases symbol_ is_buy order p l rest lk
      (fun s => LadderKept s.opposite_side) ?_ ?_ ?_
    · intro _; exact hk
    · intro _ _ _; exact ih hrest _ _
    · intro _ _ hne _ e he
      rcases List.mem_cons.mp he with rfl | he
      · refine ⟨hne, ?_⟩
        have h := matchLevel_total symbol_ p l.orders order l.total_quantity lk
        have h2 := hl.2
        simp only
        linarith
      · exact hrest e he

theorem Ladder.update_all (d : Bool) (P : Price) (f : OrderBookLevel → OrderBookLevel)
    (Q : OrderBookLevel → Prop) (m : Ladder) (hm : ∀ e ∈ m, Q e.2)
    (hf : ∀ l, Q l → Q (f l)) (hz : Q (f OrderBookLevel.zero)) :
    ∀ e ∈ Ladder.update d P f m, Q e.2 := by
  induction m with
  | nil => intro e he; simp [Ladder.update] at he; rw [he]; exact hz
  | cons e0 rest ih =>
    obtain ⟨k, l⟩ := e0
    have hl : Q l := hm (k, l) (List.mem_cons_self _ _)
    have hrest : ∀ e ∈ rest, Q e.2 := fun e he => hm e (List.mem_cons_of_mem _ he)
    intro e he
    by_cases hk : k = P
    · simp only [Ladder.update, hk, if_true, List.mem_cons] at he
      rcases he with rfl | he
      · exact hf l hl
      · exact hrest e he
    · by_cases hb : keyBefore d P k = true
      · simp only [Ladder.update, hk, hb, if_true, if_false, List.mem_cons] at he
        rcases he with rfl | rfl | he
        · exact hz
        · exact hl
        · exact hrest e he
      · simp only [Ladder.update, hk, hb, if_false, List.mem_cons, Bool.false_eq_true] at he
        rcases he with rfl | he
        · exact hl
        · exact ih hrest e he

theorem Ladder.mem_assign (p : Price) (lv : OrderBookLevel) (m : Ladder) :
    ∀ e ∈ Ladder.assign p lv m, e ∈ m ∨ e = (p, lv) := by
  induction m with
  | nil => intro e he; simp [Ladder.assign] at he
  | cons e0 rest ih =>
    obtain ⟨k, l⟩ := e0
    intro e he
    by_cases hk : k = p
    · simp only [Ladder.assign, hk, if_true, List.mem_cons] at he
      rcases he with rfl | he
      · right; rfl
      · left; exact List.mem_cons_of_mem _ he
    · simp only [Ladder.assign, hk, if_false, List.mem_cons] at he
      rcases he with rfl | he
      · left; exact List.mem_cons_self _ _
      · rcases ih e he with h | h
        · left; exact List.mem_cons_of_mem _ h
        · right; exact h

theorem Ladder.mem_erase (p : Price) (m : Ladder) :
    ∀ e ∈ Ladder.erase p m, e ∈ m := by
  induction m with
  | nil => intro e he; simp [Ladder.erase] at he
  | cons e0 rest ih =>
    obtain ⟨k, l⟩ := e0
    intro e he
    by_cases hk : k = p
    · simp only [Ladder.erase, hk, if_true] at he
      exact List.mem_cons_of_mem _ he
    · simp only [Ladder.erase, hk, if_false, List.mem_cons] at he
      rcases he with rfl | he
      · exact List.mem_cons_self _ _
      · exact List.mem_cons_of_mem _ (ih e he)

theorem Ladder.find_mem (m : Ladder) (p : Price) (l : OrderBookLevel)
    (h : Ladder.find m p = some l) : (p, l) ∈ m := by
  induction m with
  | nil => simp [Ladder.find] at h
  | cons e0 rest ih =>
    obtain ⟨k, l0⟩ := e0
    by_cases hk : k = p
    · simp only [Ladder.find, hk, if_true, Option.some.injEq] at h
      rw [hk, h]; exact List.mem_cons_self _ _
    · simp only [Ladder.find, hk, if_false] at h
      exact List.mem_cons_of_mem _ (ih h)

/-- The first order with the id splits the vector of a level. -/
theorem find_split (q : Quantity) (id : OrderId) (os : List Order) (found : Order)
    (h : os.find? (fun o => decide (o.id = id)) = some found) :
    ∃ xs ys, os = xs ++ found :: ys ∧ found.id = id ∧ (∀ x ∈ xs, x.id ≠ id)
      ∧ os.eraseP (fun o => decide (o.id = id)) = xs ++ ys
      ∧ setQuantity id q os = xs ++ { found with quantity := q } :: ys := by
  induction os with
  | nil => simp at h
  | cons o rest ih =>
    by_cases ho : o.id = id
    · simp only [List.find?_cons, ho, decide_True, Option.some.injEq] at h
      subst h
      exact ⟨[], rest, rfl, ho, by simp, by simp [List.eraseP_cons, ho], by simp [setQuantity, ho]⟩
    · simp only [List.find?_cons, ho, decide_False] at h
      obtain ⟨xs, ys, h1, h2, h3, h4, h5⟩ := ih h
      refine ⟨o :: xs, ys, by rw [h1]; rfl, h2, ?_, ?_, ?_⟩
      · intro x hx
        rcases List.mem_cons.mp hx with rfl | hx
        · exact ho
        · exact h3 x hx
      · simp [List.eraseP_cons, ho, h4]
      · simp [setQuantity, ho, h5]

theorem removeFromLadder_kept (id : OrderId) (p : Price) (m : Ladder) (h : LadderKept m) :
    LadderKept (removeFromLadder id p m) := by
  unfold removeFromLadder
  split
  · exact h
  · rename_i level hfind
    split
    · exact h
    · rename_i found hfound
      have hl : LevelKept level := h (p, level) (Ladder.find_mem m p level hfind)
      obtain ⟨xs, ys, h1, _, _, h4, _⟩ := find_split 0 id level.orders found hfound
      simp only
      split_ifs with hempty
      · intro e he; exact h e (Ladder.mem_erase p m e he)
      · intro e he
        rcases Ladder.mem_assign p _ m e he with he | rfl
        · exact h e he
        · refine ⟨?_, ?_⟩
          · simpa [List.isEmpty_iff] using hempty
          · have h2 := hl.2
            simp only [h4]
            rw [h1] at h2
            simp only [List.map_append, List.map_cons, List.sum_append, List.sum_cons] at h2 ⊢
            linarith

theorem modifyInLadder_kept (id : OrderId) (p : Price) (q : Quantity) (m m1 : Ladder)
    (h : LadderKept m) (hm : modifyInLadder id p q m = some m1) : LadderKept m1 := by
  unfold modifyInLadder at hm
  split at hm
  · simp at hm
  · rename_i level hfind
    split at hm
    · simp at hm
    · rename_i found hfound
      have hl : LevelKept level := h (p, level) (Ladder.find_mem m p level hfind)
      obtain ⟨xs, ys, h1, _, _, _, h5⟩ := find_split q id level.orders found hfound
      simp only [Option.some.injEq] at hm
      rw [← hm]
      intro e he
      rcases Ladder.mem_assign p _ m e he with he | rfl
      · exact h e he
      · refine ⟨?_, ?_⟩
        · simp only [h5]; simp
        · have h2 := hl.2
          simp only [h5]
          rw [h1] at h2
          simp only [List.map_append, List.map_cons, List.sum_append, List.sum_cons] at h2 ⊢
          linarith

theorem cancelOrder_kept (b : OrderBook) (id : OrderId) (h : LevelsKept b) :
    LevelsKept (cancelOrder b id).book := by
  unfold cancelOrder
  split
  · exact h
  · simp only [removeFromBook, LevelsKept]
    split_ifs
    · exact ⟨removeFromLadder_kept _ _ _ h.1, h.2⟩
    · exact ⟨h.1, removeFromLadder_kept _ _ _ h.2⟩

theorem modifyOrder_kept (b : OrderBook) (id : OrderId) (q : Quantity) (h : LevelsKept b) :
    LevelsKept (modifyOrder b id q).book := by
  unfold modifyOrder
  split
  · exact h
  · split_ifs
    · split
      · rename_i m hm
        exact ⟨modifyInLadder_kept _ _ _ _ _ h.1 hm, h.2⟩
      · exact h
    · split
      · rename_i m hm
        exact ⟨h.1, modifyInLadder_kept _ _ _ _ _ h.2 hm⟩
      · exact h

theorem sweepBook_kept (b : OrderBook) (order : Order) (h : LevelsKept b) :
    LevelsKept (sweepBook b order (decide (order.side = OrderSide.BUY))).book := by
  cases hs : order.side
  · simp only [sweepBook, decide_True, if_true, LevelsKept]
    exact ⟨h.1, sweepLevels_kept_levels _ _ _ h.2 _ _⟩
  · simp only [sweepBook, decide_False, Bool.false_eq_true, if_false, LevelsKept]
    exact ⟨sweepLevels_kept_levels _ _ _ h.1 _ _, h.2⟩

theorem addToBook_kept (b : OrderBook) (order : Order) (h : LevelsKept b) :
    LevelsKept (addToBook b order).1 := by
  have hpush : ∀ l, LevelKept l →
      LevelKept { price := order.price.getD 0, orders := l.orders ++ [order],
                  total_quantity := l.total_quantity + order.quantity } := by
    intro l hl
    refine ⟨by simp, ?_⟩
    have := hl.2
    simp only [List.map_append, List.map_cons, List.map_nil, List.sum_append, List.sum_cons,
      List.sum_nil]
    linarith
  have hzero : LevelKept
      { price := order.price.getD 0, orders := OrderBookLevel.zero.orders ++ [order],
        total_quantity := OrderBookLevel.zero.total_quantity + order.quantity } := by
    refine ⟨by simp, ?_⟩
    simp [OrderBookLevel.zero]
  cases hs : order.side
  · simp only [addToBook, hs, if_true, LevelsKept]
    exact ⟨Ladder.update_all _ _ _ LevelKept _ h.1 hpush hzero, h.2⟩
  · simp only [addToBook, hs, LevelsKept]
    exact ⟨h.1, Ladder.update_all _ _ _ LevelKept _ h.2 hpush hzero⟩

theorem addOrder_kept (b : OrderBook) (order : Order) (h : LevelsKept b) :
    LevelsKept (addOrderOutcome b order).book := by
  by_cases hv : order.type = OrderType.LIMIT ∧ order.price = none
  · unfold addOrderOutcome; rw [if_pos hv]; exact h
  · by_cases hq : order.quantity ≤ 0
    · unfold addOrderOutcome; rw [if_neg hv, if_pos hq]; exact h
    · rw [addOrderOutcome_book b order hv (not_le.mp hq)]
      split_ifs
      · exact addToBook_kept _ _ (sweepBook_kept b order h)
      · exact sweepBook_kept b order h

/-- Claim C12: starting from an empty book, every finite sequence of `addOrder`,
`cancelOrder` and `modifyOrder` calls runs to completion and leaves a book in which every
level of `bids_` and `asks_` holds at least one order and has a `total_quantity` equal to
the sum of the quantities of its orders. -/
theorem level_bookkeeping (symbol : String) (calls : List Call) :
    ∃ b, applyCalls (OrderBook.new symbol) calls = some b
      ∧ ∀ e ∈ b.bids_ ++ b.asks_,
          e.2.orders ≠ []
            ∧ e.2.total_quantity = (e.2.orders.map (fun o => o.quantity)).sum := by
  have hinit : LevelsKept (OrderBook.new symbol) := by
    constructor <;> intro e he <;> simp [OrderBook.new] at he
  obtain ⟨b, hb, hk⟩ := applyCalls_invariant LevelsKept addOrder_kept cancelOrder_kept
    modifyOrder_kept calls (OrderBook.new symbol) hinit
  refine ⟨b, hb, ?_⟩
  intro e he
  rcases List.mem_append.mp he with he | he
  · exact hk.1 e he
  · exact hk.2 e he

/-! ## Top of book -/

theorem getBBO_best_bid_quantity (b : OrderBook) :
    (getBBO b).best_bid_quantity = b.bids_.head?.map (fun e => e.2.total_quantity) := by
  obtain ⟨sym, bids, asks, lk⟩ := b
  cases bids <;> cases asks <;> rfl

theorem getBBO_best_offer_quantity (b : OrderBook) :
    (getBBO b).best_offer_quantity = b.asks_.head?.map (fun e => e.2.total_quantity) := by
  obtain ⟨sym, bids, asks, lk⟩ := b
  cases bids <;> cases asks <;> rfl

/-- The invariants of the ladders that hold after every sequence of calls on an empty
book: map order, no crossed book, and level bookkeeping. -/
theorem applyCalls_ladders (symbol : String) (calls : List Call) :
    ∃ b, applyCalls (OrderBook.new symbol) calls = some b
      ∧ MapOrdered b ∧ Uncrossed b ∧ LevelsKept b := by
  have hinit : (MapOrdered (OrderBook.new symbol) ∧ Uncrossed (OrderBook.new symbol))
      ∧ LevelsKept (OrderBook.new symbol) := by
    refine ⟨⟨⟨List.Pairwise.nil, List.Pairwise.nil⟩, ?_⟩, ?_⟩
    · intro bid hbid; simp [OrderBook.new] at hbid
    · constructor <;> intro e he <;> simp [OrderBook.new] at he
  obtain ⟨b, hb, ⟨h1, h2⟩, h3⟩ := applyCalls_invariant
    (fun b => (MapOrdered b ∧ Uncrossed b) ∧ LevelsKept b)
    (fun b o h => ⟨addOrder_inv b o h.1, addOrder_kept b o h.2⟩)
    (fun b id h => ⟨cancelOrder_inv b id h.1, cancelOrder_kept b id h.2⟩)
    (fun b id q h => ⟨modifyOrder_inv b id q h.1, modifyOrder_kept b id q h.2⟩)
    calls (OrderBook.new symbol) hinit
  exact ⟨b, hb, h1, h2, h3⟩

/-- Claim C17: in every book reached from the empty book, `getBBO` reports for a
non-empty side the best price of that side (the maximum bid, the minimum ask), which is
the key of a level of the ladder, together with the sum of the quantities of the orders
resting in that level; for an empty side both fields are absent. -/
theorem getBBO_derived (symbol : String) (calls : List Call) :
    ∃ b, applyCalls (OrderBook.new symbol) calls = some b
      ∧ (b.bids_ = [] → (getBBO b).best_bid = none ∧ (getBBO b).best_bid_quantity = none)
      ∧ (b.bids_ ≠ [] → ∃ x level, (getBBO b).best_bid = some x
          ∧ (∀ e ∈ b.bids_, e.1 ≤ x) ∧ Ladder.find b.bids_ x = some level
          ∧ (getBBO b).best_bid_quantity
              = some (level.orders.map (fun o => o.quantity)).sum)
      ∧ (b.asks_ = [] → (getBBO b).best_offer = none ∧ (getBBO b).best_offer_quantity = none)
      ∧ (b.asks_ ≠ [] → ∃ x level, (getBBO b).best_offer = some x
          ∧ (∀ e ∈ b.asks_, x ≤ e.1) ∧ Ladder.find b.asks_ x = some level
          ∧ (getBBO b).best_offer_quantity
              = some (level.orders.map (fun o => o.quantity)).sum) := by
  obtain ⟨b, hb, hord, _, hkept⟩ := applyCalls_ladders symbol calls
  refine ⟨b, hb, ?_, ?_, ?_, ?_⟩
  · intro h
    rw [getBBO_best_bid, getBBO_best_bid_quantity, h]
    exact ⟨rfl, rfl⟩
  · intro h
    rw [getBBO_best_bid, getBBO_best_bid_quantity]
    cases hbids : b.bids_ with
    | nil => exact absurd hbids h
    | cons e rest =>
      obtain ⟨x, level⟩ := e
      have hhead := hord.1
      rw [hbids] at hhead
      have hk := hkept.1 (x, level) (by rw [hbids]; exact List.mem_cons_self _ _)
      refine ⟨x, level, rfl, ?_, by simp [Ladder.find], ?_⟩
      · intro e he
        rcases List.mem_cons.mp he with rfl | he
        · exact le_refl _
        · have := (List.pairwise_cons.mp hhead).1 e he
          simp only [keyBefore, if_true, decide_eq_true_eq] at this
          exact le_of_lt this
      · simp only [List.head?_cons, Option.map_some']
        rw [hk.2]
  · intro h
    rw [getBBO_best_offer, getBBO_best_offer_quantity, h]
    exact ⟨rfl, rfl⟩
  · intro h
    rw [getBBO_best_offer, getBBO_best_offer_quantity]
    cases hasks : b.asks_ with
    | nil => exact absurd hasks h
    | cons e rest =>
      obtain ⟨x, level⟩ := e
      have hhead := hord.2
      rw [hasks] at hhead
      have hk := hkept.2 (x, level) (by rw [hasks]; exact List.mem_cons_self _ _)
      refine ⟨x, level, rfl, ?_, by simp [Ladder.find], ?_⟩
      · intro e he
        rcases List.mem_cons.mp he with rfl | he
        · exact le_refl _
        · have := (List.pairwise_cons.mp hhead).1 e he
          simp only [keyBefore, Bool.false_eq_true, if_false, decide_eq_true_eq] at this
          exact le_of_lt this
      · simp only [List.head?_cons, Option.map_some']
        rw [hk.2]

/-! ## Depth snapshot -/

theorem depthLoop_eq_take (levels : Nat) (m : Ladder) :
    ∀ count, depthLoop levels count m
      = (m.take (levels - count)).map (fun e => (e.1, e.2.total_quantity)) := by
  induction m with
  | nil => intro count; simp [depthLoop]
  | cons e rest ih =>
    obtain ⟨p, l⟩ := e
    intro count
    by_cases hc : count ≥ levels
    · have h0 : levels - count = 0 := by omega
      simp [depthLoop, hc, h0]
    · obtain ⟨k, hk⟩ : ∃ k, levels - count = k + 1 := ⟨levels - count - 1, by omega⟩
      have hk2 : levels - (count + 1) = k := by omega
      simp [depthLoop, hc, ih, hk, hk2]

theorem take_keys_pairwise (d : Bool) (m : Ladder) (n : Nat) (h : Ladder.Ordered d m) :
    ((m.take n).map Prod.fst).Pairwise (fun x y => keyBefore d x y = true) := by
  rw [List.pairwise_map]
  exact List.Pairwise.sublist (List.take_sublist n m) h

/-- Claim C18: on a book whose ladders are ordered as their maps keep them,
`getOrderBookDepth b levels` is the `(price, total_quantity)` pairs of the first
`min levels |bids|` bid levels, in strictly descending price order, followed by those of
the first `min levels |asks|` ask levels, in strictly ascending price order; its length is
the sum of the two minima, and it is empty for an empty book and for `levels = 0`. -/
theorem getOrderBookDepth_levels (b : OrderBook) (levels : Nat) (h : MapOrdered b) :
    getOrderBookDepth b levels
        = (b.bids_.take (min levels b.bids_.length)).map (fun e => (e.1, e.2.total_quantity))
          ++ (b.asks_.take (min levels b.asks_.length)).map
              (fun e => (e.1, e.2.total_quantity))
      ∧ ((b.bids_.take (min levels b.bids_.length)).map Prod.fst).Pairwise
          (fun x y => x > y)
      ∧ ((b.asks_.take (min levels b.asks_.length)).map Prod.fst).Pairwise
          (fun x y => x < y)
      ∧ (getOrderBookDepth b levels).length
          = min levels b.bids_.length + min levels b.asks_.length
      ∧ (b.bids_ = [] → b.asks_ = [] → getOrderBookDepth b levels = [])
      ∧ getOrderBookDepth b 0 = [] := by
  have hmin : ∀ (m : Ladder), m.take (min levels m.length) = m.take levels := by
    intro m
    rcases Nat.le_total levels m.length with hle | hle
    · rw [Nat.min_eq_left hle]
    · rw [Nat.min_eq_right hle, List.take_of_length_le hle, List.take_of_length_le (le_refl _)]
  have hdepth : ∀ n, getOrderBookDepth b n
      = (b.bids_.take n).map (fun e => (e.1, e.2.total_quantity))
        ++ (b.asks_.take n).map (fun e => (e.1, e.2.total_quantity)) := by
    intro n
    simp [getOrderBookDepth, depthLoop_eq_take]
  refine ⟨?_, ?_, ?_, ?_, ?_, ?_⟩
  · rw [hmin, hmin]; exact hdepth levels
  · rw [hmin]
    have := take_keys_pairwise true b.bids_ levels h.1
    simpa [keyBefore] using this
  · rw [hmin]
    have := take_keys_pairwise false b.asks_ levels h.2
    simpa [keyBefore] using this
  · rw [hdepth]
    simp [List.length_take]
  · intro h1 h2
    rw [hdepth, h1, h2]; simp
  · rw [hdepth]; rfl

theorem getOrderBookDepth_levels_witness :
    MapOrdered bookS4
      ∧ getOrderBookDepth bookS4 1 = [((100 : Price), (2 : Quantity))]
      ∧ getOrderBookDepth bookS4 1
        = (bookS4.bids_.take (min 1 bookS4.bids_.length)).map
              (fun e => (e.1, e.2.total_quantity))
          ++ (bookS4.asks_.take (min 1 bookS4.asks_.length)).map
              (fun e => (e.1, e.2.total_quantity))
      ∧ ((bookS4.bids_.take (min 1 bookS4.bids_.length)).map Prod.fst).Pairwise
          (fun x y => x > y)
      ∧ ((bookS4.asks_.take (min 1 bookS4.asks_.length)).map Prod.fst).Pairwise
          (fun x y => x < y)
      ∧ (getOrderBookDepth bookS4 1).length
          = min 1 bookS4.bids_.length + min 1 bookS4.asks_.length
      ∧ (bookS4.bids_ = [] → bookS4.asks_ = [] → getOrderBookDepth bookS4 1 = [])
      ∧ getOrderBookDepth bookS4 0 = [] :=
  ⟨by decide, by decide, getOrderBookDepth_levels bookS4 1 (by decide)⟩

/-! ## Calls of the BBO sink -/

theorem bboOf_append (xs ys : List Event) : bboOf (xs ++ ys) = bboOf xs ++ bboOf ys := by
  induction xs with
  | nil => rfl
  | cons e es ih => cases e <;> simp [bboOf, ih]

theorem bboOf_map_trade (ts : List Trade) : bboOf (ts.map Event.trade) = [] := by
  induction ts with
  | nil => rfl
  | cons t ts ih => simp [bboOf, ih]

theorem bboOf_updateBBO (b : OrderBook) : bboOf (updateBBO b) = [(b.symbol_, getBBO b)] := rfl

theorem sweepBook_symbol (b : OrderBook) (order : Order) (is_buy : Bool) :
    (sweepBook b order is_buy).book.symbol_ = b.symbol_ := by
  cases is_buy <;> simp [sweepBook]

theorem addToBook_symbol (b : OrderBook) (order : Order) :
    (addToBook b order).1.symbol_ = b.symbol_ := by
  cases h : order.side <;> simp [addToBook, h]

theorem sweepBook_events (b : OrderBook) (order : Order) :
    (sweepBook b order (decide (order.side = OrderSide.BUY))).events
      = (sweepLevels b.symbol_ (decide (order.side = OrderSide.BUY)) order
            (oppositeSide b order.side) b.order_lookup_).trades.map Event.trade
          ++ updateBBO (sweepBook b order (decide (order.side = OrderSide.BUY))).book := by
  have hopp : (if decide (order.side = OrderSide.BUY) = true then b.asks_ else b.bids_)
      = oppositeSide b order.side := by
    simp [oppositeSide]
  simp only [sweepBook, hopp]

/-- The sink calls of `addOrder` for an order that passes validation with a positive
quantity: the trades of the sweep, one BBO after the sweep, and one more BBO when the
residual is rested. -/
theorem addOrderOutcome_events (b : OrderBook) (order : Order)
    (hv : ¬ (order.type = OrderType.LIMIT ∧ order.price = none)) (hq : 0 < order.quantity) :
    (addOrderOutcome b order).events
      = (sweepLevels b.symbol_ (decide (order.side = OrderSide.BUY)) order
            (oppositeSide b order.side) b.order_lookup_).trades.map Event.trade
          ++ updateBBO (sweepBook b order (decide (order.side = OrderSide.BUY))).book
          ++ if (sweepBook b order (decide (order.side = OrderSide.BUY))).order.quantity > 0
                ∧ order.type = OrderType.LIMIT then
               updateBBO (addOrderOutcome b order).book
             else [] := by
  have htype : (sweepBook b order (decide (order.side = OrderSide.BUY))).order.type
      = order.type := by
    rw [sweepBook_order]
  rw [addOrderOutcome_book b order hv hq]
  unfold addOrderOutcome
  rw [if_neg hv, if_neg (not_le.mpr hq), htype]
  split_ifs
  · simp only [addToBook_events, sweepBook_events]
  · simp only [sweepBook_events, List.append_nil]

theorem addOrderOutcome_symbol (b : OrderBook) (order : Order) :
    (addOrderOutcome b order).book.symbol_ = b.symbol_ := by
  unfold addOrderOutcome
  split_ifs <;> simp [addToBook_symbol, sweepBook_symbol]

theorem cancelOrder_none (b : OrderBook) (id : OrderId)
    (h : Lookup.find b.order_lookup_ id = none) :
    cancelOrder b id = { ret := false, book := b, events := [] } := by
  simp [cancelOrder, h]

theorem cancelOrder_some (b : OrderBook) (id : OrderId) (p : Price) (side : OrderSide)
    (h : Lookup.find b.order_lookup_ id = some (p, side)) :
    cancelOrder b id
      = { ret := true,
          book := { setOwnSide b side (removeFromLadder id p (ownSide b side)) with
                    order_lookup_ := Lookup.erase id b.order_lookup_ },
          events := updateBBO
            { setOwnSide b side (removeFromLadder id p (ownSide b side)) with
              order_lookup_ := Lookup.erase id b.order_lookup_ } } := by
  cases side <;> simp [cancelOrder, h, removeFromBook, setOwnSide, ownSide]

theorem modifyOrder_none (b : OrderBook) (id : OrderId) (q : Quantity)
    (h : Lookup.find b.order_lookup_ id = none) :
    modifyOrder b id q = { ret := false, book := b, events := [] } := by
  simp [modifyOrder, h]

theorem modifyOrder_some (b : OrderBook) (id : OrderId) (q : Quantity) (p : Price)
    (side : OrderSide) (h : Lookup.find b.order_lookup_ id = some (p, side)) :
    modifyOrder b id q
      = match modifyInLadder id p q (ownSide b side) with
        | some m =>
          { ret := true, book := setOwnSide b side m,
            events := updateBBO (setOwnSide b side m) }
        | none => { ret := false, book := b, events := [] } := by
  cases side
  · simp only [modifyOrder, h, setOwnSide, ownSide, if_true]
  · simp only [modifyOrder, h, setOwnSide, ownSide]
    rfl

theorem setOwnSide_symbol (b : OrderBook) (side : OrderSide) (m : Ladder) :
    (setOwnSide b side m).symbol_ = b.symbol_ := by
  cases side <;> simp [setOwnSide]

/-- Claim C19, counterexamples: a LIMIT order that rests on an empty book invokes the BBO
sink twice, not once; and a `cancelOrder` of an unknown id completes without invoking
it. -/
theorem bbo_not_once :
    (¬ ∃ r, addOrder (OrderBook.new "BTC-USDT")
            (mkOrder 1 OrderSide.SELL OrderType.LIMIT 5 (some 100)) = some r
          ∧ (bboOf r.events).length = 1)
      ∧ ¬ (bboOf (cancelOrder (OrderBook.new "BTC-USDT") 7).events).length = 1 := by
  constructor
  · rintro ⟨r, h1, h2⟩
    have h3 : (addOrder (OrderBook.new "BTC-USDT")
        (mkOrder 1 OrderSide.SELL OrderType.LIMIT 5 (some 100))).map
          (fun r => (bboOf r.events).length) = some 2 := by decide
    rw [h1] at h3
    simp only [Option.map_some', Option.some.injEq] at h3
    omega
  · decide

/-- Claim C19 as amended: `addOrder` emits its trades first and then invokes the BBO sink
once after the sweep when the order passed validation with a positive quantity (not once
per fill), and once more when a LIMIT residual is rested; a rejected or non-positive order
does not invoke it.  `cancelOrder` and `modifyOrder` invoke it exactly once when they
return `true` and not at all when they return `false`.  Whenever a call invokes the sink,
the last invocation carries the BBO of the resulting book. -/
theorem bbo_emissions (b : OrderBook) (order : Order) (id : OrderId) (q : Quantity) :
    (∃ r, addOrder b order = some r
      ∧ r.events = (tradesOf r.events).map Event.trade
          ++ (bboOf r.events).map (fun e => Event.bbo e.1 e.2)
      ∧ (bboOf r.events).length
          = (if (order.type = OrderType.LIMIT ∧ order.price = none) ∨ order.quantity ≤ 0 then 0
             else if 0 < order.quantity - tradedQuantity (tradesOf r.events)
                 ∧ order.type = OrderType.LIMIT then 2
             else 1)
      ∧ (bboOf r.events ≠ [] →
          (bboOf r.events).getLast? = some (b.symbol_, getBBO r.book)))
      ∧ bboOf (cancelOrder b id).events
          = (if (cancelOrder b id).ret then [(b.symbol_, getBBO (cancelOrder b id).book)]
             else [])
      ∧ bboOf (modifyOrder b id q).events
          = (if (modifyOrder b id q).ret then [(b.symbol_, getBBO (modifyOrder b id q).book)]
             else []) := by
  refine ⟨⟨addOrderOutcome b order, addOrder_eq b order, ?_⟩, ?_, ?_⟩
  · by_cases hc : (order.type = OrderType.LIMIT ∧ order.price = none) ∨ order.quantity ≤ 0
    · have hev : (addOrderOutcome b order).events = [] := by
        unfold addOrderOutcome
        rcases hc with hc | hc
        · rw [if_pos hc]
        · by_cases hv : order.type = OrderType.LIMIT ∧ order.price = none
          · rw [if_pos hv]
          · rw [if_neg hv, if_pos hc]
      rw [hev]
      simp [tradesOf, bboOf, hc]
    · have hv : ¬ (order.type = OrderType.LIMIT ∧ order.price = none) := fun h => hc (Or.inl h)
      have hq : 0 < order.quantity := not_le.mp (fun h => hc (Or.inr h))
      have hev := addOrderOutcome_events b order hv hq
      have hres := sweepBook_residual b order
      have htr : tradesOf (addOrderOutcome b order).events
          = (sweepLevels b.symbol_ (decide (order.side = OrderSide.BUY)) order
              (oppositeSide b order.side) b.order_lookup_).trades := by
        rw [tradesOf_addOrderOutcome, if_neg hc]
      rw [htr, ← hres, if_neg hc]
      by_cases hrest : (sweepBook b order (decide (order.side = OrderSide.BUY))).order.quantity
          > 0 ∧ order.type = OrderType.LIMIT
      · rw [if_pos hrest] at hev
        have hb : bboOf (addOrderOutcome b order).events
            = [(b.symbol_, getBBO (sweepBook b order
                  (decide (order.side = OrderSide.BUY))).book),
               (b.symbol_, getBBO (addOrderOutcome b order).book)] := by
          rw [hev]
          simp only [bboOf_append, bboOf_map_trade, bboOf_updateBBO, sweepBook_symbol,
            addOrderOutcome_symbol, List.nil_append, List.singleton_append]
        rw [hb, if_pos hrest]
        refine ⟨?_, rfl, fun _ => rfl⟩
        rw [hev]
        simp [updateBBO, sweepBook_symbol, addOrderOutcome_symbol]
      · rw [if_neg hrest, List.append_nil] at hev
        have hbook : (addOrderOutcome b order).book
            = (sweepBook b order (decide (order.side = OrderSide.BUY))).book := by
          rw [addOrderOutcome_book b order hv hq, if_neg hrest]
        have hb : bboOf (addOrderOutcome b order).events
            = [(b.symbol_, getBBO (addOrderOutcome b order).book)] := by
          rw [hev]
          simp only [bboOf_append, bboOf_map_trade, bboOf_updateBBO, sweepBook_symbol,
            List.nil_append, hbook]
        rw [hb, if_neg hrest]
        refine ⟨?_, rfl, fun _ => rfl⟩
        rw [hev]
        simp [updateBBO, sweepBook_symbol, hbook]
  · cases hf : Lookup.find b.order_lookup_ id with
    | none => rw [cancelOrder_none b id hf]; rfl
    | some entry =>
      obtain ⟨p, side⟩ := entry
      rw [cancelOrder_some b id p side hf]
      simp [bboOf_updateBBO, setOwnSide_symbol]
  · cases hf : Lookup.find b.order_lookup_ id with
    | none => rw [modifyOrder_none b id q hf]; rfl
    | some entry =>
      obtain ⟨p, side⟩ := entry
      rw [modifyOrder_some b id q p side hf]
      cases modifyInLadder id p q (ownSide b side) with
      | none => rfl
      | some m => simp [bboOf_updateBBO, setOwnSide_symbol]

/-! ## Positive resting quantities -/

/-- An invariant that each call preserves, when the call satisfies a condition `C`, holds
after every sequence of calls that satisfy `C`. -/
theorem applyCalls_invariant_on (I : OrderBook → Prop) (C : Call → Prop)
    (hadd : ∀ b order, C (Call.addOrder order) → I b → I (addOrderOutcome b order).book)
    (hcancel : ∀ b id, C (Call.cancelOrder id) → I b → I (cancelOrder b id).book)
    (hmodify : ∀ b id q, C (Call.modifyOrder id q) → I b → I (modifyOrder b id q).book) :
    ∀ (calls : List Call) (b : OrderBook), (∀ c ∈ calls, C c) → I b →
      ∃ b1, applyCalls b calls = some b1 ∧ I b1 := by
  intro calls
  induction calls with
  | nil => intro b _ hb; exact ⟨b, rfl, hb⟩
  | cons c cs ih =>
    intro b hC hb
    have hc : C c := hC c (List.mem_cons_self _ _)
    have hcs : ∀ c1 ∈ cs, C c1 := fun c1 h1 => hC c1 (List.mem_cons_of_mem _ h1)
    cases c with
    | addOrder order =>
      obtain ⟨b1, h1, h2⟩ := ih _ hcs (hadd b order hc hb)
      exact ⟨b1, by simp [applyCalls, applyCall, addOrder_eq, h1], h2⟩
    | cancelOrder id =>
      obtain ⟨b1, h1, h2⟩ := ih _ hcs (hcancel b id hc hb)
      exact ⟨b1, by simp [applyCalls, applyCall, h1], h2⟩
    | modifyOrder id q =>
      obtain ⟨b1, h1, h2⟩ := ih _ hcs (hmodify b id q hc hb)
      exact ⟨b1, by simp [applyCalls, applyCall, h1], h2⟩

theorem matchLevel_positive (symbol_ : String) (price : Price) (os : List Order) :
    (∀ o ∈ os, 0 < o.quantity) → ∀ (order : Order) (tq : Quantity) (lk : Lookup),
      ∀ o ∈ (matchLevel symbol_ price order os tq lk).orders, 0 < o.quantity := by
  induction os with
  | nil => intro _ order tq lk o ho; simp [matchLevel] at ho
  | cons it rest ih =>
    intro hpos order tq lk
    have hrest : ∀ o ∈ rest, 0 < o.quantity := fun o ho => hpos o (List.mem_cons_of_mem _ ho)
    by_cases hq : 0 < order.quantity
    · rw [matchLevel_cons_pos _ _ _ _ _ _ _ hq]
      by_cases hle : it.quantity ≤ order.quantity
      · simp only [hle, if_true]
        exact ih hrest _ _ _
      · simp only [hle, if_false]
        intro o ho
        rcases List.mem_cons.mp ho with rfl | ho
        · show 0 < it.quantity - order.quantity
          linarith
        · exact hrest o ho
    · rw [matchLevel_nonpos _ _ _ _ _ _ (not_lt.mp hq)]
      exact hpos

theorem sweepLevels_positive (symbol_ : String) (is_buy : Bool) (opp : Ladder) :
    LadderPositive opp → ∀ (order : Order) (lk : Lookup),
      LadderPositive (sweepLevels symbol_ is_buy order opp lk).opposite_side := by
  induction opp with
  | nil => intro _ order lk e he; simp [sweepLevels] at he
  | cons e0 rest ih =>
    obtain ⟨p, l⟩ := e0
    intro hk order lk
    have hl : ∀ o ∈ l.orders, 0 < o.quantity := hk (p, l) (List.mem_cons_self _ _)
    have hrest : LadderPositive rest := fun e he => hk e (List.mem_cons_of_mem _ he)
    refine sweepLevels_cases symbol_ is_buy order p l rest lk
      (fun s => LadderPositive s.opposite_side) ?_ ?_ ?_
    · intro _; exact hk
    · intro _ _ _; exact ih hrest _ _
    · intro _ _ _ _ e he
      rcases List.mem_cons.mp he with rfl | he
      · exact matchLevel_positive _ _ _ hl _ _ _
      · exact hrest e he

theorem removeFromLadder_positive (id : OrderId) (p : Price) (m : Ladder)
    (h : LadderPositive m) : LadderPositive (removeFromLadder id p m) := by
  unfold removeFromLadder
  split
  · exact h
  · rename_i level hfind
    split
    · exact h
    · have hl := h (p, level) (Ladder.find_mem m p level hfind)
      simp only
      split_ifs
      · intro e he; exact h e (Ladder.mem_erase p m e he)
      · intro e he
        rcases Ladder.mem_assign p _ m e he with he | rfl
        · exact h e he
        · intro o ho
          exact hl o ((List.eraseP_sublist _).subset ho)

theorem modifyInLadder_positive (id : OrderId) (p : Price) (q : Quantity) (m m1 : Ladder)
    (hq : 0 < q) (h : LadderPositive m) (hm : modifyInLadder id p q m = some m1) :
    LadderPositive m1 := by
  unfold modifyInLadder at hm
  split at hm
  · simp at hm
  · rename_i level hfind
    split at hm
    · simp at hm
    · rename_i found hfound
      have hl := h (p, level) (Ladder.find_mem m p level hfind)
      obtain ⟨xs, ys, h1, _, _, _, h5⟩ := find_split q id level.orders found hfound
      simp only [Option.some.injEq] at hm
      rw [← hm]
      intro e he
      rcases Ladder.mem_assign p _ m e he with he | rfl
      · exact h e he
      · intro o ho
        simp only [h5, List.mem_append, List.mem_cons] at ho
        rw [h1] at hl
        rcases ho with ho | rfl | ho
        · exact hl o (by simp [ho])
        · exact hq
        · exact hl o (by simp [ho])

theorem cancelOrder_positive (b : OrderBook) (id : OrderId) (h : QuantitiesPositive b) :
    QuantitiesPositive (cancelOrder b id).book := by
  cases hf : Lookup.find b.order_lookup_ id with
  | none => rw [cancelOrder_none b id hf]; exact h
  | some entry =>
    obtain ⟨p, side⟩ := entry
    rw [cancelOrder_some b id p side hf]
    cases side
    · exact ⟨removeFromLadder_positive _ _ _ h.1, h.2⟩
    · exact ⟨h.1, removeFromLadder_positive _ _ _ h.2⟩

theorem modifyOrder_positive (b : OrderBook) (id : OrderId) (q : Quantity) (hq : 0 < q)
    (h : QuantitiesPositive b) : QuantitiesPositive (modifyOrder b id q).book := by
  cases hf : Lookup.find b.order_lookup_ id with
  | none => rw [modifyOrder_none b id q hf]; exact h
  | some entry =>
    obtain ⟨p, side⟩ := entry
    rw [modifyOrder_some b id q p side hf]
    cases hm : modifyInLadder id p q (ownSide b side) with
    | none => exact h
    | some m =>
      cases side
      · exact ⟨modifyInLadder_positive _ _ _ _ _ hq h.1 hm, h.2⟩
      · exact ⟨h.1, modifyInLadder_positive _ _ _ _ _ hq h.2 hm⟩

theorem sweepBook_positive (b : OrderBook) (order : Order) (h : QuantitiesPositive b) :
    QuantitiesPositive (sweepBook b order (decide (order.side = OrderSide.BUY))).book := by
  cases hs : order.side
  · simp only [sweepBook, decide_True, if_true, QuantitiesPositive]
    exact ⟨h.1, sweepLevels_positive _ _ _ h.2 _ _⟩
  · simp only [sweepBook, decide_False, Bool.false_eq_true, if_false, QuantitiesPositive]
    exact ⟨sweepLevels_positive _ _ _ h.1 _ _, h.2⟩

theorem addToBook_positive (b : OrderBook) (order : Order) (hq : 0 < order.quantity)
    (h : QuantitiesPositive b) : QuantitiesPositive (addToBook b order).1 := by
  have hpush : ∀ l : OrderBookLevel, (∀ o ∈ l.orders, 0 < o.quantity) →
      ∀ o ∈ l.orders ++ [order], 0 < o.quantity := by
    intro l hl o ho
    rcases List.mem_append.mp ho with ho | ho
    · exact hl o ho
    · simp only [List.mem_singleton] at ho
      rw [ho]; exact hq
  have hzero : ∀ o ∈ OrderBookLevel.zero.orders ++ [order], 0 < o.quantity := by
    intro o ho
    simp only [OrderBookLevel.zero, List.nil_append, List.mem_singleton] at ho
    rw [ho]; exact hq
  cases hs : order.side
  · simp only [addToBook, hs, if_true, QuantitiesPositive]
    exact ⟨Ladder.update_all _ _ _ (fun l => ∀ o ∈ l.orders, 0 < o.quantity) _ h.1 hpush hzero,
      h.2⟩
  · simp only [addToBook, hs, QuantitiesPositive]
    exact ⟨h.1,
      Ladder.update_all _ _ _ (fun l => ∀ o ∈ l.orders, 0 < o.quantity) _ h.2 hpush hzero⟩

theorem addOrder_positive (b : OrderBook) (order : Order) (h : QuantitiesPositive b) :
    QuantitiesPositive (addOrderOutcome b order).book := by
  by_cases hv : order.type = OrderType.LIMIT ∧ order.price = none
  · unfold addOrderOutcome; rw [if_pos hv]; exact h
  · by_cases hq : order.quantity ≤ 0
    · unfold addOrderOutcome; rw [if_neg hv, if_pos hq]; exact h
    · rw [addOrderOutcome_book b order hv (not_le.mp hq)]
      split_ifs with hrest
      · exact addToBook_positive _ _ hrest.1 (sweepBook_positive b order h)
      · exact sweepBook_positive b order h

/-- Claim C13, counterexample: after resting a buy of 7 at 99 and modifying it to
quantity 0, the book holds a bid level whose `total_quantity` is zero. -/
theorem zero_quantity_level :
    ∃ b, applyCalls (OrderBook.new "BTC-USDT")
          [Call.addOrder (mkOrder 30 OrderSide.BUY OrderType.LIMIT 7 (some 99)),
           Call.modifyOrder 30 0] = some b
      ∧ ∃ e ∈ b.bids_ ++ b.asks_, e.2.total_quantity = 0 := by
  refine ⟨{ symbol_ := "BTC-USDT",
            bids_ := [(99, { price := 99, total_quantity := 0,
                             orders := [mkOrder 30 OrderSide.BUY OrderType.LIMIT 0 (some 99)] })],
            asks_ := [], order_lookup_ := [(30, (99, OrderSide.BUY))] }, by decide, ?_⟩
  exact ⟨_, List.mem_cons_self _ _, rfl⟩

/-- Claim C13 as amended: starting from an empty book, after every finite sequence of
`addOrder`, `cancelOrder` and `modifyOrder` calls in which every `modifyOrder` has a
positive `new_quantity`, no level of `bids_` or `asks_` has `total_quantity` zero: every
total is positive. -/
theorem no_zero_quantity_level (symbol : String) (calls : List Call)
    (h : ∀ c ∈ calls, ∀ id q, c = Call.modifyOrder id q → 0 < q) :
    ∃ b, applyCalls (OrderBook.new symbol) calls = some b
      ∧ ∀ e ∈ b.bids_ ++ b.asks_, 0 < e.2.total_quantity ∧ e.2.total_quantity ≠ 0 := by
  have hinit : LevelsKept (OrderBook.new symbol) ∧ QuantitiesPositive (OrderBook.new symbol) := by
    refine ⟨⟨?_, ?_⟩, ⟨?_, ?_⟩⟩ <;> intro e he <;> simp [OrderBook.new] at he
  obtain ⟨b, hb, hk, hp⟩ := applyCalls_invariant_on
    (fun b => LevelsKept b ∧ QuantitiesPositive b)
    (fun c => ∀ id q, c = Call.modifyOrder id q → 0 < q)
    (fun b o _ hI => ⟨addOrder_kept b o hI.1, addOrder_positive b o hI.2⟩)
    (fun b id _ hI => ⟨cancelOrder_kept b id hI.1, cancelOrder_positive b id hI.2⟩)
    (fun b id q hC hI =>
      ⟨modifyOrder_kept b id q hI.1, modifyOrder_positive b id q (hC id q rfl) hI.2⟩)
    calls (OrderBook.new symbol) h hinit
  refine ⟨b, hb, ?_⟩
  have key : ∀ m : Ladder, LadderKept m → LadderPositive m → ∀ e ∈ m,
      0 < e.2.total_quantity := by
    intro m hkm hpm e he
    obtain ⟨hne, htot⟩ := hkm e he
    rw [htot]
    have hpos := hpm e he
    cases horders : e.2.orders with
    | nil => exact absurd horders hne
    | cons o os =>
      rw [horders] at hpos
      simp only [List.map_cons, List.sum_cons]
      have h1 : 0 < o.quantity := hpos o (List.mem_cons_self _ _)
      have h2 : 0 ≤ (os.map (fun o => o.quantity)).sum := by
        apply List.sum_nonneg
        intro x hx
        obtain ⟨o1, ho1, rfl⟩ := List.mem_map.mp hx
        exact le_of_lt (hpos o1 (List.mem_cons_of_mem _ ho1))
      linarith
  intro e he
  have hpos : 0 < e.2.total_quantity := by
    rcases List.mem_append.mp he with he | he
    · exact key _ hk.1 hp.1 e he
    · exact key _ hk.2 hp.2 e he
  exact ⟨hpos, ne_of_gt hpos⟩

theorem no_zero_quantity_level_witness :
    (∀ c ∈ [Call.addOrder (mkOrder 30 OrderSide.BUY OrderType.LIMIT 7 (some 99)),
            Call.modifyOrder 30 4],
        ∀ id q, c = Call.modifyOrder id q → 0 < q)
      ∧ ∃ b, applyCalls (OrderBook.new "BTC-USDT")
            [Call.addOrder (mkOrder 30 OrderSide.BUY OrderType.LIMIT 7 (some 99)),
             Call.modifyOrder 30 4] = some b
        ∧ ∀ e ∈ b.bids_ ++ b.asks_, 0 < e.2.total_quantity ∧ e.2.total_quantity ≠ 0 :=
  have hmod : ∀ c ∈ [Call.addOrder (mkOrder 30 OrderSide.BUY OrderType.LIMIT 7 (some 99)),
            Call.modifyOrder 30 4],
        ∀ id q, c = Call.modifyOrder id q → 0 < q := by
    intro c hc id q hcq
    simp only [List.mem_cons, List.mem_singleton, List.not_mem_nil, or_false] at hc
    rcases hc with rfl | rfl
    · cases hcq
    · cases hcq; decide
  ⟨hmod, no_zero_quantity_level "BTC-USDT" _ hmod⟩

/-! ## Cancel and modify -/

theorem Ladder.find_assign_self (p : Price) (lv l : OrderBookLevel) (m : Ladder)
    (h : Ladder.find m p = some l) : Ladder.find (Ladder.assign p lv m) p = some lv := by
  induction m with
  | nil => simp [Ladder.find] at h
  | cons e rest ih =>
    obtain ⟨k, l0⟩ := e
    by_cases hk : k = p
    · simp [Ladder.assign, Ladder.find, hk]
    · simp only [Ladder.find, hk, if_false] at h
      simp [Ladder.assign, Ladder.find, hk, ih h]

theorem Ladder.find_assign_other (p p1 : Price) (lv : OrderBookLevel) (m : Ladder)
    (h : p1 ≠ p) : Ladder.find (Ladder.assign p lv m) p1 = Ladder.find m p1 := by
  induction m with
  | nil => rfl
  | cons e rest ih =>
    obtain ⟨k, l0⟩ := e
    by_cases hk : k = p
    · subst hk
      simp [Ladder.assign, Ladder.find, h.symm]
    · by_cases hk1 : k = p1
      · subst hk1
        simp [Ladder.assign, Ladder.find, hk]
      · simp [Ladder.assign, Ladder.find, hk, hk1, ih]

theorem Ladder.find_erase_other (p p1 : Price) (m : Ladder) (h : p1 ≠ p) :
    Ladder.find (Ladder.erase p m) p1 = Ladder.find m p1 := by
  induction m with
  | nil => rfl
  | cons e rest ih =>
    obtain ⟨k, l0⟩ := e
    by_cases hk : k = p
    · subst hk
      simp [Ladder.erase, Ladder.find, h.symm]
    · by_cases hk1 : k = p1
      · subst hk1
        simp [Ladder.erase, Ladder.find, hk]
      · simp [Ladder.erase, Ladder.find, hk, hk1, ih]

theorem Ladder.find_erase_self (d : Bool) (p : Price) (m : Ladder) (h : Ladder.Ordered d m) :
    Ladder.find (Ladder.erase p m) p = none := by
  induction m with
  | nil => rfl
  | cons e rest ih =>
    obtain ⟨k, l0⟩ := e
    have hrest : Ladder.Ordered d rest := (List.pairwise_cons.mp h).2
    by_cases hk : k = p
    · subst hk
      simp only [Ladder.erase, if_true]
      rw [Ladder.find_eq_none]
      exact ordered_head_not_mem d k l0 rest h
    · simp [Ladder.erase, Ladder.find, hk, ih hrest]

theorem Lookup.lookup_erase_other (id id1 : OrderId) (m : Lookup) (h : id1 ≠ id) :
    Lookup.find (Lookup.erase id m) id1 = Lookup.find m id1 := by
  induction m with
  | nil => rfl
  | cons e rest ih =>
    obtain ⟨k, v⟩ := e
    by_cases hk : k = id
    · subst hk
      simp [Lookup.erase, Lookup.find, h.symm]
    · by_cases hk1 : k = id1
      · subst hk1
        simp [Lookup.erase, Lookup.find, hk]
      · simp [Lookup.erase, Lookup.find, hk, hk1, ih]

theorem Lookup.lookup_absent (m : Lookup) (id : OrderId) :
    Lookup.find m id = none ↔ id ∉ m.map Prod.fst := by
  induction m with
  | nil => simp [Lookup.find]
  | cons e rest ih =>
    obtain ⟨k, v⟩ := e
    by_cases hk : k = id
    · simp [Lookup.find, hk]
    · have hk1 : ¬ id = k := fun h => hk h.symm
      simp [Lookup.find, hk, hk1, ih]

theorem Lookup.lookup_erase_self (id : OrderId) (m : Lookup) (h : LookupDistinct m) :
    Lookup.find (Lookup.erase id m) id = none := by
  induction m with
  | nil => rfl
  | cons e rest ih =>
    obtain ⟨k, v⟩ := e
    unfold LookupDistinct at h ih
    simp only [List.map_cons, List.nodup_cons] at h
    by_cases hk : k = id
    · subst hk
      simp only [Lookup.erase, if_true]
      rw [Lookup.lookup_absent]
      exact h.1
    · simp [Lookup.erase, Lookup.find, hk, ih h.2]

theorem ownSide_setOwnSide (b : OrderBook) (side : OrderSide) (m : Ladder) :
    ownSide (setOwnSide b side m) side = m := by
  cases side <;> simp [ownSide, setOwnSide]

theorem oppositeSide_setOwnSide (b : OrderBook) (side : OrderSide) (m : Ladder) :
    oppositeSide (setOwnSide b side m) side = oppositeSide b side := by
  cases side <;> simp [oppositeSide, setOwnSide]

theorem lookup_setOwnSide (b : OrderBook) (side : OrderSide) (m : Ladder) :
    (setOwnSide b side m).order_lookup_ = b.order_lookup_ := by
  cases side <;> simp [setOwnSide]

/-- What `removeFromBook` does to the ladder when the level and the order are found. -/
theorem removeFromLadder_found (id : OrderId) (p : Price) (m : Ladder)
    (level : OrderBookLevel) (o : Order) (xs ys : List Order)
    (hfind : Ladder.find m p = some level) (hsplit : level.orders = xs ++ o :: ys)
    (hid : o.id = id) (hxs : ∀ x ∈ xs, x.id ≠ id) :
    removeFromLadder id p m
      = if xs ++ ys = [] then Ladder.erase p m
        else Ladder.assign p
          { level with total_quantity := level.total_quantity - o.quantity,
                       orders := xs ++ ys } m := by
  have hf : level.orders.find? (fun o => decide (o.id = id)) = some o := by
    rw [hsplit, List.find?_append]
    have h1 : xs.find? (fun o => decide (o.id = id)) = none := by
      rw [List.find?_eq_none]
      intro x hx
      simpa using hxs x hx
    simp [h1, hid]
  have he : level.orders.eraseP (fun o => decide (o.id = id)) = xs ++ ys := by
    obtain ⟨xs1, ys1, h1, _, h3, h4, _⟩ := find_split 0 id level.orders o hf
    rw [h4]
    rw [hsplit] at h1
    have hlen : xs = xs1 := by
      have := List.append_eq_append_iff.mp h1
      rcases this with ⟨a, ha1, ha2⟩ | ⟨c, hc1, hc2⟩
      · cases a with
        | nil => simpa using ha1.symm
        | cons a0 a1 =>
          simp only [List.cons_append, List.cons.injEq] at ha2
          have : o ∈ xs1 := by rw [ha1]; simp [ha2.1]
          exact absurd hid (h3 o this)
      · cases c with
        | nil => simpa using hc1
        | cons c0 c1 =>
          simp only [List.cons_append, List.cons.injEq] at hc2
          have : o ∈ xs := by rw [hc1]; simp [hc2.1]
          exact absurd hid (hxs o this)
    subst hlen
    simpa using h1.symm
  unfold removeFromLadder
  simp only [hfind, hf, he, List.isEmpty_iff]

/-- What `modifyOrder` does to the ladder when the level and the order are found. -/
theorem modifyInLadder_found (id : OrderId) (p : Price) (q : Quantity) (m : Ladder)
    (level : OrderBookLevel) (found : Order)
    (hfind : Ladder.find m p = some level)
    (hf : level.orders.find? (fun o => decide (o.id = id)) = some found) :
    modifyInLadder id p q m
      = some (Ladder.assign p
          { level with total_quantity := level.total_quantity - found.quantity + q,
                       orders := setQuantity id q level.orders } m) := by
  unfold modifyInLadder
  simp only [hfind, hf]

theorem restsAt_split (m : Ladder) (p : Price) (id : OrderId) (h : RestsAt m p id) :
    ∃ level o xs ys, Ladder.find m p = some level ∧ level.orders = xs ++ o :: ys
      ∧ o.id = id ∧ (∀ x ∈ xs, x.id ≠ id)
      ∧ level.orders.find? (fun o => decide (o.id = id)) = some o := by
  obtain ⟨level, hfind, o1, ho1, hid1⟩ := h
  cases hf : level.orders.find? (fun o => decide (o.id = id)) with
  | none =>
    rw [List.find?_eq_none] at hf
    exact absurd hid1 (by simpa using hf o1 ho1)
  | some found =>
    obtain ⟨xs, ys, h1, h2, h3, _, _⟩ := find_split 0 id level.orders found hf
    exact ⟨level, found, xs, ys, hfind, h1, h2, h3, hf⟩


/-- Claim C14: `cancelOrder` returns `true` exactly when the id is in `order_lookup_`, and
when it returns `false` the book is unchanged and no sink is called.  On a book that is
side-index consistent (with ladders and lookup kept as their maps keep them), a cancel of
an id that the lookup maps to `(p, side)` removes the first order with that id from the
level at `p` of that side: the level's total decreases by the order's quantity, the other
orders keep their relative order, the level is erased exactly when it became empty, the
lookup entry is erased, and every other level, the other ladder, the other lookup entries
and the symbol are unchanged.  A second cancel of the same id returns `false` and leaves
the book unchanged. -/
theorem cancelOrder_removes (b : OrderBook) (id : OrderId) (hmap : MapOrdered b)
    (hdist : LookupDistinct b.order_lookup_) (hcons : SideIndexConsistent b) :
    ((cancelOrder b id).ret = true ↔ Lookup.find b.order_lookup_ id ≠ none)
      ∧ ((cancelOrder b id).ret = false →
          (cancelOrder b id).book = b ∧ (cancelOrder b id).events = [])
      ∧ (∀ p side, Lookup.find b.order_lookup_ id = some (p, side) →
          ∃ level o xs ys, Ladder.find (ownSide b side) p = some level
            ∧ level.orders = xs ++ o :: ys ∧ o.id = id ∧ (∀ x ∈ xs, x.id ≠ id)
            ∧ Ladder.find (ownSide (cancelOrder b id).book side) p
                = (if xs ++ ys = [] then none
                   else some { level with
                               total_quantity := level.total_quantity - o.quantity,
                               orders := xs ++ ys })
            ∧ (∀ p1, p1 ≠ p →
                Ladder.find (ownSide (cancelOrder b id).book side) p1
                  = Ladder.find (ownSide b side) p1)
            ∧ oppositeSide (cancelOrder b id).book side = oppositeSide b side
            ∧ Lookup.find (cancelOrder b id).book.order_lookup_ id = none
            ∧ (∀ id1, id1 ≠ id →
                Lookup.find (cancelOrder b id).book.order_lookup_ id1
                  = Lookup.find b.order_lookup_ id1)
            ∧ (cancelOrder b id).book.symbol_ = b.symbol_)
      ∧ (cancelOrder (cancelOrder b id).book id).ret = false
      ∧ (cancelOrder (cancelOrder b id).book id).book = (cancelOrder b id).book := by
  have hsecond : Lookup.find (cancelOrder b id).book.order_lookup_ id = none := by
    cases hf : Lookup.find b.order_lookup_ id with
    | none => rw [cancelOrder_none b id hf]; exact hf
    | some entry =>
      obtain ⟨p, side⟩ := entry
      rw [cancelOrder_some b id p side hf]
      exact Lookup.lookup_erase_self id _ hdist
  refine ⟨?_, ?_, ?_, ?_, ?_⟩
  · cases hf : Lookup.find b.order_lookup_ id with
    | none => rw [cancelOrder_none b id hf]; simp
    | some entry =>
      obtain ⟨p, side⟩ := entry
      rw [cancelOrder_some b id p side hf]; simp
  · intro hret
    cases hf : Lookup.find b.order_lookup_ id with
    | none => rw [cancelOrder_none b id hf]; exact ⟨rfl, rfl⟩
    | some entry =>
      obtain ⟨p, side⟩ := entry
      rw [cancelOrder_some b id p side hf] at hret
      simp at hret
  · intro p side hf
    obtain ⟨level, o, xs, ys, hfind, hsplit, hid, hxs, _⟩ :=
      restsAt_split _ _ _ ((hcons id p side).mp hf)
    refine ⟨level, o, xs, ys, hfind, hsplit, hid, hxs, ?_⟩
    rw [cancelOrder_some b id p side hf]
    have hrem := removeFromLadder_found id p (ownSide b side) level o xs ys hfind hsplit hid hxs
    have hown : ownSide
        { setOwnSide b side (removeFromLadder id p (ownSide b side)) with
          order_lookup_ := Lookup.erase id b.order_lookup_ } side
        = removeFromLadder id p (ownSide b side) := by
      cases side <;> simp [ownSide, setOwnSide]
    have hopp : oppositeSide
        { setOwnSide b side (removeFromLadder id p (ownSide b side)) with
          order_lookup_ := Lookup.erase id b.order_lookup_ } side
        = oppositeSide b side := by
      cases side <;> simp [oppositeSide, setOwnSide]
    have hordered : Ladder.Ordered (decide (side = OrderSide.BUY)) (ownSide b side) :=
      ownSide_ordered b side hmap
    simp only [hown, hopp]
    refine ⟨?_, ?_, trivial, Lookup.lookup_erase_self id _ hdist,
      fun id1 h1 => Lookup.lookup_erase_other id id1 _ h1, ?_⟩
    · rw [hrem]
      split_ifs with hempty
      · exact Ladder.find_erase_self _ p _ hordered
      · exact Ladder.find_assign_self p _ level _ hfind
    · intro p1 hp1
      rw [hrem]
      split_ifs with hempty
      · exact Ladder.find_erase_other p p1 _ hp1
      · exact Ladder.find_assign_other p p1 _ _ hp1
    · cases side <;> simp [setOwnSide]
  · rw [cancelOrder_none _ id hsecond]
  · rw [cancelOrder_none _ id hsecond]

/-- Claim C15: on a side-index consistent book, `modifyOrder` returns `false` and changes
nothing when the id is not resting.  When an order with the id rests at `(p, side)` it
returns `true` and sets the quantity of the first order with that id in the level to
`new_quantity`, whatever its value; the level's total changes by `new_quantity` minus the
old quantity; the order keeps its position, price and side, the ids of the level keep
their sequence, and the other orders, the other levels, the keys of the ladder, the other
ladder, `order_lookup_` and the symbol are unchanged. -/
theorem modifyOrder_quantity_only (b : OrderBook) (id : OrderId) (q : Quantity)
    (hcons : SideIndexConsistent b) :
    ((∀ side p, ¬ RestsAt (ownSide b side) p id) →
        modifyOrder b id q = { ret := false, book := b, events := [] })
      ∧ (∀ p side, RestsAt (ownSide b side) p id →
          ∃ level o xs ys, Ladder.find (ownSide b side) p = some level
            ∧ level.orders = xs ++ o :: ys ∧ o.id = id ∧ (∀ x ∈ xs, x.id ≠ id)
            ∧ (modifyOrder b id q).ret = true
            ∧ Ladder.find (ownSide (modifyOrder b id q).book side) p
                = some { level with
                         total_quantity := level.total_quantity - o.quantity + q,
                         orders := xs ++ { o with quantity := q } :: ys }
            ∧ (xs ++ { o with quantity := q } :: ys).map (fun x => x.id)
                = level.orders.map (fun x => x.id)
            ∧ (∀ p1, p1 ≠ p →
                Ladder.find (ownSide (modifyOrder b id q).book side) p1
                  = Ladder.find (ownSide b side) p1)
            ∧ (ownSide (modifyOrder b id q).book side).map Prod.fst
                = (ownSide b side).map Prod.fst
            ∧ oppositeSide (modifyOrder b id q).book side = oppositeSide b side
            ∧ (modifyOrder b id q).book.order_lookup_ = b.order_lookup_
            ∧ (modifyOrder b id q).book.symbol_ = b.symbol_) := by
  constructor
  · intro hnot
    cases hf : Lookup.find b.order_lookup_ id with
    | none => exact modifyOrder_none b id q hf
    | some entry =>
      obtain ⟨p, side⟩ := entry
      exact absurd ((hcons id p side).mp hf) (hnot side p)
  · intro p side hrests
    have hf := (hcons id p side).mpr hrests
    obtain ⟨level, o, xs, ys, hfind, hsplit, hid, hxs, hfound⟩ := restsAt_split _ _ _ hrests
    refine ⟨level, o, xs, ys, hfind, hsplit, hid, hxs, ?_⟩
    obtain ⟨xs1, ys1, h1, _, h3, _, h5⟩ := find_split q id level.orders o hfound
    have hset : setQuantity id q level.orders = xs ++ { o with quantity := q } :: ys := by
      have hxy : xs = xs1 ∧ ys = ys1 := by
        rw [hsplit] at h1
        rcases List.append_eq_append_iff.mp h1 with ⟨a, ha1, ha2⟩ | ⟨c, hc1, hc2⟩
        · cases a with
          | nil =>
            simp only [List.append_nil, List.nil_append, List.cons.injEq, true_and] at ha1 ha2
            exact ⟨ha1.symm, ha2⟩
          | cons a0 a1 =>
            simp only [List.cons_append, List.cons.injEq] at ha2
            have : o ∈ xs1 := by rw [ha1]; simp [ha2.1]
            exact absurd hid (h3 o this)
        · cases c with
          | nil =>
            simp only [List.append_nil, List.nil_append, List.cons.injEq, true_and] at hc1 hc2
            exact ⟨hc1, hc2.symm⟩
          | cons c0 c1 =>
            simp only [List.cons_append, List.cons.injEq] at hc2
            have : o ∈ xs := by rw [hc1]; simp [hc2.1]
            exact absurd hid (hxs o this)
      rw [h5, hxy.1, hxy.2]
    have hmod := modifyInLadder_found id p q (ownSide b side) level o hfind hfound
    rw [modifyOrder_some b id q p side hf, hmod, hset]
    simp only [ownSide_setOwnSide, oppositeSide_setOwnSide, lookup_setOwnSide,
      setOwnSide_symbol, Ladder.keys_assign]
    refine ⟨trivial, Ladder.find_assign_self p _ level _ hfind, ?_,
      fun p1 hp1 => Ladder.find_assign_other p p1 _ _ hp1, trivial, trivial, trivial, trivial⟩
    rw [hsplit]
    simp

/-! ## The side index -/

theorem Lookup.find_set_other (id id1 : OrderId) (v : Price × OrderSide) (m : Lookup)
    (h : id1 ≠ id) : Lookup.find (Lookup.set id v m) id1 = Lookup.find m id1 := by
  induction m with
  | nil => simp [Lookup.set, Lookup.find, h.symm]
  | cons e rest ih =>
    obtain ⟨k, w⟩ := e
    by_cases hk : k = id
    · subst hk
      simp [Lookup.set, Lookup.find, h.symm]
    · by_cases hk1 : k = id1
      · subst hk1
        simp [Lookup.set, Lookup.find, hk]
      · simp [Lookup.set, Lookup.find, hk, hk1, ih]

theorem Lookup.erase_keys (id : OrderId) (m : Lookup) :
    ((Lookup.erase id m).map Prod.fst).Sublist (m.map Prod.fst) := by
  induction m with
  | nil => simp [Lookup.erase]
  | cons e rest ih =>
    obtain ⟨k, v⟩ := e
    by_cases hk : k = id
    · simp [Lookup.erase, hk]
    · simp [Lookup.erase, hk, ih]

theorem Lookup.erase_distinct (id : OrderId) (m : Lookup) (h : LookupDistinct m) :
    LookupDistinct (Lookup.erase id m) :=
  List.Nodup.sublist (Lookup.erase_keys id m) h

theorem Lookup.set_keys (id : OrderId) (v : Price × OrderSide) (m : Lookup) :
    (Lookup.set id v m).map Prod.fst
      = if id ∈ m.map Prod.fst then m.map Prod.fst else m.map Prod.fst ++ [id] := by
  induction m with
  | nil => simp [Lookup.set]
  | cons e rest ih =>
    obtain ⟨k, w⟩ := e
    by_cases hk : k = id
    · simp [Lookup.set, hk]
    · have hk1 : ¬ id = k := fun h => hk h.symm
      simp only [Lookup.set, hk, if_false, List.map_cons, ih, List.mem_cons, hk1, false_or]
      split_ifs <;> simp

theorem Lookup.set_distinct (id : OrderId) (v : Price × OrderSide) (m : Lookup)
    (h : LookupDistinct m) : LookupDistinct (Lookup.set id v m) := by
  unfold LookupDistinct at h ⊢
  rw [Lookup.set_keys]
  split_ifs with hmem
  · exact h
  · rw [List.nodup_append]
    refine ⟨h, List.nodup_singleton _, ?_⟩
    intro a ha hb
    simp only [List.mem_singleton] at hb
    subst hb
    exact hmem ha

theorem Indexed.symm (s t : OrderSide) (own opp : List (OrderId × Price)) (lk : Lookup)
    (h : Indexed s t own opp lk) : Indexed t s opp own lk := by
  obtain ⟨h1, h2, h3, h4⟩ := h
  refine ⟨h1, ?_, h4, h3⟩
  rw [List.map_append] at h2 ⊢
  exact List.nodup_append_comm.mp h2

/-- Removing one resting entry together with its lookup entry keeps the index. -/
theorem Indexed.erase (s t : OrderSide) (l1 l2 opp : List (OrderId × Price)) (lk : Lookup)
    (id : OrderId) (p : Price) (h : Indexed s t (l1 ++ (id, p) :: l2) opp lk) :
    Indexed s t (l1 ++ l2) opp (Lookup.erase id lk) := by
  obtain ⟨h1, h2, h3, h4⟩ := h
  have hsub : ((l1 ++ l2 ++ opp).map Prod.fst).Sublist
      ((l1 ++ (id, p) :: l2 ++ opp).map Prod.fst) := by
    apply List.Sublist.map
    apply List.Sublist.append_right
    exact List.Sublist.append_left (List.sublist_cons_self _ _) _
  have hnot : id ∉ (l1 ++ l2 ++ opp).map Prod.fst := by
    have h5 : ((l1 ++ (id, p) :: l2 ++ opp).map Prod.fst).Perm
        (id :: (l1 ++ l2 ++ opp).map Prod.fst) := by
      simp only [List.map_append, List.map_cons, List.append_assoc]
      exact List.perm_middle
    exact (List.nodup_cons.mp (h5.nodup_iff.mp h2)).1
  refine ⟨Lookup.erase_distinct id lk h1, List.Nodup.sublist hsub h2, ?_, ?_⟩
  · intro id1 p1
    by_cases hid : id1 = id
    · subst hid
      rw [Lookup.lookup_erase_self id1 lk h1]
      constructor
      · intro hh; simp at hh
      · intro hmem
        exact absurd (List.mem_map_of_mem Prod.fst (List.mem_append_left opp hmem)) hnot
    · rw [Lookup.lookup_erase_other id id1 lk hid, h3]
      have hne : (id1, p1) ≠ (id, p) := fun hh => hid (congrArg Prod.fst hh)
      simp [hne]
  · intro id1 p1
    by_cases hid : id1 = id
    · subst hid
      rw [Lookup.lookup_erase_self id1 lk h1]
      constructor
      · intro hh; simp at hh
      · intro hmem
        exact absurd (List.mem_map_of_mem Prod.fst (List.mem_append_right _ hmem)) hnot
    · rw [Lookup.lookup_erase_other id id1 lk hid, h4]

/-- Adding a resting entry under a fresh id together with its lookup entry keeps the
index. -/
theorem Indexed.insert (s t : OrderSide) (hst : s ≠ t) (l1 l2 opp : List (OrderId × Price))
    (lk : Lookup) (id : OrderId) (p : Price) (h : Indexed s t (l1 ++ l2) opp lk)
    (hfresh : Lookup.find lk id = none) :
    Indexed s t (l1 ++ (id, p) :: l2) opp (Lookup.set id (p, s) lk) := by
  obtain ⟨h1, h2, h3, h4⟩ := h
  have hown : ∀ p1, (id, p1) ∉ l1 ++ l2 := by
    intro p1 hmem
    rw [← h3, hfresh] at hmem
    simp at hmem
  have hopp : ∀ p1, (id, p1) ∉ opp := by
    intro p1 hmem
    rw [← h4, hfresh] at hmem
    simp at hmem
  have hnot : id ∉ (l1 ++ l2 ++ opp).map Prod.fst := by
    intro hmem
    obtain ⟨e, he, hid⟩ := List.mem_map.mp hmem
    obtain ⟨id1, p1⟩ := e
    simp only at hid
    subst hid
    rcases List.mem_append.mp he with he | he
    · exact hown p1 he
    · exact hopp p1 he
  refine ⟨Lookup.set_distinct id _ lk h1, ?_, ?_, ?_⟩
  · have h5 : ((l1 ++ (id, p) :: l2 ++ opp).map Prod.fst).Perm
        (id :: (l1 ++ l2 ++ opp).map Prod.fst) := by
      simp only [List.map_append, List.map_cons, List.append_assoc]
      exact List.perm_middle
    exact h5.nodup_iff.mpr (List.nodup_cons.mpr ⟨hnot, h2⟩)
  · intro id1 p1
    by_cases hid : id1 = id
    · subst hid
      rw [Lookup.find_set_self]
      constructor
      · intro hh
        simp only [Option.some.injEq, Prod.mk.injEq, and_true] at hh
        subst hh
        simp
      · intro hmem
        simp only [List.mem_append, List.mem_cons, Prod.mk.injEq, true_and] at hmem
        rcases hmem with hm | hm | hm
        · exact absurd (List.mem_append_left l2 hm) (hown p1)
        · rw [hm]
        · exact absurd (List.mem_append_right l1 hm) (hown p1)
    · rw [Lookup.find_set_other id id1 _ lk hid, h3]
      have hne : (id1, p1) ≠ (id, p) := fun hh => hid (congrArg Prod.fst hh)
      simp [hne]
  · intro id1 p1
    by_cases hid : id1 = id
    · subst hid
      rw [Lookup.find_set_self]
      constructor
      · intro hh
        simp only [Option.some.injEq, Prod.mk.injEq] at hh
        exact absurd hh.2 hst
      · intro hmem
        exact absurd hmem (hopp p1)
    · rw [Lookup.find_set_other id id1 _ lk hid, h4]

/-- Consuming a prefix of the resting entries of the opposite side together with their
lookup entries keeps the index. -/
theorem Indexed.sweep (s t : OrderSide) (own : List (OrderId × Price)) (k : Nat) :
    ∀ (opp : List (OrderId × Price)) (lk : Lookup), Indexed s t own opp lk →
      Indexed s t own (opp.drop k) (eraseAll ((opp.take k).map Prod.fst) lk) := by
  induction k with
  | zero => intro opp lk h; simpa [eraseAll] using h
  | succ k ih =>
    intro opp lk h
    cases opp with
    | nil => simpa [eraseAll] using h
    | cons e rest =>
      obtain ⟨id, p⟩ := e
      have h1 : Indexed t s ([] ++ rest) own (Lookup.erase id lk) :=
        Indexed.erase t s [] rest own lk id p (Indexed.symm s t _ _ lk h)
      have h2 := ih rest (Lookup.erase id lk) (Indexed.symm t s _ _ _ h1)
      simpa [eraseAll] using h2

theorem eraseAll_append (xs ys : List OrderId) (lk : Lookup) :
    eraseAll (xs ++ ys) lk = eraseAll ys (eraseAll xs lk) := by
  simp [eraseAll, List.foldl_append]

theorem eraseAll_cons (id : OrderId) (ids : List OrderId) (lk : Lookup) :
    eraseAll (id :: ids) lk = eraseAll ids (Lookup.erase id lk) := rfl

/-- The `for` loop over a level consumes a prefix of its orders and erases exactly their
ids from the lookup. -/
theorem matchLevel_entries (symbol_ : String) (price : Price) (os : List Order) :
    ∀ (order : Order) (tq : Quantity) (lk : Lookup),
      ∃ k, k ≤ os.length
        ∧ (matchLevel symbol_ price order os tq lk).orders.map (fun o => (o.id, price))
            = (os.map (fun o => (o.id, price))).drop k
        ∧ (matchLevel symbol_ price order os tq lk).lookup
            = eraseAll ((os.take k).map (fun o => o.id)) lk := by
  induction os with
  | nil => intro order tq lk; exact ⟨0, le_refl _, by simp [matchLevel], by simp [matchLevel, eraseAll]⟩
  | cons it rest ih =>
    intro order tq lk
    by_cases hpos : 0 < order.quantity
    · rw [matchLevel_cons_pos _ _ _ _ _ _ _ hpos]
      by_cases hle : it.quantity ≤ order.quantity
      · simp only [hle, if_true]
        obtain ⟨k, hk, h1, h2⟩ := ih { order with quantity := order.quantity - it.quantity }
          (tq - it.quantity) (Lookup.erase it.id lk)
        refine ⟨k + 1, by simp [hk], ?_, ?_⟩
        · simpa using h1
        · simpa [eraseAll_cons] using h2
      · simp only [hle, if_false]
        exact ⟨0, Nat.zero_le _, by simp, by simp [eraseAll]⟩
    · rw [matchLevel_nonpos _ _ _ _ _ _ (not_lt.mp hpos)]
      exact ⟨0, Nat.zero_le _, by simp, by simp [eraseAll]⟩

/-- The sweep consumes a prefix of the resting entries of the opposite side and erases
exactly their ids from the lookup. -/
theorem sweepLevels_entries (symbol_ : String) (is_buy : Bool) (opp : Ladder) :
    ∀ (order : Order) (lk : Lookup),
      ∃ k, entries (sweepLevels symbol_ is_buy order opp lk).opposite_side
            = (entries opp).drop k
        ∧ (sweepLevels symbol_ is_buy order opp lk).lookup
            = eraseAll (((entries opp).take k).map Prod.fst) lk := by
  induction opp with
  | nil => intro order lk; exact ⟨0, by simp [sweepLevels, entries], by simp [sweepLevels, entries, eraseAll]⟩
  | cons e0 rest ih =>
    obtain ⟨p, l⟩ := e0
    intro order lk
    obtain ⟨k1, hk1, h1, h2⟩ := matchLevel_entries symbol_ p l.orders order l.total_quantity lk
    refine sweepLevels_cases symbol_ is_buy order p l rest lk
      (fun s => ∃ k, entries s.opposite_side = (entries ((p, l) :: rest)).drop k
        ∧ s.lookup = eraseAll (((entries ((p, l) :: rest)).take k).map Prod.fst) lk) ?_ ?_ ?_
    · intro _; exact ⟨0, by simp, by simp [eraseAll]⟩
    · intro _ _ hempty
      obtain ⟨k2, h3, h4⟩ := ih (matchLevel symbol_ p order l.orders l.total_quantity lk).order
        (matchLevel symbol_ p order l.orders l.total_quantity lk).lookup
      have hlen : k1 = l.orders.length := by
        rw [hempty] at h1
        have := congrArg List.length h1
        simp only [List.map_nil, List.length_nil, List.length_drop, List.length_map] at this
        omega
      have htake : l.orders.take k1 = l.orders := by
        rw [hlen]; exact List.take_length _
      rw [htake] at h2
      refine ⟨l.orders.length + k2, ?_, ?_⟩
      · simp only [entries]
        rw [h3]
        have : (l.orders.map (fun o => (o.id, p))).length = l.orders.length := by simp
        rw [← this, List.drop_append]
      · simp only [entries]
        rw [h4, h2]
        have : (l.orders.map (fun o => (o.id, p))).length = l.orders.length := by simp
        have hcomp : (Prod.fst ∘ fun (o : Order) => (o.id, p)) = fun o => o.id := rfl
        rw [← this, List.take_append, List.map_append, eraseAll_append]
        simp [hcomp]
    · intro _ _ _ _
      refine ⟨k1, ?_, ?_⟩
      · simp only [entries]
        rw [h1, List.drop_append_of_le_length (by simpa using hk1)]
      · simp only [entries]
        have hcomp : (Prod.fst ∘ fun (o : Order) => (o.id, p)) = fun o => o.id := rfl
        rw [h2, List.take_append_of_le_length (by simpa using hk1)]
        simp [List.map_take, hcomp]

/-- Resting the order appends one entry to the entries of its own side. -/
theorem entries_update (d : Bool) (P : Price) (order : Order) (m : Ladder) :
    ∃ l1 l2, entries m = l1 ++ l2
      ∧ entries (Ladder.update d P
          (fun level =>
            { price := P, orders := level.orders ++ [order],
              total_quantity := level.total_quantity + order.quantity }) m)
        = l1 ++ (order.id, P) :: l2 := by
  induction m with
  | nil => exact ⟨[], [], rfl, by simp [Ladder.update, entries, OrderBookLevel.zero]⟩
  | cons e rest ih =>
    obtain ⟨k, l⟩ := e
    by_cases hk : k = P
    · subst hk
      exact ⟨l.orders.map (fun o => (o.id, k)), entries rest, by simp [entries],
        by simp [Ladder.update, entries]⟩
    · by_cases hb : keyBefore d P k = true
      · exact ⟨[], entries ((k, l) :: rest), rfl,
          by simp [Ladder.update, hk, hb, entries, OrderBookLevel.zero]⟩
      · obtain ⟨l1, l2, h1, h2⟩ := ih
        refine ⟨l.orders.map (fun o => (o.id, k)) ++ l1, l2, ?_, ?_⟩
        · simp [entries, h1]
        · simp only [Ladder.update, hk, hb, if_false, Bool.false_eq_true, entries, h2,
            List.append_assoc]

/-- The entries of a ladder around the level found under a price, and the entries after
that level is assigned or erased. -/
theorem entries_level (p : Price) (level : OrderBookLevel) (m : Ladder)
    (h : Ladder.find m p = some level) :
    ∃ l1 l2, entries m = l1 ++ level.orders.map (fun o => (o.id, p)) ++ l2
      ∧ (∀ lv, entries (Ladder.assign p lv m)
          = l1 ++ lv.orders.map (fun o => (o.id, p)) ++ l2)
      ∧ entries (Ladder.erase p m) = l1 ++ l2 := by
  induction m with
  | nil => simp [Ladder.find] at h
  | cons e rest ih =>
    obtain ⟨k, l⟩ := e
    by_cases hk : k = p
    · subst hk
      simp only [Ladder.find, if_true, Option.some.injEq] at h
      subst h
      exact ⟨[], entries rest, by simp [entries], by intro lv; simp [Ladder.assign, entries],
        by simp [Ladder.erase]⟩
    · simp only [Ladder.find, hk, if_false] at h
      obtain ⟨l1, l2, h1, h2, h3⟩ := ih h
      refine ⟨l.orders.map (fun o => (o.id, k)) ++ l1, l2, ?_, ?_, ?_⟩
      · simp [entries, h1]
      · intro lv; simp [Ladder.assign, hk, entries, h2]
      · simp [Ladder.erase, hk, entries, h3]

theorem entries_key_mem (m : Ladder) (id : OrderId) (p : Price) (h : (id, p) ∈ entries m) :
    p ∈ m.map Prod.fst := by
  induction m with
  | nil => simp [entries] at h
  | cons e rest ih =>
    obtain ⟨k, l⟩ := e
    simp only [entries, List.mem_append, List.mem_map, Prod.mk.injEq] at h
    rcases h with ⟨o, _, _, hk⟩ | h
    · simp [hk]
    · simp [ih h]

theorem restsAt_iff_mem_entries (d : Bool) (m : Ladder) (p : Price) (id : OrderId)
    (h : Ladder.Ordered d m) : RestsAt m p id ↔ (id, p) ∈ entries m := by
  induction m with
  | nil => simp [RestsAt, Ladder.find, entries]
  | cons e rest ih =>
    obtain ⟨k, l⟩ := e
    have hrest : Ladder.Ordered d rest := (List.pairwise_cons.mp h).2
    have hnot := ordered_head_not_mem d k l rest h
    by_cases hk : k = p
    · subst hk
      have hno : (id, k) ∉ entries rest := fun hm => hnot (entries_key_mem rest id k hm)
      simp only [RestsAt, Ladder.find, if_true, Option.some.injEq, exists_eq_left', entries,
        List.mem_append, List.mem_map, Prod.mk.injEq, and_true, hno, or_false]
    · have := ih hrest
      simp only [RestsAt, Ladder.find, hk, if_false, entries, List.mem_append, List.mem_map,
        Prod.mk.injEq] at this ⊢
      rw [this]
      constructor
      · intro hh; exact Or.inr hh
      · intro hh
        rcases hh with ⟨o, _, _, hkp⟩ | hh
        · exact hkp.elim
        · exact hh

theorem OrderSide.opposite_ne (side : OrderSide) : side ≠ side.opposite := by
  cases side <;> simp [OrderSide.opposite]

theorem indexInv_iff (b : OrderBook) (side : OrderSide) :
    IndexInv b ↔ MapOrdered b
      ∧ Indexed side side.opposite (entries (ownSide b side)) (entries (oppositeSide b side))
          b.order_lookup_ := by
  cases side
  · simp only [IndexInv, ownSide, oppositeSide, OrderSide.opposite, if_true]
  · simp only [IndexInv, ownSide, oppositeSide, OrderSide.opposite]
    constructor
    · intro h; exact ⟨h.1, Indexed.symm _ _ _ _ _ h.2⟩
    · intro h; exact ⟨h.1, Indexed.symm _ _ _ _ _ h.2⟩

theorem oppositeSide_sweepBook (b : OrderBook) (order : Order) :
    oppositeSide (sweepBook b order (decide (order.side = OrderSide.BUY))).book order.side
      = (sweepLevels b.symbol_ (decide (order.side = OrderSide.BUY)) order
          (oppositeSide b order.side) b.order_lookup_).opposite_side := by
  cases hs : order.side <;> simp [sweepBook, oppositeSide, hs]

theorem mapOrdered_of_sides (b b1 : OrderBook) (side : OrderSide) (h : MapOrdered b)
    (hown : (ownSide b1 side).map Prod.fst = (ownSide b side).map Prod.fst
      ∨ Ladder.Ordered (decide (side = OrderSide.BUY)) (ownSide b1 side))
    (hopp : ((oppositeSide b1 side).map Prod.fst).Sublist ((oppositeSide b side).map Prod.fst)) :
    MapOrdered b1 := by
  have h1 : Ladder.Ordered (decide (side = OrderSide.BUY)) (ownSide b1 side) := by
    rcases hown with hown | hown
    · exact ordered_of_keys_sublist _ _ _ (by rw [hown]) (ownSide_ordered b side h)
    · exact hown
  have h2 : Ladder.Ordered (decide (side = OrderSide.SELL)) (oppositeSide b1 side) :=
    ordered_of_keys_sublist _ _ _ hopp (oppositeSide_ordered b side h)
  cases side
  · exact ⟨by simpa [ownSide] using h1, by simpa [oppositeSide] using h2⟩
  · exact ⟨by simpa [oppositeSide] using h2, by simpa [ownSide] using h1⟩

theorem sweepBook_indexInv (b : OrderBook) (order : Order) (h : IndexInv b) :
    IndexInv (sweepBook b order (decide (order.side = OrderSide.BUY))).book := by
  rw [indexInv_iff _ order.side] at h ⊢
  obtain ⟨hmap, hidx⟩ := h
  obtain ⟨k, h1, h2⟩ := sweepLevels_entries b.symbol_ (decide (order.side = OrderSide.BUY))
    (oppositeSide b order.side) order b.order_lookup_
  refine ⟨?_, ?_⟩
  · apply mapOrdered_of_sides b _ order.side hmap
    · left; rw [ownSide_sweepBook]
    · rw [oppositeSide_sweepBook]; exact sweepLevels_keys _ _ _ _ _
  · rw [ownSide_sweepBook, oppositeSide_sweepBook, lookup_sweepBook, h1, h2]
    exact Indexed.sweep _ _ _ k _ _ hidx

theorem addToBook_indexInv (b : OrderBook) (order : Order) (P : Price)
    (hp : order.price = some P) (hfresh : Lookup.find b.order_lookup_ order.id = none)
    (h : IndexInv b) : IndexInv (addToBook b order).1 := by
  rw [indexInv_iff _ order.side] at h ⊢
  obtain ⟨hmap, hidx⟩ := h
  have hown := ownSide_addToBook b order
  rw [hp] at hown
  simp only [Option.getD_some] at hown
  obtain ⟨l1, l2, h1, h2⟩ := entries_update (decide (order.side = OrderSide.BUY)) P order
    (ownSide b order.side)
  refine ⟨?_, ?_⟩
  · apply mapOrdered_of_sides b _ order.side hmap
    · right
      rw [hown]
      exact Ladder.update_ordered _ _ _ _ (ownSide_ordered b order.side hmap)
    · rw [oppositeSide_addToBook b order order.side rfl]
  · rw [hown, h2, oppositeSide_addToBook b order order.side rfl, lookup_addToBook, hp]
    simp only [Option.getD_some]
    rw [h1] at hidx
    exact Indexed.insert _ _ (OrderSide.opposite_ne order.side) l1 l2 _ _ order.id P hidx hfresh

theorem addOrder_indexInv (b : OrderBook) (order : Order)
    (hfresh : Lookup.find b.order_lookup_ order.id = none) (h : IndexInv b) :
    IndexInv (addOrderOutcome b order).book := by
  by_cases hv : order.type = OrderType.LIMIT ∧ order.price = none
  · unfold addOrderOutcome; rw [if_pos hv]; exact h
  · by_cases hq : order.quantity ≤ 0
    · unfold addOrderOutcome; rw [if_neg hv, if_pos hq]; exact h
    · rw [addOrderOutcome_book b order hv (not_le.mp hq)]
      have hsw := sweepBook_indexInv b order h
      split_ifs with hrest
      · have horder := sweepBook_order b order
        obtain ⟨P, hP⟩ : ∃ P, order.price = some P := by
          cases hp : order.price with
          | none => exact absurd ⟨hrest.2, hp⟩ hv
          | some P => exact ⟨P, rfl⟩
        have hp : (sweepBook b order (decide (order.side = OrderSide.BUY))).order.price
            = some P := by rw [horder]; exact hP
        have hid : (sweepBook b order (decide (order.side = OrderSide.BUY))).order.id
            = order.id := by rw [horder]
        apply addToBook_indexInv _ _ P hp _ hsw
        rw [hid, lookup_sweepBook]
        exact sweepLevels_lookup _ _ _ _ _ _ hfresh
      · exact hsw

theorem cancelOrder_indexInv (b : OrderBook) (id : OrderId) (h : IndexInv b) :
    IndexInv (cancelOrder b id).book := by
  cases hf : Lookup.find b.order_lookup_ id with
  | none => rw [cancelOrder_none b id hf]; exact h
  | some entry =>
    obtain ⟨p, side⟩ := entry
    rw [cancelOrder_some b id p side hf]
    rw [indexInv_iff _ side] at h ⊢
    obtain ⟨hmap, hidx⟩ := h
    have hord := ownSide_ordered b side hmap
    have hmem : (id, p) ∈ entries (ownSide b side) := (hidx.2.2.1 id p).mp hf
    obtain ⟨level, o, xs, ys, hfind, hsplit, hid, hxs, _⟩ :=
      restsAt_split _ _ _ ((restsAt_iff_mem_entries _ _ p id hord).mpr hmem)
    have hrem := removeFromLadder_found id p (ownSide b side) level o xs ys hfind hsplit hid hxs
    obtain ⟨a, c, h1, h2, h3⟩ := entries_level p level (ownSide b side) hfind
    have hent : entries (removeFromLadder id p (ownSide b side))
        = (a ++ xs.map (fun o => (o.id, p))) ++ (ys.map (fun o => (o.id, p)) ++ c) := by
      rw [hrem]
      split_ifs with hempty
      · rw [h3]
        have hx : xs = [] := (List.append_eq_nil.mp hempty).1
        have hy : ys = [] := (List.append_eq_nil.mp hempty).2
        simp [hx, hy]
      · rw [h2]; simp
    have hold : entries (ownSide b side)
        = (a ++ xs.map (fun o => (o.id, p))) ++ (id, p) :: (ys.map (fun o => (o.id, p)) ++ c) := by
      rw [h1, hsplit]; simp [hid]
    have hown : ownSide
        { setOwnSide b side (removeFromLadder id p (ownSide b side)) with
          order_lookup_ := Lookup.erase id b.order_lookup_ } side
        = removeFromLadder id p (ownSide b side) := by
      cases side <;> simp [ownSide, setOwnSide]
    have hopp : oppositeSide
        { setOwnSide b side (removeFromLadder id p (ownSide b side)) with
          order_lookup_ := Lookup.erase id b.order_lookup_ } side
        = oppositeSide b side := by
      cases side <;> simp [oppositeSide, setOwnSide]
    refine ⟨?_, ?_⟩
    · apply mapOrdered_of_sides b _ side hmap
      · right
        rw [hown]
        exact ordered_of_keys_sublist _ _ _ (removeFromLadder_keys id p _) hord
      · rw [hopp]
    · rw [hown, hopp, hent]
      rw [hold] at hidx
      exact Indexed.erase _ _ _ _ _ _ id p hidx

theorem setQuantity_ids (id : OrderId) (q : Quantity) (os : List Order) :
    (setQuantity id q os).map (fun o => o.id) = os.map (fun o => o.id) := by
  induction os with
  | nil => rfl
  | cons o rest ih =>
    by_cases ho : o.id = id
    · simp [setQuantity, ho]
    · simp [setQuantity, ho, ih]

theorem modifyOrder_indexInv (b : OrderBook) (id : OrderId) (q : Quantity) (h : IndexInv b) :
    IndexInv (modifyOrder b id q).book := by
  cases hf : Lookup.find b.order_lookup_ id with
  | none => rw [modifyOrder_none b id q hf]; exact h
  | some entry =>
    obtain ⟨p, side⟩ := entry
    rw [modifyOrder_some b id q p side hf]
    cases hm : modifyInLadder id p q (ownSide b side) with
    | none => exact h
    | some m =>
      simp only
      rw [indexInv_iff _ side] at h ⊢
      obtain ⟨hmap, hidx⟩ := h
      have hkeys := modifyInLadder_keys id p q _ m hm
      have hent : entries m = entries (ownSide b side) := by
        unfold modifyInLadder at hm
        split at hm
        · simp at hm
        · rename_i level hfind
          split at hm
          · simp at hm
          · simp only [Option.some.injEq] at hm
            obtain ⟨a, c, h1, h2, _⟩ := entries_level p level (ownSide b side) hfind
            rw [← hm, h2, h1]
            simp only
            have hids := setQuantity_ids id q level.orders
            have : (setQuantity id q level.orders).map (fun o => (o.id, p))
                = level.orders.map (fun o => (o.id, p)) := by
              have h5 := congrArg (List.map (fun i : OrderId => (i, p))) hids
              simpa [List.map_map, Function.comp] using h5
            rw [this]
      refine ⟨?_, ?_⟩
      · apply mapOrdered_of_sides b _ side hmap
        · left; rw [ownSide_setOwnSide, hkeys]
        · rw [oppositeSide_setOwnSide]
      · rw [ownSide_setOwnSide, oppositeSide_setOwnSide, lookup_setOwnSide, hent]
        exact hidx

theorem addOrderOutcome_lookup_none (b : OrderBook) (order : Order) (id : OrderId)
    (hne : id ≠ order.id) (h : Lookup.find b.order_lookup_ id = none) :
    Lookup.find (addOrderOutcome b order).book.order_lookup_ id = none := by
  by_cases hv : order.type = OrderType.LIMIT ∧ order.price = none
  · unfold addOrderOutcome; rw [if_pos hv]; exact h
  · by_cases hq : order.quantity ≤ 0
    · unfold addOrderOutcome; rw [if_neg hv, if_pos hq]; exact h
    · rw [addOrderOutcome_book b order hv (not_le.mp hq)]
      have hsw : Lookup.find
          (sweepBook b order (decide (order.side = OrderSide.BUY))).book.order_lookup_ id
          = none := by
        rw [lookup_sweepBook]
        exact sweepLevels_lookup _ _ _ _ _ _ h
      split_ifs
      · have hid : (sweepBook b order (decide (order.side = OrderSide.BUY))).order.id
            = order.id := by rw [sweepBook_order]
        rw [lookup_addToBook, hid, Lookup.find_set_other _ _ _ _ hne]
        exact hsw
      · exact hsw

theorem cancelOrder_lookup_none (b : OrderBook) (id0 id : OrderId)
    (h : Lookup.find b.order_lookup_ id = none) :
    Lookup.find (cancelOrder b id0).book.order_lookup_ id = none := by
  cases hf : Lookup.find b.order_lookup_ id0 with
  | none => rw [cancelOrder_none b id0 hf]; exact h
  | some entry =>
    obtain ⟨p, side⟩ := entry
    rw [cancelOrder_some b id0 p side hf]
    exact Lookup.find_erase_none _ _ _ h

theorem modifyOrder_lookup (b : OrderBook) (id : OrderId) (q : Quantity) :
    (modifyOrder b id q).book.order_lookup_ = b.order_lookup_ := by
  cases hf : Lookup.find b.order_lookup_ id with
  | none => rw [modifyOrder_none b id q hf]
  | some entry =>
    obtain ⟨p, side⟩ := entry
    rw [modifyOrder_some b id q p side hf]
    cases modifyInLadder id p q (ownSide b side) with
    | none => rfl
    | some m => exact lookup_setOwnSide b side m

/-- From a book with the index invariant, every sequence of calls whose submitted ids are
distinct from each other and from the ids in the lookup runs to completion and keeps the
invariant. -/
theorem applyCalls_indexInv :
    ∀ (calls : List Call) (b : OrderBook), IndexInv b → (submittedIds calls).Nodup →
      (∀ id ∈ submittedIds calls, Lookup.find b.order_lookup_ id = none) →
      ∃ b1, applyCalls b calls = some b1 ∧ IndexInv b1 := by
  intro calls
  induction calls with
  | nil => intro b hb _ _; exact ⟨b, rfl, hb⟩
  | cons c cs ih =>
    intro b hb hnd hfresh
    cases c with
    | addOrder order =>
      simp only [submittedIds, List.nodup_cons] at hnd
      simp only [submittedIds, List.mem_cons, forall_eq_or_imp] at hfresh
      have hb1 := addOrder_indexInv b order hfresh.1 hb
      have hfresh1 : ∀ id ∈ submittedIds cs,
          Lookup.find (addOrderOutcome b order).book.order_lookup_ id = none := by
        intro id hid
        apply addOrderOutcome_lookup_none b order id _ (hfresh.2 id hid)
        rintro rfl
        exact hnd.1 hid
      obtain ⟨b1, h1, h2⟩ := ih _ hb1 hnd.2 hfresh1
      exact ⟨b1, by simp [applyCalls, applyCall, addOrder_eq, h1], h2⟩
    | cancelOrder id0 =>
      simp only [submittedIds] at hnd hfresh
      obtain ⟨b1, h1, h2⟩ := ih _ (cancelOrder_indexInv b id0 hb) hnd
        (fun id hid => cancelOrder_lookup_none b id0 id (hfresh id hid))
      exact ⟨b1, by simp [applyCalls, applyCall, h1], h2⟩
    | modifyOrder id0 q =>
      simp only [submittedIds] at hnd hfresh
      obtain ⟨b1, h1, h2⟩ := ih _ (modifyOrder_indexInv b id0 q hb) hnd
        (fun id hid => by rw [modifyOrder_lookup]; exact hfresh id hid)
      exact ⟨b1, by simp [applyCalls, applyCall, h1], h2⟩

theorem indexInv_consistent (b : OrderBook) (h : IndexInv b) :
    MapOrdered b ∧ LookupDistinct b.order_lookup_ ∧ SideIndexConsistent b := by
  refine ⟨h.1, h.2.1, ?_⟩
  intro id p side
  have hs := (indexInv_iff b side).mp h
  rw [restsAt_iff_mem_entries _ _ p id (ownSide_ordered b side h.1)]
  exact hs.2.2.2.1 id p

theorem indexInv_new (symbol : String) : IndexInv (OrderBook.new symbol) := by
  refine ⟨⟨List.Pairwise.nil, List.Pairwise.nil⟩, ?_, ?_, ?_, ?_⟩
  · simp [LookupDistinct, OrderBook.new]
  · simp [OrderBook.new, entries]
  · intro id p; simp [OrderBook.new, entries, Lookup.find]
  · intro id p; simp [OrderBook.new, entries, Lookup.find]

/-- The books reached from the empty book by calls with distinct submitted ids are
side-index consistent, with ladders and lookup kept as their maps keep them. -/
theorem applyCalls_consistent (symbol : String) (calls : List Call)
    (hfresh : (submittedIds calls).Nodup) :
    ∃ b, applyCalls (OrderBook.new symbol) calls = some b
      ∧ MapOrdered b ∧ LookupDistinct b.order_lookup_ ∧ SideIndexConsistent b := by
  obtain ⟨b, hb, hinv⟩ := applyCalls_indexInv calls (OrderBook.new symbol)
    (indexInv_new symbol) hfresh (fun id _ => by simp [OrderBook.new, Lookup.find])
  exact ⟨b, hb, indexInv_consistent b hinv⟩

/-- Claim C11: starting from an empty book, after every finite sequence of `addOrder`,
`cancelOrder` and `modifyOrder` calls whose submitted order ids are pairwise distinct,
`order_lookup_` maps an id to `(price, side)` exactly when an order with that id rests in
the ladder of that side in the level keyed by that price; so the ids in `order_lookup_` are
exactly the ids resting in `bids_` or `asks_`. -/
theorem side_index_consistent (symbol : String) (calls : List Call)
    (hfresh : (submittedIds calls).Nodup) :
    ∃ b, applyCalls (OrderBook.new symbol) calls = some b
      ∧ (∀ id p side, Lookup.find b.order_lookup_ id = some (p, side)
          ↔ ∃ level, Ladder.find (ownSide b side) p = some level
              ∧ ∃ o ∈ level.orders, o.id = id)
      ∧ (∀ id, Lookup.find b.order_lookup_ id ≠ none
          ↔ ∃ side p level, Ladder.find (ownSide b side) p = some level
              ∧ ∃ o ∈ level.orders, o.id = id) := by
  obtain ⟨b, hb, _, _, hcons⟩ := applyCalls_consistent symbol calls hfresh
  refine ⟨b, hb, hcons, ?_⟩
  intro id
  constructor
  · intro hne
    cases hf : Lookup.find b.order_lookup_ id with
    | none => exact absurd hf hne
    | some entry =>
      obtain ⟨p, side⟩ := entry
      exact ⟨side, p, (hcons id p side).mp hf⟩
  · rintro ⟨side, p, hrest⟩ hnone
    have := (hcons id p side).mpr hrest
    rw [hnone] at this
    simp at this

theorem side_index_consistent_witness :
    (submittedIds [Call.addOrder (mkOrder 10 OrderSide.BUY OrderType.LIMIT 4 (some 50)),
                   Call.addOrder (mkOrder 11 OrderSide.BUY OrderType.LIMIT 4 (some 50)),
                   Call.cancelOrder 10]).Nodup
      ∧ ∃ b, applyCalls (OrderBook.new "BTC-USDT")
            [Call.addOrder (mkOrder 10 OrderSide.BUY OrderType.LIMIT 4 (some 50)),
             Call.addOrder (mkOrder 11 OrderSide.BUY OrderType.LIMIT 4 (some 50)),
             Call.cancelOrder 10] = some b
        ∧ (∀ id p side, Lookup.find b.order_lookup_ id = some (p, side)
            ↔ ∃ level, Ladder.find (ownSide b side) p = some level
                ∧ ∃ o ∈ level.orders, o.id = id)
        ∧ (∀ id, Lookup.find b.order_lookup_ id ≠ none
            ↔ ∃ side p level, Ladder.find (ownSide b side) p = some level
                ∧ ∃ o ∈ level.orders, o.id = id) :=
  ⟨by decide, side_index_consistent "BTC-USDT" _ (by decide)⟩

/-! ## Submit then cancel -/

theorem Lookup.erase_set (id : OrderId) (v : Price × OrderSide) (m : Lookup)
    (h : Lookup.find m id = none) : Lookup.erase id (Lookup.set id v m) = m := by
  induction m with
  | nil => simp [Lookup.set, Lookup.erase]
  | cons e rest ih =>
    obtain ⟨k, w⟩ := e
    by_cases hk : k = id
    · simp [Lookup.find, hk] at h
    · simp only [Lookup.find, hk, if_false] at h
      simp [Lookup.set, Lookup.erase, hk, ih h]

theorem Ladder.erase_update (d : Bool) (P : Price) (f : OrderBookLevel → OrderBookLevel)
    (m : Ladder) (h : Ladder.find m P = none) :
    Ladder.erase P (Ladder.update d P f m) = m := by
  induction m with
  | nil => simp [Ladder.update, Ladder.erase]
  | cons e rest ih =>
    obtain ⟨k, l⟩ := e
    by_cases hk : k = P
    · simp [Ladder.find, hk] at h
    · simp only [Ladder.find, hk, if_false] at h
      by_cases hb : keyBefore d P k = true
      · simp [Ladder.update, Ladder.erase, hk, hb]
      · simp [Ladder.update, Ladder.erase, hk, hb, ih h]

theorem Ladder.assign_update (d : Bool) (P : Price) (f : OrderBookLevel → OrderBookLevel)
    (m : Ladder) (old : OrderBookLevel) (hord : Ladder.Ordered d m)
    (h : Ladder.find m P = some old) :
    Ladder.assign P old (Ladder.update d P f m) = m := by
  induction m with
  | nil => simp [Ladder.find] at h
  | cons e rest ih =>
    obtain ⟨k, l⟩ := e
    have hrest : Ladder.Ordered d rest := (List.pairwise_cons.mp hord).2
    by_cases hk : k = P
    · simp only [Ladder.find, hk, if_true, Option.some.injEq] at h
      simp [Ladder.update, Ladder.assign, hk, h]
    · simp only [Ladder.find, hk, if_false] at h
      by_cases hb : keyBefore d P k = true
      · exfalso
        have hmem := Ladder.find_mem rest P old h
        have h1 := (List.pairwise_cons.mp hord).1 (P, old) hmem
        have h2 := keyBefore_asymm d P k hb
        simp only at h1
        rw [h1] at h2
        exact Bool.noConfusion h2
      · simp [Ladder.update, Ladder.assign, hk, hb, ih hrest h]

/-- Cancelling an order right after it was rested under a fresh id restores the ladder. -/
theorem removeFromLadder_update (d : Bool) (P : Price) (order : Order) (m : Ladder)
    (hord : Ladder.Ordered d m) (hne : ∀ e ∈ m, e.2.orders ≠ [])
    (hprice : ∀ e ∈ m, e.2.price = e.1) (hfresh : ¬ RestsAt m P order.id) :
    removeFromLadder order.id P
        (Ladder.update d P
          (fun level =>
            { price := P, orders := level.orders ++ [order],
              total_quantity := level.total_quantity + order.quantity }) m)
      = m := by
  have hfind := Ladder.find_update_self d P
    (fun level =>
      { price := P, orders := level.orders ++ [order],
        total_quantity := level.total_quantity + order.quantity }) m hord
  cases hold : Ladder.find m P with
  | none =>
    rw [hold] at hfind
    simp only at hfind
    rw [removeFromLadder_found order.id P _ _ order [] [] hfind
      (by simp [OrderBookLevel.zero]) rfl (by simp)]
    simp only [List.append_nil, if_true]
    exact Ladder.erase_update d P _ m hold
  | some old =>
    rw [hold] at hfind
    simp only at hfind
    have hmem := Ladder.find_mem m P old hold
    have hxs : ∀ x ∈ old.orders, x.id ≠ order.id := by
      intro x hx hid
      exact hfresh ⟨old, hold, x, hx, hid⟩
    rw [removeFromLadder_found order.id P _ _ order old.orders [] hfind rfl rfl hxs]
    have hnonempty : old.orders ++ [] ≠ [] := by
      simpa using hne (P, old) hmem
    rw [if_neg hnonempty]
    have hp : old.price = P := hprice (P, old) hmem
    convert Ladder.assign_update d P _ m old hord hold using 2
    obtain ⟨pr, tq, os⟩ := old
    simp only at hp
    simp [hp]

theorem book_ext_sides (b1 b2 : OrderBook) (side : OrderSide)
    (hsym : b1.symbol_ = b2.symbol_) (hown : ownSide b1 side = ownSide b2 side)
    (hopp : oppositeSide b1 side = oppositeSide b2 side)
    (hlk : b1.order_lookup_ = b2.order_lookup_) : b1 = b2 := by
  obtain ⟨s1, bids1, asks1, lk1⟩ := b1
  obtain ⟨s2, bids2, asks2, lk2⟩ := b2
  cases side <;> simp only [ownSide, oppositeSide, if_true] at hown hopp <;>
    simp only at hsym hlk <;> subst hsym <;> subst hlk <;> simp_all

theorem ownSide_setLookup (b : OrderBook) (side : OrderSide) (m : Ladder) (lk : Lookup) :
    ownSide { setOwnSide b side m with order_lookup_ := lk } side = m := by
  cases side <;> simp [ownSide, setOwnSide]

theorem oppositeSide_setLookup (b : OrderBook) (side : OrderSide) (m : Ladder)
    (lk : Lookup) :
    oppositeSide { setOwnSide b side m with order_lookup_ := lk } side
      = oppositeSide b side := by
  cases side <;> simp [oppositeSide, setOwnSide]

theorem symbol_setLookup (b : OrderBook) (side : OrderSide) (m : Ladder) (lk : Lookup) :
    ({ setOwnSide b side m with order_lookup_ := lk } : OrderBook).symbol_ = b.symbol_ := by
  cases side <;> simp [setOwnSide]

theorem matchLevel_trades_ne_nil (symbol_ : String) (price : Price) (order it : Order)
    (rest : List Order) (tq : Quantity) (lk : Lookup) (h : 0 < order.quantity) :
    (matchLevel symbol_ price order (it :: rest) tq lk).trades ≠ [] := by
  rw [matchLevel_cons_pos _ _ _ _ _ _ _ h]
  split_ifs <;> simp

/-- A sweep over non-empty levels that emits no trade changes nothing. -/
theorem sweepLevels_no_trades (symbol_ : String) (is_buy : Bool) (order : Order)
    (opp : Ladder) (lk : Lookup) (hne : ∀ e ∈ opp, e.2.orders ≠ [])
    (h : (sweepLevels symbol_ is_buy order opp lk).trades = []) :
    sweepLevels symbol_ is_buy order opp lk
      = { order := order, opposite_side := opp, lookup := lk, trades := [] } := by
  cases opp with
  | nil => simp [sweepLevels]
  | cons e rest =>
    obtain ⟨p, l⟩ := e
    by_cases hc : order.quantity > 0 ∧ cannotMatch is_buy p order.price = false
    · exfalso
      have hl : l.orders ≠ [] := hne (p, l) (List.mem_cons_self _ _)
      obtain ⟨it, os, hos⟩ := List.exists_cons_of_ne_nil hl
      have htr := matchLevel_trades_ne_nil symbol_ p order it os l.total_quantity lk hc.1
      rw [← hos] at htr
      revert h
      refine sweepLevels_cases symbol_ is_buy order p l rest lk
        (fun s => s.trades = [] → False) ?_ ?_ ?_
      · intro hstop; exact absurd hc hstop
      · intro _ _ _ h
        simp only [List.append_eq_nil] at h
        exact htr h.1
      · intro _ _ _ _ h
        exact htr h
    · exact sweepLevels_stop _ _ _ _ _ _ _ hc

theorem find_eraseAll_of_not_mem (ids : List OrderId) (id : OrderId) :
    ∀ (lk : Lookup), id ∉ ids → Lookup.find (eraseAll ids lk) id = Lookup.find lk id := by
  induction ids with
  | nil => intro lk _; rfl
  | cons i rest ih =>
    intro lk hnot
    simp only [List.mem_cons, not_or] at hnot
    rw [eraseAll_cons, ih _ hnot.2, Lookup.lookup_erase_other i id lk hnot.1]

/-- Cancelling the submitted id right after `addOrder` leaves the book that the sweep
produced, and returns `true` exactly when a residual was rested. -/
theorem cancel_after_add (b : OrderBook) (order : Order) (P : Price) (hmap : MapOrdered b)
    (hne : ∀ e ∈ b.bids_ ++ b.asks_, e.2.orders ≠ [])
    (hprices : ∀ e ∈ b.bids_ ++ b.asks_, e.2.price = e.1)
    (htype : order.type = OrderType.LIMIT) (hprice : order.price = some P)
    (hq : 0 < order.quantity) (hlk : Lookup.find b.order_lookup_ order.id = none)
    (hfresh : ¬ RestsAt (ownSide b order.side) P order.id) :
    (cancelOrder (addOrderOutcome b order).book order.id).book
        = (sweepBook b order (decide (order.side = OrderSide.BUY))).book
      ∧ ((cancelOrder (addOrderOutcome b order).book order.id).ret = true
          ↔ 0 < (sweepBook b order (decide (order.side = OrderSide.BUY))).order.quantity) := by
  have hv : ¬ (order.type = OrderType.LIMIT ∧ order.price = none) := by
    rw [hprice]; simp
  have hlks : Lookup.find
      (sweepBook b order (decide (order.side = OrderSide.BUY))).book.order_lookup_ order.id
      = none := by
    rw [lookup_sweepBook]
    exact sweepLevels_lookup _ _ _ _ _ _ hlk
  rw [addOrderOutcome_book b order hv hq]
  by_cases hrest : (sweepBook b order (decide (order.side = OrderSide.BUY))).order.quantity > 0
  · rw [if_pos ⟨hrest, htype⟩]
    have horder := sweepBook_order b order
    have hside : (sweepBook b order (decide (order.side = OrderSide.BUY))).order.side
        = order.side := by rw [horder]
    have hp : (sweepBook b order (decide (order.side = OrderSide.BUY))).order.price
        = some P := by rw [horder]; exact hprice
    have hid : (sweepBook b order (decide (order.side = OrderSide.BUY))).order.id
        = order.id := by rw [horder]
    have hfound : Lookup.find
        (addToBook (sweepBook b order (decide (order.side = OrderSide.BUY))).book
          (sweepBook b order (decide (order.side = OrderSide.BUY))).order).1.order_lookup_
        order.id = some (P, order.side) := by
      rw [lookup_addToBook, hid, hp, hside]
      exact Lookup.find_set_self _ _ _
    rw [cancelOrder_some _ order.id P order.side hfound]
    have hown := ownSide_addToBook
      (sweepBook b order (decide (order.side = OrderSide.BUY))).book
      (sweepBook b order (decide (order.side = OrderSide.BUY))).order
    rw [hside, hp, ownSide_sweepBook] at hown
    simp only [Option.getD_some] at hown
    have hownne : ∀ e ∈ ownSide b order.side, e.2.orders ≠ [] := by
      intro e he
      apply hne e
      cases hs : order.side <;> simp [ownSide, hs] at he <;> simp [he]
    have hownpr : ∀ e ∈ ownSide b order.side, e.2.price = e.1 := by
      intro e he
      apply hprices e
      cases hs : order.side <;> simp [ownSide, hs] at he <;> simp [he]
    have hfresh1 : ¬ RestsAt (ownSide b order.side) P
        (sweepBook b order (decide (order.side = OrderSide.BUY))).order.id := by
      rw [hid]; exact hfresh
    have hrt := removeFromLadder_update (decide (order.side = OrderSide.BUY)) P
      (sweepBook b order (decide (order.side = OrderSide.BUY))).order (ownSide b order.side)
      (ownSide_ordered b order.side hmap) hownne hownpr hfresh1
    rw [hid] at hrt
    have hlkrt : Lookup.erase order.id
        (addToBook (sweepBook b order (decide (order.side = OrderSide.BUY))).book
          (sweepBook b order (decide (order.side = OrderSide.BUY))).order).1.order_lookup_
        = (sweepBook b order (decide (order.side = OrderSide.BUY))).book.order_lookup_ := by
      rw [lookup_addToBook, hid]
      exact Lookup.erase_set _ _ _ hlks
    refine ⟨?_, by simpa using hrest⟩
    apply book_ext_sides _ _ order.side
    · rw [symbol_setLookup, addToBook_symbol]
    · rw [ownSide_setLookup, hown, hrt, ownSide_sweepBook]
    · rw [oppositeSide_setLookup]
      exact oppositeSide_addToBook _ _ order.side hside
    · exact hlkrt
  · rw [if_neg (fun h => hrest h.1), cancelOrder_none _ order.id hlks]
    exact ⟨rfl, by simpa using hrest⟩


theorem oppositeSide_eq_ownSide (b : OrderBook) (side : OrderSide) :
    oppositeSide b side = ownSide b side.opposite := by
  cases side <;> simp [oppositeSide, ownSide, OrderSide.opposite]

theorem not_resting_lookup (b : OrderBook) (id : OrderId) (hcons : SideIndexConsistent b)
    (hfresh : ∀ side p, ¬ RestsAt (ownSide b side) p id) :
    Lookup.find b.order_lookup_ id = none := by
  cases hf : Lookup.find b.order_lookup_ id with
  | none => rfl
  | some entry =>
    obtain ⟨p, side⟩ := entry
    exact absurd ((hcons id p side).mp hf) (hfresh side p)

/-- Claim C16: on a side-index consistent book with ordered ladders whose levels hold an
order and carry their key as `price`, take a LIMIT order with a price, a positive quantity
and an id that is not resting.  After `addOrder` and then `cancelOrder` of its id, the
ladder of the order's own side is the one before the submission and `order_lookup_` agrees
with the one before on every id resting on that side; when the submission emitted no trade
the whole book is the one before; and the cancel returns `true` exactly when a residual was
rested, so it returns `false` when the order was fully filled. -/
theorem submit_cancel_round_trip (b : OrderBook) (order : Order) (P : Price)
    (hmap : MapOrdered b) (hcons : SideIndexConsistent b)
    (hne : ∀ e ∈ b.bids_ ++ b.asks_, e.2.orders ≠ [])
    (hprices : ∀ e ∈ b.bids_ ++ b.asks_, e.2.price = e.1)
    (htype : order.type = OrderType.LIMIT) (hprice : order.price = some P)
    (hq : 0 < order.quantity)
    (hfresh : ∀ side p, ¬ RestsAt (ownSide b side) p order.id) :
    ∃ r, addOrder b order = some r
      ∧ ownSide (cancelOrder r.book order.id).book order.side = ownSide b order.side
      ∧ (∀ id p, RestsAt (ownSide b order.side) p id →
          Lookup.find (cancelOrder r.book order.id).book.order_lookup_ id
            = Lookup.find b.order_lookup_ id)
      ∧ (tradesOf r.events = [] → (cancelOrder r.book order.id).book = b)
      ∧ ((cancelOrder r.book order.id).ret = true
          ↔ 0 < order.quantity - tradedQuantity (tradesOf r.events)) := by
  refine ⟨addOrderOutcome b order, addOrder_eq b order, ?_⟩
  have hlk := not_resting_lookup b order.id hcons hfresh
  obtain ⟨hbook, hret⟩ := cancel_after_add b order P hmap hne hprices htype hprice hq hlk
    (hfresh order.side P)
  have hc : ¬ ((order.type = OrderType.LIMIT ∧ order.price = none) ∨ order.quantity ≤ 0) := by
    rw [hprice]
    simp only [and_false, false_or, not_le, reduceCtorEq]
    exact hq
  rw [hbook, hret, tradesOf_addOrderOutcome, if_neg hc, ← sweepBook_residual]
  refine ⟨ownSide_sweepBook b order, ?_, ?_, Iff.rfl⟩
  · intro id p hrests
    rw [lookup_sweepBook]
    obtain ⟨k, _, h2⟩ := sweepLevels_entries b.symbol_ (decide (order.side = OrderSide.BUY))
      (oppositeSide b order.side) order b.order_lookup_
    rw [h2]
    apply find_eraseAll_of_not_mem
    intro hmem
    obtain ⟨e, he, hid⟩ := List.mem_map.mp hmem
    obtain ⟨id1, p2⟩ := e
    simp only at hid
    subst hid
    have hmem2 : (id1, p2) ∈ entries (oppositeSide b order.side) := List.mem_of_mem_take he
    have hrests2 : RestsAt (ownSide b order.side.opposite) p2 id1 := by
      rw [← oppositeSide_eq_ownSide]
      exact (restsAt_iff_mem_entries _ _ p2 id1 (oppositeSide_ordered b order.side hmap)).mpr
        hmem2
    have h3 := (hcons id1 p order.side).mpr hrests
    have h4 := (hcons id1 p2 order.side.opposite).mpr hrests2
    rw [h3] at h4
    simp only [Option.some.injEq, Prod.mk.injEq] at h4
    exact OrderSide.opposite_ne order.side h4.2
  · intro hno
    have hoppne : ∀ e ∈ oppositeSide b order.side, e.2.orders ≠ [] := by
      intro e he
      apply hne e
      cases hs : order.side <;> simp [oppositeSide, hs] at he <;> simp [he]
    have hsw := sweepLevels_no_trades b.symbol_ (decide (order.side = OrderSide.BUY)) order
      (oppositeSide b order.side) b.order_lookup_ hoppne hno
    apply book_ext_sides _ _ order.side
    · exact sweepBook_symbol b order _
    · exact ownSide_sweepBook b order
    · rw [oppositeSide_sweepBook, hsw]
    · rw [lookup_sweepBook, hsw]

/-- The book of scenario S3 is reached from the empty book by its two submissions, so it
is side-index consistent. -/
theorem bookS3_consistent :
    MapOrdered bookS3 ∧ LookupDistinct bookS3.order_lookup_ ∧ SideIndexConsistent bookS3 := by
  obtain ⟨b, hb, h⟩ := applyCalls_consistent "BTC-USDT"
    [Call.addOrder (mkOrder 10 OrderSide.BUY OrderType.LIMIT 4 (some 50)),
     Call.addOrder (mkOrder 11 OrderSide.BUY OrderType.LIMIT 4 (some 50))] (by decide)
  have hb2 : applyCalls (OrderBook.new "BTC-USDT")
      [Call.addOrder (mkOrder 10 OrderSide.BUY OrderType.LIMIT 4 (some 50)),
       Call.addOrder (mkOrder 11 OrderSide.BUY OrderType.LIMIT 4 (some 50))] = some bookS3 := by
    decide
  rw [hb2] at hb
  simp only [Option.some.injEq] at hb
  rw [hb]
  exact h

theorem bookS3_not_resting (id : OrderId)
    (h : Lookup.find bookS3.order_lookup_ id = none) :
    ∀ side p, ¬ RestsAt (ownSide bookS3 side) p id := by
  intro side p hrests
  have := (bookS3_consistent.2.2 id p side).mpr hrests
  rw [h] at this
  simp at this

theorem submit_cancel_round_trip_witness :
    MapOrdered bookS3 ∧ SideIndexConsistent bookS3
      ∧ (∀ e ∈ bookS3.bids_ ++ bookS3.asks_, e.2.orders ≠ [])
      ∧ (∀ e ∈ bookS3.bids_ ++ bookS3.asks_, e.2.price = e.1)
      ∧ (0 : Quantity) < 3
      ∧ (∀ side p, ¬ RestsAt (ownSide bookS3 side) p 12)
      ∧ ∃ r, addOrder bookS3 (mkOrder 12 OrderSide.BUY OrderType.LIMIT 3 (some 50)) = some r
        ∧ ownSide (cancelOrder r.book 12).book OrderSide.BUY = ownSide bookS3 OrderSide.BUY
        ∧ (∀ id p, RestsAt (ownSide bookS3 OrderSide.BUY) p id →
            Lookup.find (cancelOrder r.book 12).book.order_lookup_ id
              = Lookup.find bookS3.order_lookup_ id)
        ∧ (tradesOf r.events = [] → (cancelOrder r.book 12).book = bookS3)
        ∧ ((cancelOrder r.book 12).ret = true
            ↔ 0 < 3 - tradedQuantity (tradesOf r.events)) :=
  ⟨bookS3_consistent.1, bookS3_consistent.2.2, by decide, by decide, by decide,
   bookS3_not_resting 12 (by decide),
   submit_cancel_round_trip bookS3 (mkOrder 12 OrderSide.BUY OrderType.LIMIT 3 (some 50)) 50
     bookS3_consistent.1 bookS3_consistent.2.2 (by decide) (by decide) rfl rfl (by decide)
     (bookS3_not_resting 12 (by decide))⟩

/-! ## Cancel and modify on the book of scenario S3 -/

theorem cancelOrder_removes_witness :
    MapOrdered bookS3 ∧ LookupDistinct bookS3.order_lookup_ ∧ SideIndexConsistent bookS3
      ∧ ((cancelOrder bookS3 10).ret = true ↔ Lookup.find bookS3.order_lookup_ 10 ≠ none)
      ∧ ((cancelOrder bookS3 10).ret = false →
          (cancelOrder bookS3 10).book = bookS3 ∧ (cancelOrder bookS3 10).events = [])
      ∧ (∀ p side, Lookup.find bookS3.order_lookup_ 10 = some (p, side) →
          ∃ level o xs ys, Ladder.find (ownSide bookS3 side) p = some level
            ∧ level.orders = xs ++ o :: ys ∧ o.id = 10 ∧ (∀ x ∈ xs, x.id ≠ 10)
            ∧ Ladder.find (ownSide (cancelOrder bookS3 10).book side) p
                = (if xs ++ ys = [] then none
                   else some { level with
                               total_quantity := level.total_quantity - o.quantity,
                               orders := xs ++ ys })
            ∧ (∀ p1, p1 ≠ p →
                Ladder.find (ownSide (cancelOrder bookS3 10).book side) p1
                  = Ladder.find (ownSide bookS3 side) p1)
            ∧ oppositeSide (cancelOrder bookS3 10).book side = oppositeSide bookS3 side
            ∧ Lookup.find (cancelOrder bookS3 10).book.order_lookup_ 10 = none
            ∧ (∀ id1, id1 ≠ 10 →
                Lookup.find (cancelOrder bookS3 10).book.order_lookup_ id1
                  = Lookup.find bookS3.order_lookup_ id1)
            ∧ (cancelOrder bookS3 10).book.symbol_ = bookS3.symbol_)
      ∧ (cancelOrder (cancelOrder bookS3 10).book 10).ret = false
      ∧ (cancelOrder (cancelOrder bookS3 10).book 10).book = (cancelOrder bookS3 10).book :=
  ⟨bookS3_consistent.1, bookS3_consistent.2.1, bookS3_consistent.2.2,
   cancelOrder_removes bookS3 10 bookS3_consistent.1 bookS3_consistent.2.1
     bookS3_consistent.2.2⟩

theorem modifyOrder_quantity_only_witness :
    SideIndexConsistent bookS3
      ∧ ((∀ side p, ¬ RestsAt (ownSide bookS3 side) p 11) →
          modifyOrder bookS3 11 9 = { ret := false, book := bookS3, events := [] })
      ∧ (∀ p side, RestsAt (ownSide bookS3 side) p 11 →
          ∃ level o xs ys, Ladder.find (ownSide bookS3 side) p = some level
            ∧ level.orders = xs ++ o :: ys ∧ o.id = 11 ∧ (∀ x ∈ xs, x.id ≠ 11)
            ∧ (modifyOrder bookS3 11 9).ret = true
            ∧ Ladder.find (ownSide (modifyOrder bookS3 11 9).book side) p
                = some { level with
                         total_quantity := level.total_quantity - o.quantity + 9,
                         orders := xs ++ { o with quantity := 9 } :: ys }
            ∧ (xs ++ { o with quantity := 9 } :: ys).map (fun x => x.id)
                = level.orders.map (fun x => x.id)
            ∧ (∀ p1, p1 ≠ p →
                Ladder.find (ownSide (modifyOrder bookS3 11 9).book side) p1
                  = Ladder.find (ownSide bookS3 side) p1)
            ∧ (ownSide (modifyOrder bookS3 11 9).book side).map Prod.fst
                = (ownSide bookS3 side).map Prod.fst
            ∧ oppositeSide (modifyOrder bookS3 11 9).book side = oppositeSide bookS3 side
            ∧ (modifyOrder bookS3 11 9).book.order_lookup_ = bookS3.order_lookup_
            ∧ (modifyOrder bookS3 11 9).book.symbol_ = bookS3.symbol_) :=
  ⟨bookS3_consistent.2.2, modifyOrder_quantity_only bookS3 11 9 bookS3_consistent.2.2⟩

/-! ## The registry of books -/

theorem Registry.registry_split (s : String) (book : OrderBook) (r : Registry)
    (h : Registry.find r s = some book) :
    ∃ xs ys, r = xs ++ (s, book) :: ys ∧ (∀ x ∈ xs, x.1 ≠ s)
      ∧ ∀ b1, Registry.assign s b1 r = xs ++ (s, b1) :: ys := by
  induction r with
  | nil => simp [Registry.find] at h
  | cons e rest ih =>
    obtain ⟨k, v⟩ := e
    by_cases hk : k = s
    · subst hk
      simp only [Registry.find, if_true, Option.some.injEq] at h
      subst h
      exact ⟨[], rest, rfl, by simp, fun b1 => by simp [Registry.assign]⟩
    · simp only [Registry.find, if_neg hk] at h
      obtain ⟨xs, ys, h1, h2, h3⟩ := ih h
      refine ⟨(k, v) :: xs, ys, by rw [h1]; rfl, ?_, ?_⟩
      · intro x hx
        rcases List.mem_cons.mp hx with rfl | hx
        · exact hk
        · exact h2 x hx
      · intro b1
        simp only [Registry.assign, if_neg hk, h3 b1, List.cons_append]

theorem Registry.assign_absent (s : String) (b0 b1 : OrderBook) (r : Registry)
    (h : Registry.find r s = none) :
    Registry.assign s b1 (r ++ [(s, b0)]) = r ++ [(s, b1)] := by
  induction r with
  | nil => simp [Registry.assign]
  | cons e rest ih =>
    obtain ⟨k, v⟩ := e
    by_cases hk : k = s
    · subst hk
      simp [Registry.find] at h
    · simp only [Registry.find, if_neg hk] at h
      show Registry.assign s b1 ((k, v) :: (rest ++ [(s, b0)])) = (k, v) :: (rest ++ [(s, b1)])
      simp only [Registry.assign, if_neg hk, ih h]

theorem Registry.find_none_iff (s : String) (r : Registry) :
    Registry.find r s = none ↔ s ∉ r.map Prod.fst := by
  induction r with
  | nil => simp [Registry.find]
  | cons e rest ih =>
    obtain ⟨k, v⟩ := e
    by_cases hk : k = s
    · subst hk
      simp [Registry.find]
    · simp only [Registry.find, if_neg hk, ih, List.map_cons, List.mem_cons, not_or]
      constructor
      · intro h
        exact ⟨fun h1 => hk h1.symm, h⟩
      · intro h
        exact h.2

theorem Registry.assign_keys (s : String) (b1 : OrderBook) (r : Registry) :
    (Registry.assign s b1 r).map Prod.fst = r.map Prod.fst := by
  induction r with
  | nil => rfl
  | cons e rest ih =>
    obtain ⟨k, v⟩ := e
    by_cases hk : k = s
    · simp [Registry.assign, hk]
    · simp [Registry.assign, hk, ih]

/-- Claim C20: books are created only by SUBMIT.  For a symbol with no book in the
registry, `MatchingEngine::getBBO` returns a BBO with its four fields absent and
`MatchingEngine::getOrderBookDepth` returns the empty sequence (both are functions of the
engine and give no new engine); handling a CANCEL or MODIFY event for it leaves the engine
unchanged and calls no sink; handling a SUBMIT event for it adds one entry to the
registry, the result of `addOrder` on the fresh book of that symbol, and leaves the
entries already there as they were.  For a symbol with a book, a SUBMIT event replaces
that book by the result of `addOrder` on it and leaves every other entry as it was.  An
event that is no SUBMIT never changes the symbols of the registry. -/
theorem books_created_only_by_submit (e : MatchingEngine) (event : OrderEvent)
    (levels : Nat) :
    (Registry.find e.order_books_ event.symbol = none →
        MatchingEngine.getBBO e event.symbol
            = { best_bid := none, best_offer := none, best_bid_quantity := none,
                best_offer_quantity := none }
          ∧ MatchingEngine.getOrderBookDepth e event.symbol levels = []
          ∧ (event.type ≠ OrderEventType.SUBMIT → handleOrderEvent e event = some (e, []))
          ∧ (event.type = OrderEventType.SUBMIT →
              ∃ r, addOrder (OrderBook.new event.symbol) event.order = some r
                ∧ handleOrderEvent e event
                    = some ({ e with
                              order_books_ := e.order_books_ ++ [(event.symbol, r.book)] },
                            r.events)))
      ∧ (∀ book, Registry.find e.order_books_ event.symbol = some book →
          event.type = OrderEventType.SUBMIT →
            ∃ r xs ys, addOrder book event.order = some r
              ∧ e.order_books_ = xs ++ (event.symbol, book) :: ys
              ∧ (∀ x ∈ xs, x.1 ≠ event.symbol)
              ∧ handleOrderEvent e event
                  = some ({ e with order_books_ := xs ++ (event.symbol, r.book) :: ys },
                          r.events))
      ∧ (event.type ≠ OrderEventType.SUBMIT →
          ∃ e1 events, handleOrderEvent e event = some (e1, events)
            ∧ e1.order_books_.map Prod.fst = e.order_books_.map Prod.fst) := by
  refine ⟨?_, ?_, ?_⟩
  · intro hnone
    refine ⟨?_, ?_, ?_, ?_⟩
    · simp only [MatchingEngine.getBBO, hnone]
    · simp only [MatchingEngine.getOrderBookDepth, hnone]
    · intro htype
      cases ht : event.type with
      | SUBMIT => exact absurd ht htype
      | CANCEL => simp only [handleOrderEvent, ht, hnone]
      | MODIFY => simp only [handleOrderEvent, ht, hnone]
    · intro htype
      refine ⟨addOrderOutcome (OrderBook.new event.symbol) event.order, addOrder_eq _ _, ?_⟩
      simp only [handleOrderEvent, htype, getOrCreateOrderBook, hnone, addOrder_eq,
        Registry.assign_absent event.symbol _ _ e.order_books_ hnone]
  · intro book hfind htype
    obtain ⟨xs, ys, h1, h2, h3⟩ := Registry.registry_split event.symbol book e.order_books_ hfind
    refine ⟨addOrderOutcome book event.order, xs, ys, addOrder_eq _ _, h1, h2, ?_⟩
    simp only [handleOrderEvent, htype, getOrCreateOrderBook, hfind, addOrder_eq, h3]
  · intro htype
    cases ht : event.type with
    | SUBMIT => exact absurd ht htype
    | CANCEL =>
      cases hf : Registry.find e.order_books_ event.symbol with
      | none => exact ⟨e, [], by simp only [handleOrderEvent, ht, hf], rfl⟩
      | some book =>
        have hstep : handleOrderEvent e event
            = some (⟨Registry.assign event.symbol (cancelOrder book event.order_id).book
                      e.order_books_, e.running_, e.order_queue_⟩,
                    (cancelOrder book event.order_id).events) := by
          simp only [handleOrderEvent, ht, hf]
        exact ⟨_, _, hstep, Registry.assign_keys _ _ _⟩
    | MODIFY =>
      cases hf : Registry.find e.order_books_ event.symbol with
      | none => exact ⟨e, [], by simp only [handleOrderEvent, ht, hf], rfl⟩
      | some book =>
        have hstep : handleOrderEvent e event
            = some (⟨Registry.assign event.symbol
                      (modifyOrder book event.order_id event.new_quantity).book
                      e.order_books_, e.running_, e.order_queue_⟩,
                    (modifyOrder book event.order_id event.new_quantity).events) := by
          simp only [handleOrderEvent, ht, hf]
        exact ⟨_, _, hstep, Registry.assign_keys _ _ _⟩

/-! ## Levels carry their key -/

theorem sweepLevels_priced (symbol_ : String) (is_buy : Bool) (opp : Ladder) :
    (∀ e ∈ opp, e.2.price = e.1) → ∀ (order : Order) (lk : Lookup),
      ∀ e ∈ (sweepLevels symbol_ is_buy order opp lk).opposite_side, e.2.price = e.1 := by
  induction opp with
  | nil => intro _ order lk e he; simp [sweepLevels] at he
  | cons e0 rest ih =>
    obtain ⟨p, l⟩ := e0
    intro hk order lk
    have hl : l.price = p := hk (p, l) (List.mem_cons_self _ _)
    have hrest : ∀ e ∈ rest, e.2.price = e.1 := fun e he => hk e (List.mem_cons_of_mem _ he)
    refine sweepLevels_cases symbol_ is_buy order p l rest lk
      (fun s => ∀ e ∈ s.opposite_side, e.2.price = e.1) ?_ ?_ ?_
    · intro _; exact hk
    · intro _ _ _; exact ih hrest _ _
    · intro _ _ _ _ e he
      rcases List.mem_cons.mp he with rfl | he
      · exact hl
      · exact hrest e he

theorem Ladder.update_priced (d : Bool) (P : Price) (f : OrderBookLevel → OrderBookLevel)
    (m : Ladder) (hm : ∀ e ∈ m, e.2.price = e.1) (hf : ∀ l, (f l).price = P) :
    ∀ e ∈ Ladder.update d P f m, e.2.price = e.1 := by
  induction m with
  | nil => intro e he; simp [Ladder.update] at he; rw [he]; exact hf _
  | cons e0 rest ih =>
    obtain ⟨k, l⟩ := e0
    have hl : l.price = k := hm (k, l) (List.mem_cons_self _ _)
    have hrest : ∀ e ∈ rest, e.2.price = e.1 := fun e he => hm e (List.mem_cons_of_mem _ he)
    intro e he
    by_cases hk : k = P
    · simp only [Ladder.update, hk, if_true, List.mem_cons] at he
      rcases he with rfl | he
      · exact hf l
      · exact hrest e he
    · by_cases hb : keyBefore d P k = true
      · simp only [Ladder.update, hk, hb, if_true, if_false, List.mem_cons] at he
        rcases he with rfl | rfl | he
        · exact hf _
        · exact hl
        · exact hrest e he
      · simp only [Ladder.update, hk, hb, if_false, List.mem_cons, Bool.false_eq_true] at he
        rcases he with rfl | he
        · exact hl
        · exact ih hrest e he

theorem removeFromLadder_priced (id : OrderId) (p : Price) (m : Ladder)
    (h : ∀ e ∈ m, e.2.price = e.1) : ∀ e ∈ removeFromLadder id p m, e.2.price = e.1 := by
  unfold removeFromLadder
  split
  · exact h
  · rename_i level hfind
    split
    · exact h
    · rename_i found hfound
      have hl : level.price = p := h (p, level) (Ladder.find_mem m p level hfind)
      simp only
      split_ifs with hempty
      · intro e he; exact h e (Ladder.mem_erase p m e he)
      · intro e he
        rcases Ladder.mem_assign p _ m e he with he | rfl
        · exact h e he
        · exact hl

theorem modifyInLadder_priced (id : OrderId) (p : Price) (q : Quantity) (m m1 : Ladder)
    (h : ∀ e ∈ m, e.2.price = e.1) (hm : modifyInLadder id p q m = some m1) :
    ∀ e ∈ m1, e.2.price = e.1 := by
  unfold modifyInLadder at hm
  split at hm
  · simp at hm
  · rename_i level hfind
    split at hm
    · simp at hm
    · rename_i found hfound
      have hl : level.price = p := h (p, level) (Ladder.find_mem m p level hfind)
      simp only [Option.some.injEq] at hm
      rw [← hm]
      intro e he
      rcases Ladder.mem_assign p _ m e he with he | rfl
      · exact h e he
      · exact hl

theorem priced_of_sides (b : OrderBook) (h1 : ∀ e ∈ b.bids_, e.2.price = e.1)
    (h2 : ∀ e ∈ b.asks_, e.2.price = e.1) : ∀ e ∈ b.bids_ ++ b.asks_, e.2.price = e.1 := by
  intro e he
  rcases List.mem_append.mp he with he | he
  · exact h1 e he
  · exact h2 e he

theorem cancelOrder_priced (b : OrderBook) (id : OrderId)
    (h : ∀ e ∈ b.bids_ ++ b.asks_, e.2.price = e.1) :
    ∀ e ∈ (cancelOrder b id).book.bids_ ++ (cancelOrder b id).book.asks_, e.2.price = e.1 := by
  have h1 : ∀ e ∈ b.bids_, e.2.price = e.1 := fun e he => h e (List.mem_append_left _ he)
  have h2 : ∀ e ∈ b.asks_, e.2.price = e.1 := fun e he => h e (List.mem_append_right _ he)
  cases hf : Lookup.find b.order_lookup_ id with
  | none => rw [cancelOrder_none b id hf]; exact h
  | some entry =>
    obtain ⟨p, side⟩ := entry
    rw [cancelOrder_some b id p side hf]
    apply priced_of_sides
    · cases side
      · simpa [setOwnSide] using removeFromLadder_priced id p _ h1
      · simpa [setOwnSide, ownSide] using h1
    · cases side
      · simpa [setOwnSide] using h2
      · simpa [setOwnSide, ownSide] using removeFromLadder_priced id p _ h2

theorem modifyOrder_priced (b : OrderBook) (id : OrderId) (q : Quantity)
    (h : ∀ e ∈ b.bids_ ++ b.asks_, e.2.price = e.1) :
    ∀ e ∈ (modifyOrder b id q).book.bids_ ++ (modifyOrder b id q).book.asks_,
      e.2.price = e.1 := by
  have h1 : ∀ e ∈ b.bids_, e.2.price = e.1 := fun e he => h e (List.mem_append_left _ he)
  have h2 : ∀ e ∈ b.asks_, e.2.price = e.1 := fun e he => h e (List.mem_append_right _ he)
  unfold modifyOrder
  split
  · exact h
  · split_ifs
    · split
      · rename_i m hm
        exact priced_of_sides _ (modifyInLadder_priced _ _ _ _ _ h1 hm) h2
      · exact h
    · split
      · rename_i m hm
        exact priced_of_sides _ h1 (modifyInLadder_priced _ _ _ _ _ h2 hm)
      · exact h

theorem sweepBook_priced (b : OrderBook) (order : Order)
    (h : ∀ e ∈ b.bids_ ++ b.asks_, e.2.price = e.1) :
    ∀ e ∈ (sweepBook b order (decide (order.side = OrderSide.BUY))).book.bids_
        ++ (sweepBook b order (decide (order.side = OrderSide.BUY))).book.asks_,
      e.2.price = e.1 := by
  have h1 : ∀ e ∈ b.bids_, e.2.price = e.1 := fun e he => h e (List.mem_append_left _ he)
  have h2 : ∀ e ∈ b.asks_, e.2.price = e.1 := fun e he => h e (List.mem_append_right _ he)
  apply priced_of_sides
  · cases hs : order.side
    · simpa [sweepBook] using h1
    · simpa [sweepBook] using sweepLevels_priced _ _ _ h1 _ _
  · cases hs : order.side
    · simpa [sweepBook] using sweepLevels_priced _ _ _ h2 _ _
    · simpa [sweepBook] using h2

theorem addToBook_priced (b : OrderBook) (order : Order)
    (h : ∀ e ∈ b.bids_ ++ b.asks_, e.2.price = e.1) :
    ∀ e ∈ (addToBook b order).1.bids_ ++ (addToBook b order).1.asks_, e.2.price = e.1 := by
  have h1 : ∀ e ∈ b.bids_, e.2.price = e.1 := fun e he => h e (List.mem_append_left _ he)
  have h2 : ∀ e ∈ b.asks_, e.2.price = e.1 := fun e he => h e (List.mem_append_right _ he)
  apply priced_of_sides
  · cases hs : order.side
    · simp only [addToBook, hs, if_true]
      exact Ladder.update_priced _ _ _ _ h1 (fun _ => rfl)
    · simpa [addToBook, hs] using h1
  · cases hs : order.side
    · simpa [addToBook, hs] using h2
    · simp only [addToBook, hs]
      exact Ladder.update_priced _ _ _ _ h2 (fun _ => rfl)

theorem addOrder_priced (b : OrderBook) (order : Order)
    (h : ∀ e ∈ b.bids_ ++ b.asks_, e.2.price = e.1) :
    ∀ e ∈ (addOrderOutcome b order).book.bids_ ++ (addOrderOutcome b order).book.asks_,
      e.2.price = e.1 := by
  by_cases hv : order.type = OrderType.LIMIT ∧ order.price = none
  · unfold addOrderOutcome; rw [if_pos hv]; exact h
  · by_cases hq : order.quantity ≤ 0
    · unfold addOrderOutcome; rw [if_neg hv, if_pos hq]; exact h
    · rw [addOrderOutcome_book b order hv (not_le.mp hq)]
      split_ifs
      · exact addToBook_priced _ _ (sweepBook_priced b order h)
      · exact sweepBook_priced b order h

/-- Every book reached from an empty book by calls that submit distinct ids meets the
conditions of the round trip: ordered ladders, a consistent side index, levels that hold
an order and levels that carry their key as `price`. -/
theorem applyCalls_round_trip_conditions (symbol : String) (calls : List Call)
    (hfresh : (submittedIds calls).Nodup) :
    ∃ b, applyCalls (OrderBook.new symbol) calls = some b
      ∧ MapOrdered b ∧ SideIndexConsistent b
      ∧ (∀ e ∈ b.bids_ ++ b.asks_, e.2.orders ≠ [])
      ∧ (∀ e ∈ b.bids_ ++ b.asks_, e.2.price = e.1) := by
  obtain ⟨b, hb, hmap, _, hcons⟩ := applyCalls_consistent symbol calls hfresh
  obtain ⟨b1, hb1, _, _, hkept⟩ := applyCalls_ladders symbol calls
  obtain ⟨b2, hb2, hpriced⟩ := applyCalls_invariant
    (fun b => ∀ e ∈ b.bids_ ++ b.asks_, e.2.price = e.1)
    addOrder_priced cancelOrder_priced modifyOrder_priced calls (OrderBook.new symbol)
    (by intro e he; simp [OrderBook.new] at he)
  rw [hb] at hb1 hb2
  simp only [Option.some.injEq] at hb1 hb2
  subst hb1
  subst hb2
  refine ⟨b, hb, hmap, hcons, ?_, hpriced⟩
  intro e he
  rcases List.mem_append.mp he with he | he
  · exact (hkept.1 e he).1
  · exact (hkept.2 e he).1

/-! ## Zero-quantity submissions and positive quantities -/

/-- Claim C26: for every book and every order of any type and side with quantity 0,
`addOrder` returns, emits no trade and calls no sink at all, and leaves the whole book
(`bids_`, `asks_`, `order_lookup_`) as it was, so the order does not rest; it returns
`false` exactly for a LIMIT order without a price. -/
theorem addOrder_zero_quantity (b : OrderBook) (order : Order) (hq : order.quantity = 0) :
    ∃ r, addOrder b order = some r
      ∧ tradesOf r.events = [] ∧ r.events = []
      ∧ r.book = b
      ∧ r.book.bids_ = b.bids_ ∧ r.book.asks_ = b.asks_
      ∧ r.book.order_lookup_ = b.order_lookup_
      ∧ (r.ret = false ↔ (order.type = OrderType.LIMIT ∧ order.price = none)) := by
  refine ⟨addOrderOutcome b order, addOrder_eq b order, ?_⟩
  have hle : order.quantity ≤ 0 := le_of_eq hq
  by_cases hv : order.type = OrderType.LIMIT ∧ order.price = none
  · simp only [addOrderOutcome, if_pos hv, tradesOf, true_and]
    simp [hv]
  · simp only [addOrderOutcome, if_neg hv, if_pos hle, tradesOf, true_and]
    simp [hv]

theorem addOrder_zero_quantity_witness :
    (mkOrder 40 OrderSide.BUY OrderType.MARKET 0 none).quantity = 0
      ∧ ∃ r, addOrder bookS4 (mkOrder 40 OrderSide.BUY OrderType.MARKET 0 none) = some r
        ∧ tradesOf r.events = [] ∧ r.events = []
        ∧ r.book = bookS4
        ∧ r.book.bids_ = bookS4.bids_ ∧ r.book.asks_ = bookS4.asks_
        ∧ r.book.order_lookup_ = bookS4.order_lookup_
        ∧ (r.ret = false ↔
            ((mkOrder 40 OrderSide.BUY OrderType.MARKET 0 none).type = OrderType.LIMIT
              ∧ (mkOrder 40 OrderSide.BUY OrderType.MARKET 0 none).price = none)) :=
  ⟨rfl, addOrder_zero_quantity bookS4 (mkOrder 40 OrderSide.BUY OrderType.MARKET 0 none) rfl⟩

theorem matchLevel_trades_positive (symbol_ : String) (price : Price) (os : List Order) :
    (∀ o ∈ os, 0 < o.quantity) → ∀ (order : Order) (tq : Quantity) (lk : Lookup),
      ∀ t ∈ (matchLevel symbol_ price order os tq lk).trades, 0 < t.quantity := by
  induction os with
  | nil => intro _ order tq lk t ht; simp [matchLevel] at ht
  | cons it rest ih =>
    intro hpos order tq lk t ht
    have hit : 0 < it.quantity := hpos it (List.mem_cons_self _ _)
    have hrest : ∀ o ∈ rest, 0 < o.quantity := fun o ho => hpos o (List.mem_cons_of_mem _ ho)
    by_cases hq : order.quantity ≤ 0
    · rw [matchLevel_nonpos _ _ _ _ _ _ hq] at ht
      simp at ht
    · have hq1 : 0 < order.quantity := not_le.mp hq
      unfold matchLevel at ht
      simp only [if_neg hq] at ht
      split_ifs at ht
      · simp only [List.mem_cons] at ht
        rcases ht with rfl | ht
        · exact lt_min hq1 hit
        · exact ih hrest _ _ _ t ht
      · simp only [List.mem_cons] at ht
        rcases ht with rfl | ht
        · exact lt_min hq1 hit
        · exact ih hrest _ _ _ t ht

theorem sweepLevels_trades_positive (symbol_ : String) (is_buy : Bool) (opp : Ladder) :
    LadderPositive opp → ∀ (order : Order) (lk : Lookup),
      ∀ t ∈ (sweepLevels symbol_ is_buy order opp lk).trades, 0 < t.quantity := by
  induction opp with
  | nil => intro _ order lk t ht; simp [sweepLevels] at ht
  | cons e0 rest ih =>
    obtain ⟨p, l⟩ := e0
    intro hpos order lk
    have hl : ∀ o ∈ l.orders, 0 < o.quantity := hpos (p, l) (List.mem_cons_self _ _)
    have hrest : LadderPositive rest := fun e he => hpos e (List.mem_cons_of_mem _ he)
    refine sweepLevels_cases symbol_ is_buy order p l rest lk
      (fun s => ∀ t ∈ s.trades, 0 < t.quantity) ?_ ?_ ?_
    · intro _ t ht; simp at ht
    · intro _ _ _ t ht
      rcases List.mem_append.mp ht with ht | ht
      · exact matchLevel_trades_positive _ _ _ hl _ _ _ t ht
      · exact ih hrest _ _ t ht
    · intro _ _ _ _ t ht
      exact matchLevel_trades_positive _ _ _ hl _ _ _ t ht


theorem modifyInLadder_mem (id : OrderId) (p : Price) (q : Quantity) (m m1 : Ladder)
    (hm : modifyInLadder id p q m = some m1) :
    ∃ e ∈ m1, ∃ o ∈ e.2.orders, o.quantity = q := by
  unfold modifyInLadder at hm
  split at hm
  · simp at hm
  · rename_i level hfind
    split at hm
    · simp at hm
    · rename_i found hfound
      obtain ⟨xs, ys, _, _, _, _, h5⟩ := find_split q id level.orders found hfound
      simp only [Option.some.injEq] at hm
      rw [← hm]
      refine ⟨(p, _), Ladder.find_mem _ p _ (Ladder.find_assign_self p _ level m hfind), ?_⟩
      refine ⟨{ found with quantity := q }, ?_, rfl⟩
      simp only [h5]
      simp

theorem modifyOrder_nonpositive (b : OrderBook) (id : OrderId) (q : Quantity) (hq : q ≤ 0)
    (hret : (modifyOrder b id q).ret = true) :
    ¬ QuantitiesPositive (modifyOrder b id q).book := by
  intro hpos
  have key : ∃ e ∈ (modifyOrder b id q).book.bids_ ++ (modifyOrder b id q).book.asks_,
      ∃ o ∈ e.2.orders, o.quantity = q := by
    cases hf : Lookup.find b.order_lookup_ id with
    | none =>
      rw [modifyOrder_none b id q hf] at hret
      simp at hret
    | some entry =>
      obtain ⟨p, side⟩ := entry
      rw [modifyOrder_some b id q p side hf] at hret ⊢
      cases hm : modifyInLadder id p q (ownSide b side) with
      | none => rw [hm] at hret; simp at hret
      | some m1 =>
        obtain ⟨e, he, o, ho, hoq⟩ := modifyInLadder_mem id p q _ m1 hm
        refine ⟨e, ?_, o, ho, hoq⟩
        cases side
        · simp [setOwnSide, he]
        · simp [setOwnSide, he]
  obtain ⟨e, he, o, ho, hoq⟩ := key
  have h0 : 0 < o.quantity := by
    rcases List.mem_append.mp he with he | he
    · exact hpos.1 e he o ho
    · exact hpos.2 e he o ho
  rw [hoq] at h0
  exact absurd h0 (not_lt.mpr hq)

/-- Claim C25: on a book in which every resting order has a positive quantity, `addOrder`
with any order, `cancelOrder` with any id, and `modifyOrder` with any id and a positive
`new_quantity` leave a book in which every resting order has a positive quantity, and
every trade emitted by that `addOrder` has a positive quantity.  A `modifyOrder` that
returns `true` with `new_quantity ≤ 0` leaves a resting order with a non-positive
quantity; after one (a buy of 7 at 99 modified to 0) a crossing sell emits a trade of
quantity 0. -/
theorem positive_quantities_preserved (b : OrderBook) (order : Order) (id : OrderId)
    (q : Quantity) (h : QuantitiesPositive b) :
    (∃ r, addOrder b order = some r
        ∧ QuantitiesPositive r.book
        ∧ ∀ t ∈ tradesOf r.events, 0 < t.quantity)
      ∧ QuantitiesPositive (cancelOrder b id).book
      ∧ (0 < q → QuantitiesPositive (modifyOrder b id q).book)
      ∧ (q ≤ 0 → (modifyOrder b id q).ret = true →
          ¬ QuantitiesPositive (modifyOrder b id q).book)
      ∧ (∃ b1 r, applyCalls (OrderBook.new "BTC-USDT")
              [Call.addOrder (mkOrder 30 OrderSide.BUY OrderType.LIMIT 7 (some 99)),
               Call.modifyOrder 30 0] = some b1
          ∧ addOrder b1 (mkOrder 31 OrderSide.SELL OrderType.LIMIT 5 (some 99)) = some r
          ∧ (tradesOf r.events).map (fun t => t.quantity) = [0]) := by
  refine ⟨⟨addOrderOutcome b order, addOrder_eq b order, addOrder_positive b order h, ?_⟩,
    cancelOrder_positive b id h, fun hq => modifyOrder_positive b id q hq h,
    fun hq hret => modifyOrder_nonpositive b id q hq hret, ?_⟩
  · intro t ht
    rw [tradesOf_addOrderOutcome] at ht
    split_ifs at ht
    · simp at ht
    · refine sweepLevels_trades_positive _ _ _ ?_ _ _ t ht
      cases hs : order.side
      · simpa [oppositeSide] using h.2
      · simpa [oppositeSide] using h.1
  · exact ⟨(modifyOrder (addOrderOutcome (OrderBook.new "BTC-USDT")
        (mkOrder 30 OrderSide.BUY OrderType.LIMIT 7 (some 99))).book 30 0).book,
      addOrderOutcome (modifyOrder (addOrderOutcome (OrderBook.new "BTC-USDT")
        (mkOrder 30 OrderSide.BUY OrderType.LIMIT 7 (some 99))).book 30 0).book
        (mkOrder 31 OrderSide.SELL OrderType.LIMIT 5 (some 99)),
      by decide, by decide, by decide⟩

theorem bookS4_positive : QuantitiesPositive bookS4 := by
  constructor
  · intro e he; simp [bookS4] at he
  · intro e he o ho
    simp only [bookS4, List.mem_cons, List.mem_singleton, List.not_mem_nil, or_false] at he
    rcases he with rfl | rfl
    · simp only [List.mem_singleton] at ho
      rw [ho]; decide
    · simp only [List.mem_singleton] at ho
      rw [ho]; decide

theorem positive_quantities_preserved_witness :
    QuantitiesPositive bookS4
      ∧ (∃ r, addOrder bookS4 (mkOrder 20 OrderSide.BUY OrderType.LIMIT 4 (some 101)) = some r
          ∧ QuantitiesPositive r.book
          ∧ ∀ t ∈ tradesOf r.events, 0 < t.quantity)
      ∧ QuantitiesPositive (cancelOrder bookS4 2).book
      ∧ ((0 : Quantity) < 9 → QuantitiesPositive (modifyOrder bookS4 2 9).book)
      ∧ ((9 : Quantity) ≤ 0 → (modifyOrder bookS4 2 9).ret = true →
          ¬ QuantitiesPositive (modifyOrder bookS4 2 9).book)
      ∧ (∃ b1 r, applyCalls (OrderBook.new "BTC-USDT")
              [Call.addOrder (mkOrder 30 OrderSide.BUY OrderType.LIMIT 7 (some 99)),
               Call.modifyOrder 30 0] = some b1
          ∧ addOrder b1 (mkOrder 31 OrderSide.SELL OrderType.LIMIT 5 (some 99)) = some r
          ∧ (tradesOf r.events).map (fun t => t.quantity) = [0]) :=
  ⟨bookS4_positive,
   positive_quantities_preserved bookS4
     (mkOrder 20 OrderSide.BUY OrderType.LIMIT 4 (some 101)) 2 9 bookS4_positive⟩

/-! ## Completeness of the sweep -/

theorem matchLevel_trades_length (symbol_ : String) (price : Price) (os : List Order) :
    ∀ (order : Order) (tq : Quantity) (lk : Lookup),
      (matchLevel symbol_ price order os tq lk).trades.length ≤ os.length := by
  induction os with
  | nil => intro order tq lk; simp [matchLevel]
  | cons it rest ih =>
    intro order tq lk
    by_cases hq : order.quantity ≤ 0
    · rw [matchLevel_nonpos _ _ _ _ _ _ hq]
      simp
    · unfold matchLevel
      simp only [if_neg hq]
      split_ifs
      · simp only [List.length_cons]
        exact Nat.succ_le_succ (ih _ _ _)
      · simp only [List.length_cons]
        exact Nat.succ_le_succ (ih _ _ _)

theorem sweepLevels_trades_length (symbol_ : String) (is_buy : Bool) (opp : Ladder) :
    ∀ (order : Order) (lk : Lookup),
      (sweepLevels symbol_ is_buy order opp lk).trades.length
        ≤ (opp.map (fun e => e.2.orders.length)).sum := by
  induction opp with
  | nil => intro order lk; simp [sweepLevels]
  | cons e0 rest ih =>
    obtain ⟨p, l⟩ := e0
    intro order lk
    refine sweepLevels_cases symbol_ is_buy order p l rest lk
      (fun s => s.trades.length ≤ (((p, l) :: rest).map (fun e => e.2.orders.length)).sum)
      ?_ ?_ ?_
    · intro _; simp
    · intro _ _ _
      simp only [List.length_append, List.map_cons, List.sum_cons]
      exact Nat.add_le_add (matchLevel_trades_length _ _ _ _ _ _) (ih _ _)
    · intro _ _ _ _
      simp only [List.map_cons, List.sum_cons]
      exact Nat.le_trans (matchLevel_trades_length _ _ _ _ _ _) (Nat.le_add_right _ _)

/-- Claim C22: on a book whose ladders are ordered as their maps keep them, the matching
sweep of `matchAgainstSide` for an order with a positive quantity (of any type, with or
without a price) returns after at most as many fill steps as there are orders resting on
the opposite side, and then either the remaining quantity of the order is 0 or it is
positive and no remaining level of the opposite side crosses the order: for a buy with
price `P` every remaining ask price is above `P`, for a sell with price `P` every
remaining bid price is below `P`, for a buy without price `asks_` is empty, and for a
sell without price no remaining bid has a price `≥ 0`.  For an order that passes the
validation of `addOrder`, the trades and the opposite side of `addOrder` are those of
this sweep. -/
theorem sweep_completeness (b : OrderBook) (order : Order) (hmap : MapOrdered b)
    (hq : 0 < order.quantity) :
    ∃ st, matchAgainstSide b order (decide (order.side = OrderSide.BUY)) = some st
      ∧ (tradesOf st.events).length
          ≤ ((oppositeSide b order.side).map (fun e => e.2.orders.length)).sum
      ∧ (st.order.quantity = 0
          ∨ (0 < st.order.quantity
              ∧ ∀ e ∈ oppositeSide st.book order.side,
                  ¬ crosses order.side order.price e.1))
      ∧ (∀ P, order.side = OrderSide.BUY → order.price = some P →
          st.order.quantity = 0 ∨ ∀ e ∈ st.book.asks_, e.1 > P)
      ∧ (∀ P, order.side = OrderSide.SELL → order.price = some P →
          st.order.quantity = 0 ∨ ∀ e ∈ st.book.bids_, e.1 < P)
      ∧ (order.side = OrderSide.BUY → order.price = none →
          st.order.quantity = 0 ∨ st.book.asks_ = [])
      ∧ (order.side = OrderSide.SELL → order.price = none →
          st.order.quantity = 0 ∨ ∀ e ∈ st.book.bids_, ¬ e.1 ≥ 0)
      ∧ (¬ (order.type = OrderType.LIMIT ∧ order.price = none) →
          ∃ r, addOrder b order = some r
            ∧ tradesOf r.events = tradesOf st.events
            ∧ oppositeSide r.book order.side = oppositeSide st.book order.side) := by
  refine ⟨sweepBook b order (decide (order.side = OrderSide.BUY)),
    matchAgainstSide_eq b order _, ?_⟩
  have hres : (sweepBook b order (decide (order.side = OrderSide.BUY))).order.quantity
      = (sweepLevels b.symbol_ (decide (order.side = OrderSide.BUY)) order
          (oppositeSide b order.side) b.order_lookup_).order.quantity := by
    have h1 := sweepBook_residual b order
    have h2 := sweepLevels_conserve b.symbol_ (decide (order.side = OrderSide.BUY))
      (oppositeSide b order.side) order b.order_lookup_
    linarith
  have hmain : (sweepBook b order (decide (order.side = OrderSide.BUY))).order.quantity = 0
      ∨ (0 < (sweepBook b order (decide (order.side = OrderSide.BUY))).order.quantity
          ∧ ∀ e ∈ oppositeSide (sweepBook b order (decide (order.side = OrderSide.BUY))).book
                order.side, ¬ crosses order.side order.price e.1) := by
    have hnn := sweepLevels_nonneg b.symbol_ (decide (order.side = OrderSide.BUY))
      (oppositeSide b order.side) order b.order_lookup_ (le_of_lt hq)
    rw [← hres] at hnn
    rcases eq_or_lt_of_le hnn with h0 | hpos
    · left; exact h0.symm
    · right
      refine ⟨hpos, ?_⟩
      intro e he hcross
      rw [oppositeSide_sweepBook] at he
      rw [hres] at hpos
      have hord : Ladder.Ordered (!decide (order.side = OrderSide.BUY))
          (oppositeSide b order.side) := by
        have := oppositeSide_ordered b order.side hmap
        cases hs : order.side
        · simpa [hs] using this
        · simpa [hs] using this
      have hcm := sweepLevels_exit b.symbol_ (decide (order.side = OrderSide.BUY))
        (oppositeSide b order.side) hord order b.order_lookup_ hpos e he
      have := (cannotMatch_eq_false_iff order.side order.price e.1).mpr hcross
      rw [this] at hcm
      exact absurd hcm (by decide)
  refine ⟨?_, hmain, ?_, ?_, ?_, ?_, ?_⟩
  · rw [sweepBook_trades]
    exact sweepLevels_trades_length _ _ _ _ _
  · intro P hs hp
    rcases hmain with h0 | ⟨_, hno⟩
    · left; exact h0
    · right
      intro e he
      have := hno e (by simpa [oppositeSide, hs] using he)
      simp only [crosses, hs, hp, not_le] at this
      exact this
  · intro P hs hp
    rcases hmain with h0 | ⟨_, hno⟩
    · left; exact h0
    · right
      intro e he
      have := hno e (by simpa [oppositeSide, hs] using he)
      simp only [crosses, hs, hp, ge_iff_le, not_le] at this
      exact this
  · intro hs hp
    rcases hmain with h0 | ⟨_, hno⟩
    · left; exact h0
    · right
      apply List.eq_nil_iff_forall_not_mem.mpr
      intro e he
      have := hno e (by simpa [oppositeSide, hs] using he)
      simp only [crosses, hs, hp, not_true_eq_false] at this
  · intro hs hp
    rcases hmain with h0 | ⟨_, hno⟩
    · left; exact h0
    · right
      intro e he
      have := hno e (by simpa [oppositeSide, hs] using he)
      simpa only [crosses, hs, hp] using this
  · intro hv
    refine ⟨addOrderOutcome b order, addOrder_eq b order, ?_, ?_⟩
    · rw [tradesOf_addOrderOutcome, sweepBook_trades, if_neg]
      intro h
      rcases h with h | h
      · exact hv h
      · exact absurd hq (not_lt.mpr h)
    · rw [oppositeSide_addOrderOutcome, oppositeSide_sweepBook, if_neg]
      intro h
      rcases h with h | h
      · exact hv h
      · exact absurd hq (not_lt.mpr h)

theorem sweep_completeness_witness :
    MapOrdered bookS4 ∧ (0 : Quantity) < 4
      ∧ ∃ st, matchAgainstSide bookS4 (mkOrder 20 OrderSide.BUY OrderType.LIMIT 4 (some 100))
            (decide (OrderSide.BUY = OrderSide.BUY)) = some st
        ∧ (tradesOf st.events).length
            ≤ ((oppositeSide bookS4 OrderSide.BUY).map (fun e => e.2.orders.length)).sum
        ∧ (st.order.quantity = 0
            ∨ (0 < st.order.quantity
                ∧ ∀ e ∈ oppositeSide st.book OrderSide.BUY,
                    ¬ crosses OrderSide.BUY (some 100) e.1))
        ∧ (∀ P, OrderSide.BUY = OrderSide.BUY → some (100 : Price) = some P →
            st.order.quantity = 0 ∨ ∀ e ∈ st.book.asks_, e.1 > P)
        ∧ (∀ P, OrderSide.BUY = OrderSide.SELL → some (100 : Price) = some P →
            st.order.quantity = 0 ∨ ∀ e ∈ st.book.bids_, e.1 < P)
        ∧ (OrderSide.BUY = OrderSide.BUY → some (100 : Price) = none →
            st.order.quantity = 0 ∨ st.book.asks_ = [])
        ∧ (OrderSide.BUY = OrderSide.SELL → some (100 : Price) = none →
            st.order.quantity = 0 ∨ ∀ e ∈ st.book.bids_, ¬ e.1 ≥ 0)
        ∧ (¬ (OrderType.LIMIT = OrderType.LIMIT ∧ some (100 : Price) = none) →
            ∃ r, addOrder bookS4 (mkOrder 20 OrderSide.BUY OrderType.LIMIT 4 (some 100)) = some r
              ∧ tradesOf r.events = tradesOf st.events
              ∧ oppositeSide r.book OrderSide.BUY = oppositeSide st.book OrderSide.BUY) :=
  ⟨by decide, by decide,
   sweep_completeness bookS4 (mkOrder 20 OrderSide.BUY OrderType.LIMIT 4 (some 100))
     (by decide) (by decide)⟩

/-! ## MARKET orders and the crossing bound -/

theorem oppositeSide_ordered_not (b : OrderBook) (side : OrderSide) (hmap : MapOrdered b) :
    Ladder.Ordered (!decide (side = OrderSide.BUY)) (oppositeSide b side) := by
  have := oppositeSide_ordered b side hmap
  cases side
  · simpa using this
  · simpa using this

theorem sweepBook_quantity (b : OrderBook) (order : Order) :
    (sweepBook b order (decide (order.side = OrderSide.BUY))).order.quantity
      = (sweepLevels b.symbol_ (decide (order.side = OrderSide.BUY)) order
          (oppositeSide b order.side) b.order_lookup_).order.quantity := by
  have h1 := sweepBook_residual b order
  have h2 := sweepLevels_conserve b.symbol_ (decide (order.side = OrderSide.BUY))
    (oppositeSide b order.side) order b.order_lookup_
  linarith

/-- When the sweep returns, the order is filled or nothing that is left crosses it. -/
theorem sweepBook_complete (b : OrderBook) (order : Order) (hmap : MapOrdered b)
    (hq : 0 < order.quantity) :
    (sweepBook b order (decide (order.side = OrderSide.BUY))).order.quantity = 0
      ∨ (0 < (sweepBook b order (decide (order.side = OrderSide.BUY))).order.quantity
          ∧ ∀ e ∈ (sweepLevels b.symbol_ (decide (order.side = OrderSide.BUY)) order
                    (oppositeSide b order.side) b.order_lookup_).opposite_side,
              ¬ crosses order.side order.price e.1) := by
  have hres := sweepBook_quantity b order
  have hnn := sweepLevels_nonneg b.symbol_ (decide (order.side = OrderSide.BUY))
    (oppositeSide b order.side) order b.order_lookup_ (le_of_lt hq)
  rw [← hres] at hnn
  rcases eq_or_lt_of_le hnn with h0 | hpos
  · left; exact h0.symm
  · right
    refine ⟨hpos, ?_⟩
    intro e he hcross
    rw [hres] at hpos
    have hcm := sweepLevels_exit b.symbol_ (decide (order.side = OrderSide.BUY))
      (oppositeSide b order.side) (oppositeSide_ordered_not b order.side hmap) order
      b.order_lookup_ hpos e he
    have := (cannotMatch_eq_false_iff order.side order.price e.1).mpr hcross
    rw [this] at hcm
    exact absurd hcm (by decide)

theorem sweepLevels_trades_cross (b : OrderBook) (order : Order) :
    ∀ t ∈ (sweepLevels b.symbol_ (decide (order.side = OrderSide.BUY)) order
            (oppositeSide b order.side) b.order_lookup_).trades,
      crosses order.side order.price t.price := by
  intro t ht
  exact (cannotMatch_eq_false_iff order.side order.price t.price).mp
    (sweepLevels_trade_fields _ _ _ _ _ t ht).1

/-- Claim C23, counterexample: a MARKET buy of 5 that carries the price 100, against asks
of 2 at 100 and 3 at 101, trades 2 and stops at the level at 101: it is not completely
filled and `asks_` is not empty. -/
theorem market_with_price_is_bounded :
    ∃ r, addOrder bookS4 (mkOrder 20 OrderSide.BUY OrderType.MARKET 5 (some 100)) = some r
      ∧ tradedQuantity (tradesOf r.events) = 2
      ∧ r.book.asks_.map Prod.fst = [101]
      ∧ ¬ (tradedQuantity (tradesOf r.events) = 5 ∨ r.book.asks_ = []) :=
  ⟨addOrderOutcome bookS4 (mkOrder 20 OrderSide.BUY OrderType.MARKET 5 (some 100)),
    by decide, by decide, by decide, by decide⟩

/-- Claim C23 as amended: on a book whose ladders are ordered as their maps keep them, a
MARKET order with a positive quantity is swept with the bound of its price field when it
carries one, and with `+∞` (buy) or `0` (sell) when it carries none; it returns `true`
and never rests.  Every trade crosses that bound, and when the call completes either the
order was completely filled or no remaining opposite level crosses the bound: without a
price, `asks_` is empty after a buy and no bid with price `≥ 0` remains after a sell; with
a price `P`, every remaining ask is above `P` after a buy and every remaining bid is
below `P` after a sell. -/
theorem market_crossing_bound (b : OrderBook) (order : Order) (hmap : MapOrdered b)
    (htype : order.type = OrderType.MARKET) (hq : 0 < order.quantity) :
    ∃ r, addOrder b order = some r ∧ r.ret = true
      ∧ ownSide r.book order.side = ownSide b order.side
      ∧ (∀ t ∈ tradesOf r.events, crosses order.side order.price t.price)
      ∧ (tradedQuantity (tradesOf r.events) = order.quantity
          ∨ ∀ e ∈ oppositeSide r.book order.side, ¬ crosses order.side order.price e.1)
      ∧ (order.side = OrderSide.BUY → order.price = none →
          tradedQuantity (tradesOf r.events) = order.quantity ∨ r.book.asks_ = [])
      ∧ (order.side = OrderSide.SELL → order.price = none →
          tradedQuantity (tradesOf r.events) = order.quantity
            ∨ ∀ e ∈ r.book.bids_, ¬ e.1 ≥ 0)
      ∧ (∀ P, order.side = OrderSide.BUY → order.price = some P →
          tradedQuantity (tradesOf r.events) = order.quantity
            ∨ ∀ e ∈ r.book.asks_, e.1 > P)
      ∧ (∀ P, order.side = OrderSide.SELL → order.price = some P →
          tradedQuantity (tradesOf r.events) = order.quantity
            ∨ ∀ e ∈ r.book.bids_, e.1 < P) := by
  refine ⟨addOrderOutcome b order, addOrder_eq b order, ?_⟩
  have hv : ¬ (order.type = OrderType.LIMIT ∧ order.price = none) := by
    rw [htype]; simp
  have hc : ¬ ((order.type = OrderType.LIMIT ∧ order.price = none) ∨ order.quantity ≤ 0) := by
    intro h
    rcases h with h | h
    · exact hv h
    · exact absurd hq (not_lt.mpr h)
  have hbook : (addOrderOutcome b order).book
      = (sweepBook b order (decide (order.side = OrderSide.BUY))).book := by
    rw [addOrderOutcome_book b order hv hq, htype]
    simp
  have hopp : oppositeSide (addOrderOutcome b order).book order.side
      = (sweepLevels b.symbol_ (decide (order.side = OrderSide.BUY)) order
          (oppositeSide b order.side) b.order_lookup_).opposite_side := by
    rw [oppositeSide_addOrderOutcome, if_neg hc]
  have htr : tradesOf (addOrderOutcome b order).events
      = (sweepLevels b.symbol_ (decide (order.side = OrderSide.BUY)) order
          (oppositeSide b order.side) b.order_lookup_).trades := by
    rw [tradesOf_addOrderOutcome, if_neg hc]
  have hmain : tradedQuantity (tradesOf (addOrderOutcome b order).events) = order.quantity
      ∨ ∀ e ∈ oppositeSide (addOrderOutcome b order).book order.side,
          ¬ crosses order.side order.price e.1 := by
    rw [hopp, htr]
    rcases sweepBook_complete b order hmap hq with h0 | ⟨_, hno⟩
    · left
      have := sweepBook_residual b order
      linarith
    · right; exact hno
  refine ⟨?_, ?_, ?_, hmain, ?_, ?_, ?_, ?_⟩
  · unfold addOrderOutcome
    rw [if_neg hv]
    split_ifs <;> rfl
  · rw [hbook]; exact ownSide_sweepBook b order
  · rw [htr]; exact sweepLevels_trades_cross b order
  · intro hs hp
    rcases hmain with h0 | hno
    · left; exact h0
    · right
      apply List.eq_nil_iff_forall_not_mem.mpr
      intro e he
      have := hno e (by simpa [oppositeSide, hs] using he)
      simp only [crosses, hs, hp, not_true_eq_false] at this
  · intro hs hp
    rcases hmain with h0 | hno
    · left; exact h0
    · right
      intro e he
      have := hno e (by simpa [oppositeSide, hs] using he)
      simpa only [crosses, hs, hp] using this
  · intro P hs hp
    rcases hmain with h0 | hno
    · left; exact h0
    · right
      intro e he
      have := hno e (by simpa [oppositeSide, hs] using he)
      simp only [crosses, hs, hp, not_le] at this
      exact this
  · intro P hs hp
    rcases hmain with h0 | hno
    · left; exact h0
    · right
      intro e he
      have := hno e (by simpa [oppositeSide, hs] using he)
      simp only [crosses, hs, hp, ge_iff_le, not_le] at this
      exact this

theorem market_crossing_bound_witness :
    MapOrdered bookS4 ∧ OrderType.MARKET = OrderType.MARKET ∧ (0 : Quantity) < 9
      ∧ ∃ r, addOrder bookS4 (mkOrder 20 OrderSide.BUY OrderType.MARKET 9 none) = some r
        ∧ r.ret = true
        ∧ ownSide r.book OrderSide.BUY = ownSide bookS4 OrderSide.BUY
        ∧ (∀ t ∈ tradesOf r.events, crosses OrderSide.BUY none t.price)
        ∧ (tradedQuantity (tradesOf r.events) = 9
            ∨ ∀ e ∈ oppositeSide r.book OrderSide.BUY, ¬ crosses OrderSide.BUY none e.1)
        ∧ (OrderSide.BUY = OrderSide.BUY → (none : Option Price) = none →
            tradedQuantity (tradesOf r.events) = 9 ∨ r.book.asks_ = [])
        ∧ (OrderSide.BUY = OrderSide.SELL → (none : Option Price) = none →
            tradedQuantity (tradesOf r.events) = 9 ∨ ∀ e ∈ r.book.bids_, ¬ e.1 ≥ 0)
        ∧ (∀ P, OrderSide.BUY = OrderSide.BUY → (none : Option Price) = some P →
            tradedQuantity (tradesOf r.events) = 9 ∨ ∀ e ∈ r.book.asks_, e.1 > P)
        ∧ (∀ P, OrderSide.BUY = OrderSide.SELL → (none : Option Price) = some P →
            tradedQuantity (tradesOf r.events) = 9 ∨ ∀ e ∈ r.book.bids_, e.1 < P) :=
  ⟨by decide, rfl, by decide,
   market_crossing_bound bookS4 (mkOrder 20 OrderSide.BUY OrderType.MARKET 9 none)
     (by decide) rfl (by decide)⟩

/-! ## The amount filled -/

theorem matchLevel_resting (symbol_ : String) (price : Price) (os : List Order) :
    ∀ (order : Order) (tq : Quantity) (lk : Lookup),
      ((matchLevel symbol_ price order os tq lk).orders.map (fun o => o.quantity)).sum
        + tradedQuantity (matchLevel symbol_ price order os tq lk).trades
        = (os.map (fun o => o.quantity)).sum := by
  induction os with
  | nil => intro order tq lk; simp [matchLevel, tradedQuantity]
  | cons it rest ih =>
    intro order tq lk
    by_cases hq : order.quantity ≤ 0
    · rw [matchLevel_nonpos _ _ _ _ _ _ hq]
      simp [tradedQuantity]
    · unfold matchLevel
      simp only [if_neg hq]
      split_ifs with h0
      · have := ih { order with quantity := order.quantity - min order.quantity it.quantity }
          (tq - min order.quantity it.quantity) (Lookup.erase it.id lk)
        simp only [tradedQuantity, List.map_cons, List.sum_cons] at this ⊢
        linarith
      · have := ih { order with quantity := order.quantity - min order.quantity it.quantity }
          (tq - min order.quantity it.quantity) lk
        simp only [tradedQuantity, List.map_cons, List.sum_cons] at this ⊢
        linarith

theorem sweepLevels_resting (symbol_ : String) (is_buy : Bool) (opp : Ladder) :
    ∀ (order : Order) (lk : Lookup),
      restingQuantity (sweepLevels symbol_ is_buy order opp lk).opposite_side
        + tradedQuantity (sweepLevels symbol_ is_buy order opp lk).trades
        = restingQuantity opp := by
  induction opp with
  | nil => intro order lk; simp [sweepLevels, restingQuantity, tradedQuantity]
  | cons e0 rest ih =>
    obtain ⟨p, l⟩ := e0
    intro order lk
    refine sweepLevels_cases symbol_ is_buy order p l rest lk
      (fun s => restingQuantity s.opposite_side + tradedQuantity s.trades
        = restingQuantity ((p, l) :: rest)) ?_ ?_ ?_
    · intro _; simp [tradedQuantity]
    · intro _ _ hempty
      have h1 := matchLevel_resting symbol_ p l.orders order l.total_quantity lk
      have h2 := ih (matchLevel symbol_ p order l.orders l.total_quantity lk).order
        (matchLevel symbol_ p order l.orders l.total_quantity lk).lookup
      rw [hempty] at h1
      simp only [tradedQuantity_append, restingQuantity, List.map_cons, List.sum_cons,
        List.map_nil, List.sum_nil] at h1 h2 ⊢
      linarith
    · intro _ _ _ _
      have h1 := matchLevel_resting symbol_ p l.orders order l.total_quantity lk
      simp only [restingQuantity, List.map_cons, List.sum_cons] at h1 ⊢
      linarith

theorem matchLevel_orders_nonneg (symbol_ : String) (price : Price) (os : List Order) :
    (∀ o ∈ os, 0 ≤ o.quantity) → ∀ (order : Order) (tq : Quantity) (lk : Lookup),
      ∀ o ∈ (matchLevel symbol_ price order os tq lk).orders, 0 ≤ o.quantity := by
  induction os with
  | nil => intro _ order tq lk o ho; simp [matchLevel] at ho
  | cons it rest ih =>
    intro hnn order tq lk o ho
    have hit : 0 ≤ it.quantity := hnn it (List.mem_cons_self _ _)
    have hrest : ∀ o ∈ rest, 0 ≤ o.quantity := fun o ho => hnn o (List.mem_cons_of_mem _ ho)
    by_cases hq : order.quantity ≤ 0
    · rw [matchLevel_nonpos _ _ _ _ _ _ hq] at ho
      exact hnn o ho
    · unfold matchLevel at ho
      simp only [if_neg hq] at ho
      split_ifs at ho
      · exact ih hrest _ _ _ o ho
      · simp only [List.mem_cons] at ho
        rcases ho with rfl | ho
        · have := min_le_right order.quantity it.quantity
          simp only
          linarith
        · exact ih hrest _ _ _ o ho

theorem sum_quantities_nonneg (os : List Order) (h : ∀ o ∈ os, 0 ≤ o.quantity) :
    0 ≤ (os.map (fun o => o.quantity)).sum := by
  apply List.sum_nonneg
  intro x hx
  obtain ⟨o, ho, rfl⟩ := List.mem_map.mp hx
  exact h o ho

theorem restingQuantity_nonneg (m : Ladder) (h : ∀ e ∈ m, ∀ o ∈ e.2.orders, 0 ≤ o.quantity) :
    0 ≤ restingQuantity m := by
  apply List.sum_nonneg
  intro x hx
  obtain ⟨e, he, rfl⟩ := List.mem_map.mp hx
  exact sum_quantities_nonneg _ (h e he)

theorem crossingQuantity_nonneg (side : OrderSide) (op : Option Price) (m : Ladder)
    (h : ∀ e ∈ m, ∀ o ∈ e.2.orders, 0 ≤ o.quantity) : 0 ≤ crossingQuantity side op m := by
  apply restingQuantity_nonneg
  intro e he
  exact h e (List.mem_of_mem_filter he)

theorem crossingQuantity_cons_pos (side : OrderSide) (op : Option Price) (p : Price)
    (l : OrderBookLevel) (rest : Ladder) (h : crosses side op p) :
    crossingQuantity side op ((p, l) :: rest)
      = (l.orders.map (fun o => o.quantity)).sum + crossingQuantity side op rest := by
  simp [crossingQuantity, crossingLevels, restingQuantity, h]

theorem crossingQuantity_none (side : OrderSide) (op : Option Price) (m : Ladder)
    (h : ∀ e ∈ m, ¬ crosses side op e.1) : crossingQuantity side op m = 0 := by
  have : crossingLevels side op m = [] := by
    apply List.filter_eq_nil_iff.mpr
    intro e he
    simpa using h e he
  simp [crossingQuantity, this, restingQuantity]

theorem ordered_tail (d : Bool) (e : Price × OrderBookLevel) (rest : Ladder)
    (h : Ladder.Ordered d (e :: rest)) : Ladder.Ordered d rest :=
  (List.pairwise_cons.mp h).2

/-- The sweep trades the smaller of the order's quantity and the quantity resting in the
crossing levels. -/
theorem sweepLevels_fill (symbol_ : String) (side : OrderSide) (op : Option Price)
    (opp : Ladder) :
    Ladder.Ordered (!decide (side = OrderSide.BUY)) opp →
    (∀ e ∈ opp, ∀ o ∈ e.2.orders, 0 ≤ o.quantity) →
    ∀ (order : Order) (lk : Lookup), order.price = op → 0 ≤ order.quantity →
      tradedQuantity (sweepLevels symbol_ (decide (side = OrderSide.BUY)) order opp lk).trades
        = min order.quantity (crossingQuantity side op opp) := by
  induction opp with
  | nil =>
    intro _ _ order lk _ hq
    simp [sweepLevels, tradedQuantity, crossingQuantity, crossingLevels, restingQuantity, hq]
  | cons e0 rest ih =>
    obtain ⟨p, l⟩ := e0
    intro hord hnn order lk hp hq
    have hl : ∀ o ∈ l.orders, 0 ≤ o.quantity := hnn (p, l) (List.mem_cons_self _ _)
    have hrest : ∀ e ∈ rest, ∀ o ∈ e.2.orders, 0 ≤ o.quantity :=
      fun e he => hnn e (List.mem_cons_of_mem _ he)
    have hcq := crossingQuantity_nonneg side op ((p, l) :: rest) hnn
    have hcqrest := crossingQuantity_nonneg side op rest hrest
    refine sweepLevels_cases symbol_ (decide (side = OrderSide.BUY)) order p l rest lk
      (fun s => tradedQuantity s.trades
        = min order.quantity (crossingQuantity side op ((p, l) :: rest))) ?_ ?_ ?_
    · intro hstop
      simp only [tradedQuantity, List.map_nil, List.sum_nil]
      by_cases hq0 : order.quantity > 0
      · have hcm : cannotMatch (decide (side = OrderSide.BUY)) p order.price = true := by
          cases hc : cannotMatch (decide (side = OrderSide.BUY)) p order.price
          · exact absurd ⟨hq0, hc⟩ hstop
          · rfl
        have hnone : crossingQuantity side op ((p, l) :: rest) = 0 := by
          apply crossingQuantity_none
          intro e he hcross
          have hce := (cannotMatch_eq_false_iff side op e.1).mpr hcross
          rw [← hp] at hce
          rcases List.mem_cons.mp he with rfl | he
          · rw [hcm] at hce; exact absurd hce (by decide)
          · have hlater := cannotMatch_later (decide (side = OrderSide.BUY)) p e.1
              order.price hcm ((List.pairwise_cons.mp hord).1 e he)
            rw [hlater] at hce; exact absurd hce (by decide)
        rw [hnone]
        exact (min_eq_right (le_of_lt hq0)).symm
      · have : order.quantity = 0 := le_antisymm (not_lt.mp hq0) hq
        rw [this]
        exact (min_eq_left hcq).symm
    · intro hq0 hcm hempty
      have hcross : crosses side op p := by
        rw [← hp]; exact (cannotMatch_eq_false_iff side order.price p).mp hcm
      have h1 := matchLevel_resting symbol_ p l.orders order l.total_quantity lk
      have h2 := matchLevel_conserve symbol_ p l.orders order l.total_quantity lk
      have h3 := matchLevel_nonneg symbol_ p l.orders order l.total_quantity lk hq
      have hprice : (matchLevel symbol_ p order l.orders l.total_quantity lk).order.price
          = op := by
        rw [matchLevel_order]; exact hp
      have h4 := ih (ordered_tail _ _ _ hord) hrest
        (matchLevel symbol_ p order l.orders l.total_quantity lk).order
        (matchLevel symbol_ p order l.orders l.total_quantity lk).lookup hprice h3
      rw [hempty] at h1
      simp only [List.map_nil, List.sum_nil, zero_add] at h1
      simp only [tradedQuantity_append]
      rw [h4, crossingQuantity_cons_pos side op p l rest hcross, ← h1,
        ← min_add_add_left]
      congr 1
      linarith
    · intro hq0 hcm hne hzero
      have hcross : crosses side op p := by
        rw [← hp]; exact (cannotMatch_eq_false_iff side order.price p).mp hcm
      have h1 := matchLevel_resting symbol_ p l.orders order l.total_quantity lk
      have h2 := matchLevel_conserve symbol_ p l.orders order l.total_quantity lk
      have h5 := sum_quantities_nonneg _
        (matchLevel_orders_nonneg symbol_ p l.orders hl order l.total_quantity lk)
      rw [crossingQuantity_cons_pos side op p l rest hcross]
      have hT : tradedQuantity (matchLevel symbol_ p order l.orders l.total_quantity lk).trades
          = order.quantity := by linarith
      simp only
      rw [hT]
      apply (min_eq_left _).symm
      linarith

/-- Claim C24, counterexample: a LIMIT buy of 3 without a price, against a book with an
ask of 5 at 100 (which crosses an order without a price), is rejected by the validation of
`addOrder` and trades nothing, while `min(q, L) = min(3, 5) = 3`. -/
theorem limit_without_price_fills_nothing :
    ∃ r, addOrder bookS1 (mkOrder 20 OrderSide.BUY OrderType.LIMIT 3 none) = some r
      ∧ tradedQuantity (tradesOf r.events) = 0
      ∧ min (3 : Quantity) (crossingQuantity OrderSide.BUY none
            (oppositeSide bookS1 OrderSide.BUY)) = 3
      ∧ tradedQuantity (tradesOf r.events)
          ≠ min (3 : Quantity) (crossingQuantity OrderSide.BUY none
              (oppositeSide bookS1 OrderSide.BUY)) :=
  ⟨addOrderOutcome bookS1 (mkOrder 20 OrderSide.BUY OrderType.LIMIT 3 none),
    by decide, by decide, by decide, by decide⟩

/-- Claim C24 as amended: on a book whose ladders are ordered as their maps keep them and
in which every resting order has a quantity `≥ 0`, for every order with quantity `q > 0`
that is not a LIMIT order without a price, the quantities of the trades emitted by
`addOrder` sum to `min(q, L)`, where `L` is the sum of the quantities of the orders
resting on the opposite side in the levels that cross the order (buy: level price `≤`
the order's price, or every level when the price is absent; sell: level price `≥` the
order's price, or `≥ 0` when absent); and the quantity resting on the opposite side
decreases by exactly that sum. -/
theorem exact_fill_amount (b : OrderBook) (order : Order) (hmap : MapOrdered b)
    (hnonneg : ∀ e ∈ b.bids_ ++ b.asks_, ∀ o ∈ e.2.orders, 0 ≤ o.quantity)
    (hq : 0 < order.quantity)
    (hv : ¬ (order.type = OrderType.LIMIT ∧ order.price = none)) :
    ∃ r, addOrder b order = some r
      ∧ tradedQuantity (tradesOf r.events)
          = min order.quantity
              (crossingQuantity order.side order.price (oppositeSide b order.side))
      ∧ restingQuantity (oppositeSide b order.side)
            - restingQuantity (oppositeSide r.book order.side)
          = tradedQuantity (tradesOf r.events) := by
  refine ⟨addOrderOutcome b order, addOrder_eq b order, ?_⟩
  have hc : ¬ ((order.type = OrderType.LIMIT ∧ order.price = none) ∨ order.quantity ≤ 0) := by
    intro h
    rcases h with h | h
    · exact hv h
    · exact absurd hq (not_lt.mpr h)
  have hopp : ∀ e ∈ oppositeSide b order.side, ∀ o ∈ e.2.orders, 0 ≤ o.quantity := by
    intro e he
    apply hnonneg e
    cases hs : order.side <;> simp [oppositeSide, hs] at he <;> simp [he]
  rw [tradesOf_addOrderOutcome, if_neg hc, oppositeSide_addOrderOutcome, if_neg hc]
  constructor
  · exact sweepLevels_fill b.symbol_ order.side order.price (oppositeSide b order.side)
      (oppositeSide_ordered_not b order.side hmap) hopp order b.order_lookup_ rfl
      (le_of_lt hq)
  · have := sweepLevels_resting b.symbol_ (decide (order.side = OrderSide.BUY))
      (oppositeSide b order.side) order b.order_lookup_
    linarith

theorem exact_fill_amount_witness :
    MapOrdered bookS4
      ∧ (∀ e ∈ bookS4.bids_ ++ bookS4.asks_, ∀ o ∈ e.2.orders, 0 ≤ o.quantity)
      ∧ (0 : Quantity) < 4
      ∧ ¬ (OrderType.IOC = OrderType.LIMIT ∧ some (100 : Price) = none)
      ∧ ∃ r, addOrder bookS4 (mkOrder 20 OrderSide.BUY OrderType.IOC 4 (some 100)) = some r
        ∧ tradedQuantity (tradesOf r.events)
            = min 4 (crossingQuantity OrderSide.BUY (some 100)
                (oppositeSide bookS4 OrderSide.BUY))
        ∧ restingQuantity (oppositeSide bookS4 OrderSide.BUY)
              - restingQuantity (oppositeSide r.book OrderSide.BUY)
            = tradedQuantity (tradesOf r.events) :=
  ⟨by decide, by decide, by decide, by decide,
   exact_fill_amount bookS4 (mkOrder 20 OrderSide.BUY OrderType.IOC 4 (some 100))
     (by decide) (by decide) (by decide) (by decide)⟩

/-! ## Queue order defines the history -/

theorem handleOrderEvent_eq (e : MatchingEngine) (event : OrderEvent) :
    handleOrderEvent e event
      = some ({ e with order_books_ := (handleOrderEventOutcome e.order_books_ event).1 },
              (handleOrderEventOutcome e.order_books_ event).2) := by
  cases ht : event.type with
  | SUBMIT =>
    cases hf : Registry.find e.order_books_ event.symbol with
    | none =>
      simp only [handleOrderEvent, handleOrderEventOutcome, ht, getOrCreateOrderBook, hf,
        addOrder_eq, Registry.assign_absent event.symbol _ _ e.order_books_ hf]
    | some book =>
      simp only [handleOrderEvent, handleOrderEventOutcome, ht, getOrCreateOrderBook, hf,
        addOrder_eq]
  | CANCEL =>
    cases hf : Registry.find e.order_books_ event.symbol with
    | none => simp only [handleOrderEvent, handleOrderEventOutcome, ht, hf]
    | some book => simp only [handleOrderEvent, handleOrderEventOutcome, ht, hf]
  | MODIFY =>
    cases hf : Registry.find e.order_books_ event.symbol with
    | none => simp only [handleOrderEvent, handleOrderEventOutcome, ht, hf]
    | some book => simp only [handleOrderEvent, handleOrderEventOutcome, ht, hf]

theorem handleEvents_eq (events : List OrderEvent) :
    ∀ e : MatchingEngine, handleEvents e events
      = some ({ e with order_books_ := (handleEventsOutcome e.order_books_ events).1 },
              (handleEventsOutcome e.order_books_ events).2) := by
  induction events with
  | nil => intro e; rfl
  | cons event rest ih =>
    intro e
    simp only [handleEvents, handleOrderEvent_eq, ih, handleEventsOutcome]

theorem handleEventsOutcome_append (xs ys : List OrderEvent) :
    ∀ books : Registry, handleEventsOutcome books (xs ++ ys)
      = ((handleEventsOutcome (handleEventsOutcome books xs).1 ys).1,
         (handleEventsOutcome books xs).2
           ++ (handleEventsOutcome (handleEventsOutcome books xs).1 ys).2) := by
  induction xs with
  | nil => intro books; simp [handleEventsOutcome]
  | cons x rest ih =>
    intro books
    show handleEventsOutcome books (x :: (rest ++ ys)) = _
    simp only [handleEventsOutcome, ih, List.append_assoc]

theorem processOrdersStep_cons (e : MatchingEngine) (event : OrderEvent)
    (rest : List OrderEvent) (h : e.order_queue_ = event :: rest) :
    processOrdersStep e
      = some (WorkerStep.handled event
          { e with order_queue_ := rest,
                   order_books_ := (handleOrderEventOutcome e.order_books_ event).1 }
          (handleOrderEventOutcome e.order_books_ event).2) := by
  simp only [processOrdersStep, h, handleOrderEvent_eq]

theorem processOrders_drain (queue : List OrderEvent) :
    ∀ e : MatchingEngine, e.order_queue_ = queue →
      processOrders (queue.length + 1) e
        = some ({ e with order_queue_ := [],
                         order_books_ := (handleEventsOutcome e.order_books_ queue).1 },
                (handleEventsOutcome e.order_books_ queue).2) := by
  induction queue with
  | nil =>
    intro e h
    have he : e = { e with order_queue_ := [], order_books_ := e.order_books_ } := by
      cases e; simp only at h; simp [h]
    simp only [processOrders, processOrdersStep, h, handleEventsOutcome]
    split_ifs <;> simp [← he]
  | cons event rest ih =>
    intro e h
    have := ih { e with order_queue_ := rest,
                        order_books_ := (handleOrderEventOutcome e.order_books_ event).1 } rfl
    rw [List.length_cons, processOrders, processOrdersStep_cons e event rest h]
    simp only [this, handleEventsOutcome]

theorem applyEngineCall_eq (e : MatchingEngine) (c : EngineCall) :
    applyEngineCall e c
      = (true, { e with order_queue_ := e.order_queue_ ++ [c.event] }) := by
  cases c <;> rfl

/-- What a run keeps true: the registry and the sink calls are those of handling the
handled events in order from an empty registry, the handled events followed by the queue
are the events enqueued so far, and every call has returned `true`. -/
theorem runActions_history (acts : List Action) :
    ∀ (r : EngineRun) (q : List OrderEvent),
      r.engine.order_books_ = (handleEventsOutcome [] r.handled).1 →
      r.events = (handleEventsOutcome [] r.handled).2 →
      r.handled ++ r.engine.order_queue_ = q →
      (∀ x ∈ r.returned, x = true) →
      ∃ r1, runActions r acts = some r1
        ∧ r1.engine.order_books_ = (handleEventsOutcome [] r1.handled).1
        ∧ r1.events = (handleEventsOutcome [] r1.handled).2
        ∧ r1.handled ++ r1.engine.order_queue_ = q ++ enqueued acts
        ∧ (∀ x ∈ r1.returned, x = true) := by
  induction acts with
  | nil =>
    intro r q h1 h2 h3 h4
    exact ⟨r, rfl, h1, h2, by simpa [enqueued] using h3, h4⟩
  | cons a rest ih =>
    intro r q h1 h2 h3 h4
    cases a with
    | call c =>
      obtain ⟨r1, hr1, k1, k2, k3, k4⟩ := ih
        { r with engine := (applyEngineCall r.engine c).2,
                 returned := r.returned ++ [(applyEngineCall r.engine c).1] }
        (q ++ [c.event])
        (by simp only [applyEngineCall_eq]; exact h1)
        h2
        (by simp only [applyEngineCall_eq]; rw [← List.append_assoc, h3])
        (by
          intro x hx
          simp only [applyEngineCall_eq, List.mem_append, List.mem_singleton] at hx
          rcases hx with hx | hx
          · exact h4 x hx
          · exact hx)
      refine ⟨r1, ?_, k1, k2, ?_, k4⟩
      · simp only [runActions, stepAction]
        exact hr1
      · rw [k3]; simp [enqueued]
    | stop =>
      obtain ⟨r1, hr1, k1, k2, k3, k4⟩ := ih
        { r with engine := stopOrderProcessing r.engine } q h1 h2 h3 h4
      refine ⟨r1, ?_, k1, k2, ?_, k4⟩
      · simp only [runActions, stepAction]
        exact hr1
      · rw [k3]; simp [enqueued]
    | work =>
      cases hqueue : r.engine.order_queue_ with
      | nil =>
        obtain ⟨r1, hr1, k1, k2, k3, k4⟩ := ih r q h1 h2 h3 h4
        refine ⟨r1, ?_, k1, k2, ?_, k4⟩
        · simp only [runActions, stepAction, processOrdersStep, hqueue]
          split_ifs <;> exact hr1
        · rw [k3]; simp [enqueued]
      | cons event queue =>
        obtain ⟨r1, hr1, k1, k2, k3, k4⟩ := ih
          { r with
            engine :=
              { r.engine with
                order_queue_ := queue,
                order_books_ := (handleOrderEventOutcome r.engine.order_books_ event).1 },
            handled := r.handled ++ [event],
            events := r.events ++ (handleOrderEventOutcome r.engine.order_books_ event).2 }
          q
          (by simp only [handleEventsOutcome_append, handleEventsOutcome, ← h1])
          (by simp only [handleEventsOutcome_append, handleEventsOutcome, ← h1, ← h2,
                List.append_nil])
          (by
            rw [← h3, hqueue]
            simp)
          h4
        refine ⟨r1, ?_, k1, k2, ?_, k4⟩
        · simp only [runActions, stepAction, processOrdersStep_cons r.engine event queue hqueue]
          exact hr1
        · rw [k3]; simp [enqueued]

theorem runActions_new (acts : List Action) :
    ∃ r, runActions EngineRun.new acts = some r
      ∧ r.engine.order_books_ = (handleEventsOutcome [] r.handled).1
      ∧ r.events = (handleEventsOutcome [] r.handled).2
      ∧ r.handled ++ r.engine.order_queue_ = enqueued acts
      ∧ (∀ x ∈ r.returned, x = true) := by
  obtain ⟨r, hr, k1, k2, k3, k4⟩ := runActions_history acts EngineRun.new [] rfl rfl rfl
    (by intro x hx; simp [EngineRun.new] at hx)
  exact ⟨r, hr, k1, k2, by simpa using k3, k4⟩

/-- A schedule run to completion gives the registry and the sink calls of handling the
enqueued events in order. -/
theorem runToCompletion_eq (acts : List Action) :
    runToCompletion acts
      = some (handleEventsOutcome [] (enqueued acts)) := by
  obtain ⟨r, hr, k1, k2, k3, _⟩ := runActions_new acts
  simp only [runToCompletion, hr, processOrders_drain r.engine.order_queue_ r.engine rfl]
  rw [← k3, handleEventsOutcome_append, ← k1, ← k2]

/-- Claim C21: each call of the engine's `submitOrder`, `cancelOrder` or `modifyOrder`
returns `true` and appends exactly its one event to the tail of the queue, touching no
book; a pass of the worker on a non-empty queue removes the event at the head and handles
it.  So after every schedule of calls, worker passes and a stop on a fresh engine, every
call has returned `true`, the events handled followed by the events still queued are the
events enqueued, in order, and the registry and the sink calls are those of handling the
handled events one after the other on a fresh engine.  Once the worker has handled what
is left in the queue, the registry and the sequence of sink calls (hence of trades) are
those of handling the enqueued sequence on a fresh engine: two schedules that enqueue the
same sequence end with the same books and the same sink calls. -/
theorem queue_order_defines_history (acts : List Action) :
    (∀ (e : MatchingEngine) (c : EngineCall),
        (applyEngineCall e c).1 = true
          ∧ (applyEngineCall e c).2.order_queue_ = e.order_queue_ ++ [c.event]
          ∧ (applyEngineCall e c).2.order_books_ = e.order_books_)
      ∧ (∀ (e : MatchingEngine) (event : OrderEvent) (rest : List OrderEvent),
          e.order_queue_ = event :: rest →
          ∃ e1 events, processOrdersStep e = some (WorkerStep.handled event e1 events)
            ∧ e1.order_queue_ = rest
            ∧ handleOrderEvent { e with order_queue_ := rest } event = some (e1, events))
      ∧ (∃ r, runActions EngineRun.new acts = some r
          ∧ (∀ x ∈ r.returned, x = true)
          ∧ r.handled ++ r.engine.order_queue_ = enqueued acts
          ∧ (∃ e1, handleEvents MatchingEngine.new r.handled = some (e1, r.events)
              ∧ e1.order_books_ = r.engine.order_books_)
          ∧ ∃ x, processOrders (r.engine.order_queue_.length + 1) r.engine = some x
              ∧ x.1.order_queue_ = [])
      ∧ (∃ books events e1, runToCompletion acts = some (books, events)
          ∧ handleEvents MatchingEngine.new (enqueued acts) = some (e1, events)
          ∧ e1.order_books_ = books)
      ∧ (∀ acts2, enqueued acts2 = enqueued acts →
          runToCompletion acts2 = runToCompletion acts) := by
  refine ⟨?_, ?_, ?_, ?_, ?_⟩
  · intro e c
    rw [applyEngineCall_eq]
    exact ⟨rfl, rfl, rfl⟩
  · intro e event rest h
    refine ⟨_, _, processOrdersStep_cons e event rest h, rfl, ?_⟩
    rw [handleOrderEvent_eq]
  · obtain ⟨r, hr, k1, k2, k3, k4⟩ := runActions_new acts
    have hev : handleEvents MatchingEngine.new r.handled
        = some ({ MatchingEngine.new with
                  order_books_ := (handleEventsOutcome [] r.handled).1 }, r.events) := by
      rw [handleEvents_eq, k2]; rfl
    refine ⟨r, hr, k4, k3, ⟨_, hev, ?_⟩,
      ⟨_, processOrders_drain r.engine.order_queue_ r.engine rfl, rfl⟩⟩
    rw [k1]
  · exact ⟨_, _, _, runToCompletion_eq acts,
      handleEvents_eq (enqueued acts) MatchingEngine.new, rfl⟩
  · intro acts2 h
    rw [runToCompletion_eq, runToCompletion_eq, h]

end crypto_matching_engine
